import Mathlib

/-!
# DNS message codec (`dns-server/app/message.go`)

A shallow embedding of the Go codec and theorems about it.

Conventions of the embedding
* a Go `byte`, `uint16`, `uint32` is a `Nat`; every place where Go truncates
  (`byte(x)`, `uint16(x)`, a shift on a `uint8`) carries an explicit `%`;
* a Go `string` is the list of its bytes;
* a Go `int` that can be negative is an `Int`;
* a Go slice is a `Slice`: the visible elements together with the rest of the
  backing array up to the capacity, because Go bounds a slice expression
  `s[lo:hi]` by `cap(s)` and an index expression `s[i]` by `len(s)`;
* a function that can panic returns `Go α`.
-/

namespace DnsServer

/-! ## Run-time model -/

/-- Result of running Go code that may panic at run time. -/
inductive Go (α : Type) where
  | ret (a : α)
  | panic
  deriving DecidableEq, Repr

/-- Sequencing of code that may panic. -/
def Go.bind {α β : Type} (x : Go α) (f : α → Go β) : Go β :=
  match x with
  | .ret a => f a
  | .panic => .panic

/-- Equality of Go's `(value, error)` results is decidable. -/
instance instDecidableEqExcept {ε α : Type} [DecidableEq ε] [DecidableEq α] :
    DecidableEq (Except ε α) := fun a b =>
  match a, b with
  | .ok x, .ok y =>
    if h : x = y then isTrue (by rw [h]) else isFalse (by intro h2; cases h2; exact h rfl)
  | .error x, .error y =>
    if h : x = y then isTrue (by rw [h]) else isFalse (by intro h2; cases h2; exact h rfl)
  | .ok _, .error _ => isFalse (by intro h; cases h)
  | .error _, .ok _ => isFalse (by intro h; cases h)

/-- A Go slice: `elems` are the `len(s)` visible elements, `spare` the
elements of the backing array between `len(s)` and `cap(s)`. -/
structure Slice where
  elems : List Nat
  spare : List Nat
  deriving DecidableEq, Repr

/-- The backing array seen from the first element of the slice. -/
def Slice.backing (s : Slice) : List Nat := s.elems ++ s.spare

/-- Go `len(s)`. -/
def Slice.len (s : Slice) : Nat := s.elems.length

/-- Go `cap(s)`. -/
def Slice.cap (s : Slice) : Nat := s.elems.length + s.spare.length

/-- Go index expression `s[i]`: panics unless `0 <= i < len(s)`. -/
def Slice.index (s : Slice) (i : Int) : Go Nat :=
  if i < 0 then .panic
  else
    match s.elems[i.toNat]? with
    | some b => .ret b
    | none => .panic

/-- Go slice expression `s[lo:hi]`: panics unless `lo <= hi <= cap(s)`. -/
def Slice.slice (s : Slice) (lo hi : Nat) : Go Slice :=
  if lo ≤ hi ∧ hi ≤ s.cap then
    .ret { elems := (s.backing.take hi).drop lo, spare := s.backing.drop hi }
  else .panic

/-- A freshly built slice whose capacity equals its length. -/
def Slice.ofList (l : List Nat) : Slice := { elems := l, spare := [] }

/-- Go `binary.BigEndian.Uint16(b)`: reads `b[0]` and `b[1]`. -/
def bigEndianUint16 (b : Slice) : Go Nat :=
  (b.index 1).bind fun b1 =>
  (b.index 0).bind fun b0 =>
  .ret (b0 * 256 + b1)

/-- Go `binary.BigEndian.AppendUint16(nil, v)`. -/
def appendUint16 (v : Nat) : List Nat := [v / 256 % 256, v % 256]

/-- Go `binary.BigEndian.AppendUint32(nil, v)`. -/
def appendUint32 (v : Nat) : List Nat :=
  [v / 16777216 % 256, v / 65536 % 256, v / 256 % 256, v % 256]

/-- Go `strings.Split(s, sep)` for a one-byte separator. -/
def stringsSplit (sep : Nat) : List Nat → List (List Nat)
  | [] => [[]]
  | c :: cs =>
    if c = sep then [] :: stringsSplit sep cs
    else
      match stringsSplit sep cs with
      | [] => [[c]]
      | p :: ps => (c :: p) :: ps

/-- Go `strings.Join(parts, sep)` for a one-byte separator. -/
def stringsJoin (sep : Nat) : List (List Nat) → List Nat
  | [] => []
  | [p] => p
  | p :: q :: ps => p ++ sep :: stringsJoin sep (q :: ps)

/-- Position of the first byte equal to `b`, if any. -/
def firstIndex (b : Nat) : List Nat → Option Nat
  | [] => none
  | c :: cs => if c = b then some 0 else (firstIndex b cs).map (· + 1)

/-- Go `bytes.Index(data, []byte{b})`: `-1` when `b` does not occur. -/
def bytesIndex (data : List Nat) (b : Nat) : Int :=
  match firstIndex b data with
  | some k => (k : Int)
  | none => -1

/-! ## Data model -/

/-- Go `ErrorSection` constants. -/
inductive ErrorSection where
  | HeaderSection
  | RequestSection
  | ResponseSection
  deriving DecidableEq, Repr

/-- Go `ParseError`. -/
structure ParseError where
  Section : ErrorSection
  Index : Int
  Property : String
  Reason : String
  deriving DecidableEq, Repr

/-- Go `dnsQuestion`; `Typ` is the field `Type`. -/
structure dnsQuestion where
  Name : List Nat
  Typ : Nat
  Class : Nat
  deriving DecidableEq, Repr

/-- Go `dnsAnswer`; `Typ` is the field `Type`. -/
structure dnsAnswer where
  Name : List Nat
  Typ : Nat
  Class : Nat
  TTL : Nat
  RdLength : Nat
  Rdata : List Nat
  deriving DecidableEq, Repr

/-- Go `headerFlags`. -/
structure headerFlags where
  QueryResInd : Bool
  OpCode : Nat
  AuthAns : Bool
  Tc : Bool
  RecrDes : Bool
  RecrAvl : Bool
  Reserved : Nat
  ResCode : Nat
  deriving DecidableEq, Repr

/-- Go `dnsHeader`. -/
structure dnsHeader where
  Id : Nat
  flags : headerFlags
  Qcount : Nat
  ARecCount : Nat
  AuthRecCount : Nat
  AddRecCount : Nat
  deriving DecidableEq, Repr

/-- Go `DnsMessage`. -/
structure DnsMessage where
  header : dnsHeader
  questions : List dnsQuestion
  answers : List dnsAnswer
  deriving DecidableEq, Repr

/-- The value ranges of the Go types of the fields of a `dnsQuestion`. -/
def dnsQuestion.WellTyped (q : dnsQuestion) : Prop :=
  (∀ b ∈ q.Name, b < 256) ∧ q.Typ < 65536 ∧ q.Class < 65536

instance instDecidableQuestionWellTyped (q : dnsQuestion) : Decidable q.WellTyped := by
  unfold dnsQuestion.WellTyped
  infer_instance

/-- The value ranges of the Go types of the fields of a `dnsAnswer`. -/
def dnsAnswer.WellTyped (a : dnsAnswer) : Prop :=
  (∀ b ∈ a.Name, b < 256) ∧ a.Typ < 65536 ∧ a.Class < 65536 ∧ a.TTL < 4294967296
    ∧ a.RdLength < 65536 ∧ ∀ b ∈ a.Rdata, b < 256

instance instDecidableAnswerWellTyped (a : dnsAnswer) : Decidable a.WellTyped := by
  unfold dnsAnswer.WellTyped
  infer_instance

/-- The value ranges of the Go types of the fields of a `headerFlags`. -/
def headerFlags.WellTyped (f : headerFlags) : Prop :=
  f.OpCode < 256 ∧ f.Reserved < 256 ∧ f.ResCode < 256

instance instDecidableFlagsWellTyped (f : headerFlags) : Decidable f.WellTyped := by
  unfold headerFlags.WellTyped
  infer_instance

/-- The value ranges of the Go types of the fields of a `dnsHeader`. -/
def dnsHeader.WellTyped (h : dnsHeader) : Prop :=
  h.Id < 65536 ∧ h.flags.WellTyped ∧ h.Qcount < 65536 ∧ h.ARecCount < 65536
    ∧ h.AuthRecCount < 65536 ∧ h.AddRecCount < 65536

instance instDecidableHeaderWellTyped (h : dnsHeader) : Decidable h.WellTyped := by
  unfold dnsHeader.WellTyped
  infer_instance

/-- A `DnsMessage` all of whose fields are in the range of their Go type. -/
def DnsMessage.WellTyped (m : DnsMessage) : Prop :=
  m.header.WellTyped ∧ (∀ q ∈ m.questions, q.WellTyped) ∧ ∀ a ∈ m.answers, a.WellTyped

instance instDecidableMessageWellTyped (m : DnsMessage) : Decidable m.WellTyped := by
  unfold DnsMessage.WellTyped
  infer_instance

/-- The byte `'.'`. -/
def dot : Nat := 46

/-- Go `headerSize`. -/
def headerSize : Nat := 12

/-! ## Name codec -/

/-- Go `encodeDomain`. -/
def encodeDomain (domain : List Nat) : List Nat :=
  (stringsSplit dot domain).foldl (fun r s => r ++ [s.length % 256] ++ s) [] ++ [0]

/-- The loop of `parseName`; `fuel` bounds the number of iterations and `i`
grows by at least one in each of them. -/
def parseNameLoop (data : Slice) (nullIndex : Int) :
    Nat → Nat → List (List Nat) → Go (List (List Nat))
  | 0, _, parts => .ret parts
  | fuel + 1, i, parts =>
    if (i : Int) < nullIndex then
      (data.index i).bind fun length =>
      (data.slice (i + 1) (i + 1 + length)).bind fun label =>
      parseNameLoop data nullIndex fuel (i + length + 1) (parts ++ [label.elems])
    else .ret parts

/-- Go `parseName`. -/
def parseName (data : Slice) : Go (List Nat × Int) :=
  let nullIndex := bytesIndex data.elems 0
  (parseNameLoop data nullIndex nullIndex.toNat 0 []).bind fun parts =>
  .ret (stringsJoin dot parts, nullIndex + 1)

/-! ## Question and answer codec -/

/-- Go `dnsQuestion.marshall`. -/
def dnsQuestion.marshall (q : dnsQuestion) : List Nat :=
  encodeDomain q.Name ++ appendUint16 q.Typ ++ appendUint16 q.Class

/-- Go `dnsAnswer.marshall`. -/
def dnsAnswer.marshall (a : dnsAnswer) : List Nat :=
  encodeDomain a.Name ++ appendUint16 a.Typ ++ appendUint16 a.Class ++ appendUint32 a.TTL
    ++ appendUint16 a.RdLength ++ a.Rdata

/-- Go `unmarshallAnswer`: one placeholder answer per question. -/
def unmarshallAnswer (qs : List dnsQuestion) : List dnsAnswer :=
  qs.foldl (fun answers q =>
    answers ++ [{ Name := q.Name, Typ := 1, Class := 1, TTL := 60, RdLength := 0, Rdata := [] }]) []

/-- Go `binary.Read(buf, binary.BigEndian, &v)` for a `uint16` destination
whose value is still zero: with fewer than two bytes left the read fails, the
destination keeps its zero value and the buffer is drained. Returns the value
and the unread rest of the buffer. -/
def readUint16 : List Nat → Nat × List Nat
  | b0 :: b1 :: rest => (b0 * 256 + b1, rest)
  | _ => (0, [])

/-- Go `deserializeQuestion`. `bytes.Buffer.Next(n)` skips at most the bytes
that are left. -/
def deserializeQuestion (data : Slice) : Go dnsQuestion :=
  (parseName data).bind fun r =>
  let buf := data.elems.drop r.2.toNat
  let t := readUint16 buf
  let c := readUint16 t.2
  .ret { Name := r.1, Typ := t.1, Class := c.1 }

/-- The loop of `findNullIndexes`. -/
def findNullIndexesLoop (data : Slice) : Nat → Nat → List Nat → Go (List Nat)
  | 0, _, nullIndexes => .ret nullIndexes
  | fuel + 1, i, nullIndexes =>
    if i < data.len then
      (data.index i).bind fun b =>
      if b = 0 then
        (data.index (i + 1)).bind fun c =>
        if c = 0 then findNullIndexesLoop data fuel (i + 1) (nullIndexes ++ [i])
        else findNullIndexesLoop data fuel (i + 1) nullIndexes
      else findNullIndexesLoop data fuel (i + 1) nullIndexes
    else .ret nullIndexes

/-- Go `findNullIndexes`. -/
def findNullIndexes (data : Slice) : Go (List Nat) :=
  findNullIndexesLoop data data.len 0 []

/-- The inner loop of `decompressQuestions`, `for j := pointerValue; j < len(data); j++`.
Returns the grown output and whether the terminating zero was met (the case in
which the source runs `i += 1`). -/
def decompressCopy (data : Slice) : Nat → Int → List Nat → Go (List Nat × Bool)
  | 0, _, out => .ret (out, false)
  | fuel + 1, j, out =>
    if j < (data.len : Int) then
      (data.index j).bind fun b =>
      if b = 0 then .ret (out ++ [b], true)
      else decompressCopy data fuel (j + 1) (out ++ [b])
    else .ret (out, false)

/-- The outer loop of `decompressQuestions`. -/
def decompressLoop (data : Slice) : Nat → Nat → List Nat → Go (List Nat)
  | 0, _, out => .ret out
  | fuel + 1, i, out =>
    if i < data.len then
      (data.index i).bind fun b =>
      if b ≠ 0xC0 then decompressLoop data fuel (i + 1) (out ++ [b])
      else
        (data.slice i (i + 2)).bind fun two =>
        (bigEndianUint16 two).bind fun pointer =>
        let pointerValue : Int := ((pointer &&& 0x3FFF : Nat) : Int) - (headerSize : Int)
        (decompressCopy data data.len pointerValue out).bind fun r =>
        decompressLoop data fuel (if r.2 then i + 1 + 1 else i + 1) r.1
    else .ret out

/-- Go `decompressQuestions`. The result is built by `append` on a slice made
with capacity `len(data)`: its capacity is `len(data)` as long as the output
fits, and otherwise whatever the run-time's growth policy gave, here the
output length plus `growth (len data) (len output)`. A fresh backing array is
zeroed. -/
def decompressQuestions (growth : Nat → Nat → Nat) (data : Slice) : Go Slice :=
  (decompressLoop data data.len 0 []).bind fun out =>
  let cap := if out.length ≤ data.len then data.len
             else out.length + growth data.len out.length
  .ret { elems := out, spare := List.replicate (cap - out.length) 0 }

/-- The loop of `unmarshallQuestion` over `nullIndexes`. -/
def unmarshallQuestionLoop (decompressedData : Slice) (nullIndexes : List Nat) :
    Nat → Nat → List dnsQuestion → Go (List dnsQuestion)
  | 0, _, questions => .ret questions
  | fuel + 1, i, questions =>
    if i < nullIndexes.length then
      match nullIndexes[i]? with
      | none => .panic
      | some ni =>
        let nullIndex := ni + 4
        if i = 0 then
          (decompressedData.slice 0 (nullIndex + 1)).bind fun s =>
          (deserializeQuestion s).bind fun q =>
          unmarshallQuestionLoop decompressedData nullIndexes fuel (i + 1) (questions ++ [q])
        else
          match nullIndexes[i - 1]? with
          | none => .panic
          | some prev =>
            (decompressedData.slice (prev + 1 + 4) (nullIndex + 1)).bind fun s =>
            (deserializeQuestion s).bind fun q =>
            unmarshallQuestionLoop decompressedData nullIndexes fuel (i + 1) (questions ++ [q])
    else .ret questions

/-- Go `unmarshallQuestion`; its error result is always `nil`. -/
def unmarshallQuestion (growth : Nat → Nat → Nat) (data : Slice) : Go (List dnsQuestion) :=
  (decompressQuestions growth data).bind fun decompressedData =>
  (findNullIndexes decompressedData).bind fun nullIndexes =>
  unmarshallQuestionLoop decompressedData nullIndexes nullIndexes.length 0 []

/-! ## Header codec -/

/-- Go `headerFlags.marshall`; the shifts are on `uint8` values. -/
def headerFlags.marshall (f : headerFlags) : List Nat :=
  let first := 0
  let first := if f.QueryResInd then first ||| (1 <<< 7) else first
  let first := first ||| ((f.OpCode <<< 3) % 256)
  let first := if f.AuthAns then first ||| (1 <<< 2) else first
  let first := if f.Tc then first ||| (1 <<< 1) else first
  let first := if f.RecrDes then first ||| 1 else first
  let second := 0
  let second := if f.RecrAvl then second ||| (1 <<< 7) else second
  let second := second ||| ((f.ResCode <<< 4) % 256)
  let second := second ||| f.ResCode
  [first, second]

/-- Go `dnsHeader.marshall`. -/
def dnsHeader.marshall (h : dnsHeader) : List Nat :=
  appendUint16 h.Id ++ (h.flags.marshall.take 2) ++ appendUint16 h.Qcount
    ++ appendUint16 h.ARecCount ++ appendUint16 h.AuthRecCount ++ appendUint16 h.AddRecCount

/-- Go `unmarshallFlags`. -/
def unmarshallFlags (b : Slice) : Go headerFlags :=
  (b.index 0).bind fun first =>
  (b.index 1).bind fun second =>
  let opcode := (first &&& 120) >>> 3
  let rcode := if opcode ≠ 0 then 4 else 0
  .ret { QueryResInd := true
         OpCode := opcode
         AuthAns := decide ((first &&& 4) = 1)
         Tc := decide ((first &&& 2) = 1)
         RecrDes := decide ((first &&& 1) = 1)
         RecrAvl := decide ((second &&& 128) = 1)
         Reserved := (second &&& 112) >>> 4
         ResCode := rcode }

/-- Go `unmarshallHeader`; its error result is always `nil`. -/
def unmarshallHeader (header : Slice) : Go dnsHeader :=
  (header.slice 0 2).bind fun idBytes =>
  (bigEndianUint16 idBytes).bind fun id =>
  (header.slice 2 4).bind fun flagBytes =>
  (unmarshallFlags flagBytes).bind fun flags =>
  .ret { Id := id, flags := flags, Qcount := 0, ARecCount := 0, AuthRecCount := 0,
         AddRecCount := 0 }

/-! ## Message aggregate -/

/-- The error `Unmarshall` returns for `size <= 12`. -/
def headerTooShort (size : Int) : ParseError :=
  { Section := .HeaderSection
    Index := 0
    Property := "Header Length"
    Reason := "Message should have at lease size of 12, but it's instead " ++ toString size }

/-- Go `Unmarshall`: panics, or returns an error, or returns a message. -/
def Unmarshall (growth : Nat → Nat → Nat) (data : Slice) (size : Int) :
    Go (Except ParseError DnsMessage) :=
  if size ≤ 12 then .ret (.error (headerTooShort size))
  else
    (data.slice 0 12).bind fun headerBytes =>
    (unmarshallHeader headerBytes).bind fun headerParsed =>
    (data.slice 12 size.toNat).bind fun rest =>
    (unmarshallQuestion growth rest).bind fun questions =>
    let answers := unmarshallAnswer questions
    let headerParsed := { headerParsed with
      Qcount := questions.length % 65536
      ARecCount := answers.length % 65536 }
    .ret (.ok { header := headerParsed, questions := questions, answers := answers })

/-- The error `Marshall` returns on a question-count mismatch. -/
def questionCountMismatch (m : DnsMessage) : ParseError :=
  { Section := .RequestSection
    Index := -1
    Property := "QCOUNT property"
    Reason := "QCount property should have value " ++ toString m.header.Qcount
      ++ ", but is instead " ++ toString m.questions.length }

/-- The error `Marshall` returns on an answer-count mismatch. -/
def answerCountMismatch (m : DnsMessage) : ParseError :=
  { Section := .ResponseSection
    Index := -1
    Property := "ANCOUNT"
    Reason := "ANCOUNT property should have value " ++ toString m.header.ARecCount
      ++ ", but is instead " ++ toString m.answers.length }

/-- Go `DnsMessage.Marshall`; the header counts are compared with
`uint16(len(...))`. -/
def DnsMessage.Marshall (m : DnsMessage) : Except ParseError (List Nat) :=
  if m.header.Qcount ≠ m.questions.length % 65536 then .error (questionCountMismatch m)
  else if m.header.ARecCount ≠ m.answers.length % 65536 then .error (answerCountMismatch m)
  else
    let response := [] ++ m.header.marshall
    let response := m.questions.foldl (fun r question => r ++ question.marshall) response
    let response := m.answers.foldl (fun r answer => r ++ answer.marshall) response
    .ok response

/-- The state captured by the closure `Transform` returns: the message it
mutates and the cursor `curr`. -/
structure TransformState where
  m : DnsMessage
  curr : Nat

/-- Go `DnsMessage.Transform`: the closure starts with `curr := 0`. -/
def DnsMessage.Transform (m : DnsMessage) : TransformState := { m := m, curr := 0 }

/-- One call of the closure returned by `Transform`. -/
def TransformState.call (each : dnsQuestion → dnsAnswer → dnsQuestion × dnsAnswer)
    (s : TransformState) : TransformState × Bool :=
  if s.curr < s.m.answers.length ∧ s.curr < s.m.questions.length then
    match s.m.questions[s.curr]?, s.m.answers[s.curr]? with
    | some question, some answer =>
      let t := each question answer
      ({ m := { s.m with questions := s.m.questions.set s.curr t.1
                         answers := s.m.answers.set s.curr t.2 }
         curr := s.curr + 1 }, true)
    | _, _ => (s, false)
  else (s, false)

/-! ## Definitions used to state the theorems -/

/-- Wire form of a list of labels, without the terminating zero. -/
def encodeLabels (ls : List (List Nat)) : List Nat :=
  (ls.map fun s => [s.length % 256] ++ s).flatten

/-- Positions, in the concatenation of the encodings of `qs` placed at offset
`off`, of the zero bytes that end the names. -/
def nullPositions : Nat → List dnsQuestion → List Nat
  | _, [] => []
  | off, q :: qs =>
    (off + (encodeLabels (stringsSplit dot q.Name)).length)
      :: nullPositions (off + q.marshall.length) qs

/-- Concatenation of the encodings of a list of questions. -/
def marshallQuestions (qs : List dnsQuestion) : List Nat :=
  (qs.map dnsQuestion.marshall).flatten

/-- A label of 1 to 63 bytes, none of them `0x00` or `0xC0`. -/
def CleanLabel (l : List Nat) : Prop :=
  1 ≤ l.length ∧ l.length ≤ 63 ∧ ∀ b ∈ l, b ≠ 0 ∧ b ≠ 0xC0

instance instDecidableCleanLabel (l : List Nat) : Decidable (CleanLabel l) := by
  unfold CleanLabel
  infer_instance

/-- A question the double-zero scan of `findNullIndexes` reads back: clean
labels, a type in 1..255 other than 192 (`0xC0`), and a 16-bit class whose low
byte is neither `0x00` nor `0xC0` and whose high byte is not `0xC0`. -/
def CleanQuestion (q : dnsQuestion) : Prop :=
  (∀ l ∈ stringsSplit dot q.Name, CleanLabel l)
    ∧ (1 ≤ q.Typ ∧ q.Typ ≤ 255 ∧ q.Typ ≠ 192)
    ∧ (q.Class < 65536 ∧ q.Class % 256 ≠ 0 ∧ q.Class % 256 ≠ 192 ∧ q.Class / 256 ≠ 192)

instance instDecidableCleanQuestion (q : dnsQuestion) : Decidable (CleanQuestion q) := by
  unfold CleanQuestion
  infer_instance

/-- The wire form of a question whose name is the compression pointer
`0xC0 0x0C`, followed by its type and class. -/
def pointerQuestionBytes (typ cls : Nat) : List Nat :=
  [0xC0, 0x0C] ++ appendUint16 typ ++ appendUint16 cls

/-- The answer `unmarshallAnswer` makes for a question. -/
def placeholderAnswer (q : dnsQuestion) : dnsAnswer :=
  { Name := q.Name, Typ := 1, Class := 1, TTL := 60, RdLength := 0, Rdata := [] }

/-- A valid message in the sense of the round-trip property: header counts
equal to the lengths of the sequences, names made of 1-63-byte labels. -/
def ValidMessage (m : DnsMessage) : Prop :=
  m.header.Qcount = m.questions.length ∧ m.header.ARecCount = m.answers.length
    ∧ (∀ q ∈ m.questions, ∀ l ∈ stringsSplit dot q.Name, 1 ≤ l.length ∧ l.length ≤ 63)
    ∧ (∀ a ∈ m.answers, ∀ l ∈ stringsSplit dot a.Name, 1 ≤ l.length ∧ l.length ≤ 63)

instance instDecidableValidMessage (m : DnsMessage) : Decidable (ValidMessage m) := by
  unfold ValidMessage
  infer_instance

/-! ## Concrete inputs -/

/-- The name `codecrafters.io`. -/
def codecraftersIo : List Nat :=
  [99, 111, 100, 101, 99, 114, 97, 102, 116, 101, 114, 115, 46, 105, 111]

/-- A growth policy that never gives spare capacity. -/
def noSpare : Nat → Nat → Nat := fun _ _ => 0

/-- The question `a`, type A, class IN. -/
def questionA : dnsQuestion := { Name := [97], Typ := 1, Class := 1 }

/-- A placeholder answer for the name `a`. -/
def answerA : dnsAnswer :=
  { Name := [97], Typ := 1, Class := 1, TTL := 60, RdLength := 0, Rdata := [] }

/-- A header with all flags clear and the given counts. -/
def plainHeader (qcount arcount : Nat) : dnsHeader :=
  { Id := 7
    flags := { QueryResInd := false, OpCode := 0, AuthAns := false, Tc := false,
               RecrDes := false, RecrAvl := false, Reserved := 0, ResCode := 0 }
    Qcount := qcount, ARecCount := arcount, AuthRecCount := 0, AddRecCount := 0 }

/-- A message holding 65536 questions whose header says there are none. -/
def manyQuestions : DnsMessage :=
  { header := plainHeader 0 0, questions := List.replicate 65536 questionA, answers := [] }

/-- A message holding 65536 answers whose header says there are none. -/
def manyAnswers : DnsMessage :=
  { header := plainHeader 0 0, questions := [], answers := List.replicate 65536 answerA }

/-- A message with one question and one answer and matching counts. -/
def oneEach : DnsMessage :=
  { header := plainHeader 1 1, questions := [questionA], answers := [answerA] }

/-- A message with one question whose header announces two. -/
def wrongQcount : DnsMessage :=
  { header := plainHeader 2 0, questions := [questionA], answers := [] }

/-- A message with one question and no answer whose header announces one answer. -/
def wrongArcount : DnsMessage :=
  { header := plainHeader 1 1, questions := [questionA], answers := [] }

/-- A valid message with no question and no answer. -/
def emptyMessage : DnsMessage :=
  { header := plainHeader 0 0, questions := [], answers := [] }

/-- A valid message with one question and no answer. -/
def oneQuestion : DnsMessage :=
  { header := plainHeader 1 0, questions := [questionA], answers := [] }

/-- `Unmarshall` applied to the bytes `Marshall` returns, with `size` their
length, on a slice without spare capacity. -/
def roundTrip (m : DnsMessage) : Go (Except ParseError DnsMessage) :=
  match m.Marshall with
  | .ok bytes => Unmarshall noSpare (Slice.ofList bytes) (bytes.length : Int)
  | .error e => .ret (.error e)

/-- Header bytes: id `0x1234`, flags `0x0100`, the given question count, other counts zero. -/
def queryHeaderBytes (qcount : Nat) : List Nat :=
  [0x12, 0x34, 0x01, 0x00, 0, qcount, 0, 0, 0, 0, 0, 0]

/-- A packet cut after the name `www` of its question: 12 header bytes, then
`3 w w w 0`. -/
def truncatedPacket : List Nat := queryHeaderBytes 1 ++ [3, 119, 119, 119, 0]

/-- The question `codecrafters.io`, type A, class IN. -/
def exampleQuestion : dnsQuestion := { Name := codecraftersIo, Typ := 1, Class := 1 }

/-- The wire form of `exampleQuestion`, 21 bytes. -/
def exampleQuestionBytes : List Nat :=
  [12, 99, 111, 100, 101, 99, 114, 97, 102, 116, 101, 114, 115, 2, 105, 111, 0, 0, 1, 0, 1]

/-- The packet of the example scenario: header `{id 0x1234, flags 0x0100,
qcount 1}` and the question `codecrafters.io`, type 1, class 1. -/
def examplePacket : List Nat := queryHeaderBytes 1 ++ exampleQuestionBytes

/-- What `Unmarshall` returns for `examplePacket`. -/
def exampleParsed : DnsMessage :=
  { header :=
      { Id := 0x1234
        flags := { QueryResInd := true, OpCode := 0, AuthAns := false, Tc := false,
                   RecrDes := true, RecrAvl := false, Reserved := 0, ResCode := 0 }
        Qcount := 1, ARecCount := 1, AuthRecCount := 0, AddRecCount := 0 }
    questions := [exampleQuestion]
    answers := [{ Name := codecraftersIo, Typ := 1, Class := 1, TTL := 60, RdLength := 0,
                  Rdata := [] }] }

/-- The pair function of the example scenario: it fills the answer with the
address `8.8.8.8`. -/
def fillAnswer (q : dnsQuestion) (a : dnsAnswer) : dnsQuestion × dnsAnswer :=
  (q, { a with RdLength := 4, Rdata := [8, 8, 8, 8] })

/-- Two questions: `codecrafters.io` A IN, then a compression pointer to
offset 12 followed by type CAA (257) and class IN. -/
def compressedCaaPacket : List Nat :=
  queryHeaderBytes 2 ++ exampleQuestionBytes ++ [0xC0, 0x0C, 1, 1, 0, 1]

/-- The 12 bytes of a header as the header layout of the specification words
them: big-endian id, the two flag bytes
`QR*128 + opcode*8 + AA*4 + TC*2 + RD` and `RA*128 + reserved*16 + rcode`,
and the four big-endian counts. -/
def headerBytesSpec (h : dnsHeader) : List Nat :=
  [h.Id / 256, h.Id % 256,
   h.flags.QueryResInd.toNat * 128 + h.flags.OpCode * 8 + h.flags.AuthAns.toNat * 4
     + h.flags.Tc.toNat * 2 + h.flags.RecrDes.toNat,
   h.flags.RecrAvl.toNat * 128 + h.flags.Reserved * 16 + h.flags.ResCode,
   h.Qcount / 256, h.Qcount % 256, h.ARecCount / 256, h.ARecCount % 256,
   h.AuthRecCount / 256, h.AuthRecCount % 256, h.AddRecCount / 256, h.AddRecCount % 256]

/-- A header with all flags clear, reserved 0 and response code 1. -/
def rcodeOneHeader : dnsHeader :=
  { Id := 7
    flags := { QueryResInd := false, OpCode := 0, AuthAns := false, Tc := false,
               RecrDes := false, RecrAvl := false, Reserved := 0, ResCode := 1 }
    Qcount := 0, ARecCount := 0, AuthRecCount := 0, AddRecCount := 0 }

/-- A query header: authoritative-answer and recursion-available set, reserved
5, one question announced. -/
def flaggedHeader : dnsHeader :=
  { Id := 0x1234
    flags := { QueryResInd := false, OpCode := 2, AuthAns := true, Tc := false,
               RecrDes := true, RecrAvl := true, Reserved := 5, ResCode := 0 }
    Qcount := 1, ARecCount := 0, AuthRecCount := 0, AddRecCount := 0 }

/-- The state of the closure returned by `Transform` after `j` calls. -/
def TransformState.calls (each : dnsQuestion → dnsAnswer → dnsQuestion × dnsAnswer) :
    Nat → TransformState → TransformState
  | 0, s => s
  | j + 1, s => ((TransformState.calls each j s).call each).1

/-- A pair function that swaps type and class of the question and fills the
answer. -/
def swapAndFill (q : dnsQuestion) (a : dnsAnswer) : dnsQuestion × dnsAnswer :=
  ({ q with Typ := q.Class, Class := q.Typ }, { a with RdLength := 4, Rdata := [8, 8, 8, 8] })

/-- A message with two questions and three answers. -/
def twoAndThree : DnsMessage :=
  { header := plainHeader 2 3
    questions := [questionA, exampleQuestion]
    answers := [answerA, placeholderAnswer exampleQuestion, answerA] }

/-- The name encoding as the specification words it: one length byte and the
label bytes for each non-empty label, then a terminating zero; empty labels
contribute nothing. -/
def encodeDomainSpec (name : List Nat) : List Nat :=
  (((stringsSplit dot name).filter fun s => s ≠ []).map fun s => s.length :: s).flatten ++ [0]

/-- An answer for `codecrafters.io` carrying the address `8.8.8.8`. -/
def filledAnswer : dnsAnswer :=
  { Name := codecraftersIo, Typ := 1, Class := 1, TTL := 60, RdLength := 4,
    Rdata := [8, 8, 8, 8] }

/-- Two questions: `a` with type URI (256) and class IN, then `b` with type A
and class IN. -/
def uriThenA : List dnsQuestion :=
  [{ Name := [97], Typ := 256, Class := 1 }, { Name := [98], Typ := 1, Class := 1 }]

/-- A question whose name is one label of 63 bytes `a`, type A, class IN; its
wire form has 69 bytes. -/
def longQuestion : dnsQuestion := { Name := List.replicate 63 97, Typ := 1, Class := 1 }

/-- A question section of 291 bytes: four times `longQuestion` (276 bytes),
the question `a` at position 276, which is offset 288 (`0x0120`) of the full
message, and a question whose name is the label `b` followed by the pointer
`0xC1 0x20` to that offset. -/
def farPointerSection : List Nat :=
  marshallQuestions [longQuestion, longQuestion, longQuestion, longQuestion, questionA]
    ++ [1, 98, 0xC1, 0x20, 0, 1, 0, 1]

/-- The section `farPointerSection` with the two pointer bytes replaced by the
name at offset 288, `1 a 0`. -/
def farPointerExpanded : List Nat :=
  marshallQuestions [longQuestion, longQuestion, longQuestion, longQuestion, questionA]
    ++ [1, 98, 1, 97, 0, 0, 1, 0, 1]

/-- A query with opcode 2 and recursion desired: the question `a` of type A
and class IN, then `codecrafters.io` of type MX (15) and class 257. -/
def classyQuery : DnsMessage :=
  { header :=
      { Id := 0x1234
        flags := { QueryResInd := false, OpCode := 2, AuthAns := false, Tc := false,
                   RecrDes := true, RecrAvl := false, Reserved := 0, ResCode := 0 }
        Qcount := 2, ARecCount := 0, AuthRecCount := 0, AddRecCount := 0 }
    questions := [questionA, { Name := codecraftersIo, Typ := 15, Class := 257 }]
    answers := [] }

/-- A packet of 458764 bytes: a header and 65536 times the question `a`, of 7
bytes each. -/
def manyQuestionsPacket : List Nat :=
  queryHeaderBytes 0 ++ marshallQuestions (List.replicate 65536 questionA)

end DnsServer

/-!
# HTTP server (`http-server/app/server.go`, `pathTree.go`)

The request reader and the route tree. Strings are lists of bytes as before.
A `*node` is an index into a heap of nodes, so that the assignments the source
makes through pointers are updates of the heap. A handler, a Go function
value, is an identifier; calling it is recorded as the outcome `invoked`. The
`listener` field and the `conn` arguments play no part and are left out, and
the tree `s.paths` is held directly in the server value.
-/

namespace HttpServer

open DnsServer

/-! ## Strings and maps -/

/-- The bytes of a string literal. -/
def bytesOf (s : String) : List Nat := s.toList.map Char.toNat

/-- Go slice expression `s[lo:hi]` on a string: panics unless
`0 <= lo <= hi <= len(s)`. -/
def substr (s : List Nat) (lo hi : Int) : Go (List Nat) :=
  if 0 ≤ lo ∧ lo ≤ hi ∧ hi ≤ (s.length : Int) then .ret ((s.take hi.toNat).drop lo.toNat)
  else .panic

/-- Position of the first occurrence of `sep` in a string, if any. -/
def firstOccurrence (sep : List Nat) : List Nat → Option Nat
  | [] => if sep = [] then some 0 else none
  | c :: cs =>
    if sep.isPrefixOf (c :: cs) then some 0 else (firstOccurrence sep cs).map (· + 1)

/-- Go `strings.Index(s, sep)`: `-1` when `sep` does not occur. -/
def stringsIndex (s sep : List Nat) : Int :=
  match firstOccurrence sep s with
  | some i => (i : Int)
  | none => -1

/-- The loop of Go `strings.Split(s, sep)` for a non-empty separator: cut at
the first occurrence, go on after it. Each step removes at least one byte, so
`len(s)` steps are enough. -/
def splitLoop (sep : List Nat) : Nat → List Nat → List (List Nat)
  | 0, s => [s]
  | fuel + 1, s =>
    match firstOccurrence sep s with
    | none => [s]
    | some m => s.take m :: splitLoop sep fuel (s.drop (m + sep.length))

/-- Go `strings.Split(s, sep)` for a non-empty separator. -/
def stringsSplitSep (s sep : List Nat) : List (List Nat) := splitLoop sep s.length s

/-- Go `strings.TrimPrefix(s, prefix)`. -/
def trimPrefix (s pre : List Nat) : List Nat :=
  if pre.isPrefixOf s then s.drop pre.length else s

/-- The UTF-8 encodings of the code points Go `unicode.IsSpace` accepts: tab,
line feed, vertical tab, form feed, carriage return, space, U+0085, U+00A0,
U+1680, U+2000 to U+200A, U+2028, U+2029, U+202F, U+205F and U+3000. No other
byte sequence decodes to one of them, since Go's decoder rejects the overlong
forms. -/
def spaceEncodings : List (List Nat) :=
  [[9], [10], [11], [12], [13], [32], [0xC2, 0x85], [0xC2, 0xA0], [0xE1, 0x9A, 0x80],
   [0xE2, 0x80, 0x80], [0xE2, 0x80, 0x81], [0xE2, 0x80, 0x82], [0xE2, 0x80, 0x83],
   [0xE2, 0x80, 0x84], [0xE2, 0x80, 0x85], [0xE2, 0x80, 0x86], [0xE2, 0x80, 0x87],
   [0xE2, 0x80, 0x88], [0xE2, 0x80, 0x89], [0xE2, 0x80, 0x8A], [0xE2, 0x80, 0xA8],
   [0xE2, 0x80, 0xA9], [0xE2, 0x80, 0xAF], [0xE2, 0x81, 0x9F], [0xE3, 0x80, 0x80]]

/-- While the string starts with one of `encs`, drop it. Each step removes at
least one byte, so `len(s)` steps are enough. -/
def stripPrefixes (encs : List (List Nat)) : Nat → List Nat → List Nat
  | 0, s => s
  | fuel + 1, s =>
    match encs.find? fun e => e.isPrefixOf s with
    | some e => stripPrefixes encs fuel (s.drop e.length)
    | none => s

/-- Go `strings.TrimSpace(s)`: the leading white space is removed, then the
trailing white space, a code point at a time. -/
def trimSpace (s : List Nat) : List Nat :=
  let t := stripPrefixes spaceEncodings s.length s
  (stripPrefixes (spaceEncodings.map List.reverse) t.length t.reverse).reverse

/-- A Go `map[string]T`: a list of entries with distinct keys. The order of
the list has no meaning. -/
abbrev GoMap (α : Type) := List (List Nat × α)

/-- Go `m[k]` with the comma-ok form. Reading a nil map finds nothing, as
reading the empty list does. -/
def GoMap.get {α : Type} (m : GoMap α) (k : List Nat) : Option α :=
  match m with
  | [] => none
  | e :: es => if e.1 = k then some e.2 else GoMap.get es k

/-- Go `m[k] = v`. -/
def GoMap.put {α : Type} (m : GoMap α) (k : List Nat) (v : α) : GoMap α :=
  match m with
  | [] => [(k, v)]
  | e :: es => if e.1 = k then (k, v) :: es else e :: GoMap.put es k v

/-! ## Data model -/

/-- Go `reqPath`. -/
structure reqPath where
  path : List Nat
  params : List (List Nat)
  deriving DecidableEq, Repr

/-- Go `reqProps`; `request` is a pointer and may be nil. -/
structure reqProps where
  method : List Nat
  request : Option reqPath
  headers : GoMap (List Nat)
  body : List Nat
  deriving DecidableEq, Repr

/-- A handler function, known by its identity only. -/
abbrev Handler := Nat

/-- Go `node`; the values of `childPaths` are pointers, here heap indices. A
nil map is `none`, a nil handler is `none`. -/
structure node where
  path : List Nat
  template : Bool
  childPaths : Option (GoMap Nat)
  handler : Option Handler
  deriving DecidableEq, Repr

/-- Go `server` together with the nodes its tree points to: `root` is
`s.paths.root` and `req` is `s.req`, both nil-able pointers. -/
structure server where
  heap : List node
  root : Option Nat
  req : Option reqProps
  deriving DecidableEq, Repr

/-- A server as `main` and the tests build it: `paths: create()`, no request. -/
def server.create : server := { heap := [], root := none, req := none }

/-- The entries of a `childPaths` map, none for a nil map. -/
def node.children (n : node) : GoMap Nat := n.childPaths.getD []

/-! ## The route tree -/

/-- Go `tree.addRoot`: returns the new state and the pointer to the root. -/
def addRoot (s : server) (root : List Nat) (h : Option Handler) : Go (server × Nat) :=
  match s.root with
  | some _ => .panic
  | none =>
    let r : node := { path := root, template := false, childPaths := some [], handler := h }
    .ret ({ s with heap := s.heap ++ [r], root := some s.heap.length }, s.heap.length)

/-- Go `node.addChild` on the node at pointer `n`: returns the new state and
the pointer to the new node. -/
def addChild (s : server) (n : Nat) (path : List Nat) (template : Bool) (h : Option Handler) :
    Go (server × Nat) :=
  match s.heap[n]? with
  | none => .panic
  | some nd =>
    let newNode : node := { path := path, template := template, childPaths := none, handler := h }
    match nd.children.get path with
    | some _ => .panic
    | none =>
      let parent : node := { nd with childPaths := some (nd.children.put path s.heap.length) }
      .ret ({ s with heap := s.heap.set n parent ++ [newNode] }, s.heap.length)

/-- Go `part[0] == '{'`: panics on the empty string. -/
def startsWithBrace (part : List Nat) : Go Bool :=
  match part with
  | [] => .panic
  | c :: _ => .ret (c = 123)

/-- The loop of `registerHandler` over the parts of the path: returns the new
state and the last `currNode`. -/
def registerLoop : List (List Nat) → server → Nat → Go (server × Nat)
  | [], s, currNode => .ret (s, currNode)
  | part :: rest, s, currNode =>
    match s.heap[currNode]? with
    | none => .panic
    | some nd =>
      match nd.children.get part with
      | some p => registerLoop rest s p
      | none =>
        (startsWithBrace part).bind fun template =>
        (addChild s currNode part template none).bind fun r =>
        registerLoop rest r.1 r.2

/-- Go `server.registerHandler`; its error result is always nil. -/
def registerHandler (s : server) (path : List Nat) (handle : Option Handler) : Go server :=
  let pathParts := stringsSplit 47 path
  match pathParts with
  | [p] =>
    if p = [] then (addRoot s path handle).bind fun r => .ret r.1
    else
      match s.root with
      | none => .panic
      | some root =>
        match s.heap[root]? with
        | none => .panic
        | some rootNode =>
          match rootNode.children.get p with
          | some child =>
            match s.heap[child]? with
            | none => .panic
            | some childNode =>
              if childNode.handler ≠ none then .panic
              else .ret { s with heap := s.heap.set child { childNode with handler := handle } }
          | none =>
            (startsWithBrace p).bind fun template =>
            (addChild s root p template handle).bind fun r => .ret r.1
  | _ =>
    match s.root with
    | none => .panic
    | some root =>
      (registerLoop pathParts s root).bind fun r =>
      match r.1.heap[r.2]? with
      | none => .panic
      | some nd => .ret { r.1 with heap := r.1.heap.set r.2 { nd with handler := handle } }

/-- What a call of `handle` does when it does not panic. -/
inductive HandleOutcome where
  /-- The handler `h` is called with `s.req` equal to `req`; `handle` then
  returns nil. -/
  | invoked (h : Handler) (req : reqProps)
  /-- The call returns the error `no handler found`; `s.req` is left equal to `req`. -/
  | noHandler (req : reqProps)
  deriving DecidableEq, Repr

/-- The state of the loop of `handle`. -/
structure HandleState where
  currNode : Nat
  found : Bool
  params : List (List Nat)
  deriving DecidableEq, Repr

/-- The loop of `handle` over the parts of the request path. `rangeOrder`
gives the order in which a `range` over a map visits its entries, which Go
leaves unspecified; the inner loop breaks in its first iteration. -/
def handleLoop (rangeOrder : GoMap Nat → GoMap Nat) (heap : List node) :
    List (List Nat) → HandleState → Go HandleState
  | [], st => .ret st
  | part :: rest, st =>
    match heap[st.currNode]? with
    | none => .panic
    | some nd =>
      match nd.children.get part with
      | some p => handleLoop rangeOrder heap rest { st with currNode := p }
      | none =>
        match rangeOrder nd.children with
        | [] => handleLoop rangeOrder heap rest st
        | e :: _ =>
          match heap[e.2]? with
          | none => .panic
          | some n =>
            if n.template then
              handleLoop rangeOrder heap rest
                { currNode := e.2, found := true, params := st.params ++ [part] }
            else handleLoop rangeOrder heap rest { st with found := false }

/-- Go `server.handle`. -/
def handle (rangeOrder : GoMap Nat → GoMap Nat) (s : server) : Go HandleOutcome :=
  match s.req with
  | none => .panic
  | some props =>
    match s.root with
    | none => .panic
    | some root =>
      match s.heap[root]?, props.request with
      | some rootNode, some r =>
        if rootNode.path = r.path then
          match rootNode.handler with
          | none => .panic
          | some h => .ret (.invoked h props)
        else
          (handleLoop rangeOrder s.heap (stringsSplit 47 r.path)
            { currNode := root, found := true, params := r.params }).bind fun st =>
          let props := { props with request := some { r with params := st.params } }
          if st.found = false then .ret (.noHandler props)
          else
            match s.heap[st.currNode]? with
            | none => .panic
            | some nd =>
              match nd.handler with
              | none => .panic
              | some h => .ret (.invoked h props)
      | _, _ => .panic

/-! ## Reading a request -/

/-- The loop of `readRequest` over the header lines. -/
def headersLoop : List (List Nat) → GoMap (List Nat) → Go (GoMap (List Nat))
  | [], headers => .ret headers
  | s :: rest, headers =>
    let firstSepIdx := stringsIndex s (bytesOf ":")
    (substr s 0 firstSepIdx).bind fun key =>
    (substr s (firstSepIdx + 1) s.length).bind fun value =>
    headersLoop rest (headers.put key (trimSpace value))

/-- Go `readRequest`; its error result is always nil. -/
def readRequest (buffer : List Nat) : Go reqProps :=
  let req := buffer
  let firstSplit := stringsIndex req (bytesOf "\r\n")
  (substr req 0 firstSplit).bind fun requestLine =>
  let requestLineParts := stringsSplit 32 requestLine
  match requestLineParts[0]?, requestLineParts[1]? with
  | some httpMethod, some second =>
    let path := trimPrefix second (bytesOf "/")
    (substr req firstSplit req.length).bind fun remainingHttpReq =>
    let endHeadersIdx := stringsIndex remainingHttpReq (bytesOf "\r\n\r\n")
    (substr remainingHttpReq 0 endHeadersIdx).bind fun headersPart =>
    let headersLine := stringsSplitSep (trimPrefix headersPart (bytesOf "\r\n")) (bytesOf "\r\n")
    (headersLoop headersLine []).bind fun headers =>
    (substr remainingHttpReq (endHeadersIdx + 4) remainingHttpReq.length).bind fun bodyLine =>
    .ret { method := httpMethod
           request := some { path := path, params := [] }
           headers := headers
           body := bodyLine }
  | _, _ => .panic

/-! ## Concrete inputs -/

/-- A header line `<name>: <value>` ended by CRLF. -/
def headerLine (h : List Nat × List Nat) : List Nat :=
  h.1 ++ bytesOf ": " ++ h.2 ++ bytesOf "\r\n"

/-- A request text: the request line `<method> /<path> <version>` ended by
CRLF, the header lines, an empty line and the body. -/
def requestText (method path version : List Nat) (headers : List (List Nat × List Nat))
    (body : List Nat) : List Nat :=
  method ++ bytesOf " /" ++ path ++ bytesOf " " ++ version ++ bytesOf "\r\n"
    ++ (headers.map headerLine).flatten ++ bytesOf "\r\n" ++ body

/-- The lines of a text, each with the CRLF that ends the line before it. -/
def crlfBlocks (lines : List (List Nat)) : List Nat :=
  (lines.map fun l => [13, 10] ++ l).flatten

/-- The server of `TestHandle`: the root route `""` registered with the handler
`hRoot`, then the route `echo/{str}` with the handler `hEcho`. -/
def echoServer (hRoot hEcho : Handler) : Go server :=
  (registerHandler server.create (bytesOf "") (some hRoot)).bind fun s =>
  registerHandler s (bytesOf "echo/\x7bstr\x7d") (some hEcho)

/-- A request for `path` as `readRequest` returns it: `params` is nil. -/
def requestFor (method path : List Nat) (headers : GoMap (List Nat)) (body : List Nat) :
    reqProps :=
  { method := method, request := some { path := path, params := [] },
    headers := headers, body := body }

/-- Setting `s.req` on the server of `TestHandle` and calling `handle`. -/
def handleEcho (rangeOrder : GoMap Nat → GoMap Nat) (hRoot hEcho : Handler) (req : reqProps) :
    Go HandleOutcome :=
  (echoServer hRoot hEcho).bind fun s => handle rangeOrder { s with req := some req }

/-- The code points with the Unicode property White_Space, the white space of
Go's `strings.TrimSpace`: the six ASCII ones, U+0085, U+00A0, U+1680, U+2000
to U+200A, U+2028, U+2029, U+202F, U+205F and U+3000. -/
def whiteSpaceRunes : List Nat :=
  [0x09, 0x0A, 0x0B, 0x0C, 0x0D, 0x20, 0x85, 0xA0, 0x1680, 0x2000, 0x2001, 0x2002, 0x2003,
   0x2004, 0x2005, 0x2006, 0x2007, 0x2008, 0x2009, 0x200A, 0x2028, 0x2029, 0x202F, 0x205F,
   0x3000]

/-- The UTF-8 encoding of a code point below `0x10000` (surrogates apart): one
byte below `0x80`, two bytes below `0x800`, three bytes otherwise. -/
def utf8Encode (c : Nat) : List Nat :=
  if c < 0x80 then [c]
  else if c < 0x800 then [0xC0 + c / 64, 0x80 + c % 64]
  else [0xE0 + c / 4096, 0x80 + c / 64 % 64, 0x80 + c % 64]

/-- A string made of white-space code points only. -/
def SpaceOnly (s : List Nat) : Prop :=
  ∃ runes : List Nat, (∀ c ∈ runes, c ∈ whiteSpaceRunes) ∧ s = (runes.map utf8Encode).flatten

/-- In the words of the specification, `t` is `s` with the surrounding white
space trimmed: `s` is `t` between two runs of white space, and `t` neither
starts nor ends with a white-space code point. -/
def TrimmedOf (s t : List Nat) : Prop :=
  (∃ pre suf, SpaceOnly pre ∧ SpaceOnly suf ∧ s = pre ++ t ++ suf)
    ∧ (∀ c ∈ whiteSpaceRunes, ¬ utf8Encode c <+: t)
    ∧ (∀ c ∈ whiteSpaceRunes, ¬ utf8Encode c <:+ t)

/-- Header lines with white space around two values and the name `Host` twice. -/
def paddedHeaders : List (List Nat × List Nat) :=
  [(bytesOf "Host", bytesOf " localhost:4221  "),
   (bytesOf "User-Agent", bytesOf "\tfoobar/1.2.3 "),
   (bytesOf "Host", bytesOf "example.org")]

end HttpServer

namespace DnsServer

/-! ## Basic lemmas -/

@[simp] theorem Go.bind_ret {α β : Type} (a : α) (f : α → Go β) :
    (Go.ret a).bind f = f a := rfl

@[simp] theorem Go.bind_panic {α β : Type} (f : α → Go β) :
    (Go.panic : Go α).bind f = .panic := rfl

theorem foldl_append_flatten {α : Type} (f : α → List Nat) (l : List α) (init : List Nat) :
    l.foldl (fun r x => r ++ f x) init = init ++ (l.map f).flatten := by
  induction l generalizing init with
  | nil => simp
  | cons x xs ih => simp [ih, List.append_assoc]

theorem appendUint16_length (v : Nat) : (appendUint16 v).length = 2 := rfl

theorem headerFlags_marshall_length (f : headerFlags) : f.marshall.length = 2 := rfl

theorem dnsHeader_marshall_length (h : dnsHeader) : h.marshall.length = 12 := by
  simp [dnsHeader.marshall, appendUint16_length, headerFlags_marshall_length]

/-! ## The fuel of the loops is never exhausted

Each loop of the source is modelled with a fuel argument set to a bound on the
number of its iterations. The lemmas below show that from such a bound on,
more fuel does not change the result: the loops always end because their
condition fails (or by a panic), never because the fuel ran out. -/

theorem findNullIndexesLoop_fuel (d : Slice) :
    ∀ (f i : Nat) (acc : List Nat), d.len - i ≤ f →
      findNullIndexesLoop d (f + 1) i acc = findNullIndexesLoop d f i acc := by
  intro f
  induction f with
  | zero =>
    intro i acc h
    have : ¬ i < d.len := by omega
    simp [findNullIndexesLoop, this]
  | succ f ih =>
    intro i acc h
    conv_lhs => rw [findNullIndexesLoop]
    conv_rhs => rw [findNullIndexesLoop]
    split
    · cases d.index (i : Int) with
      | panic => rfl
      | ret b =>
        simp only [Go.bind_ret]
        split
        · cases d.index ((i : Int) + 1) with
          | panic => rfl
          | ret c =>
            simp only [Go.bind_ret]
            split
            · exact ih _ _ (by omega)
            · exact ih _ _ (by omega)
        · exact ih _ _ (by omega)
    · rfl

theorem decompressCopy_fuel (d : Slice) :
    ∀ (f : Nat) (j : Int) (out : List Nat), (d.len : Int) - j ≤ f →
      decompressCopy d (f + 1) j out = decompressCopy d f j out := by
  intro f
  induction f with
  | zero =>
    intro j out h
    have : ¬ j < (d.len : Int) := by omega
    simp [decompressCopy, this]
  | succ f ih =>
    intro j out h
    conv_lhs => rw [decompressCopy]
    conv_rhs => rw [decompressCopy]
    split
    · cases d.index j with
      | panic => rfl
      | ret b =>
        simp only [Go.bind_ret]
        split
        · rfl
        · exact ih _ _ (by push_cast at h ⊢; omega)
    · rfl

theorem decompressCopy_negative (d : Slice) (f : Nat) (j : Int) (out : List Nat) (hj : j < 0) :
    decompressCopy d (f + 1) j out = .panic := by
  have h1 : j < (d.len : Int) := by omega
  simp [decompressCopy, h1, Slice.index, hj]

theorem decompressLoop_fuel (d : Slice) :
    ∀ (f i : Nat) (out : List Nat), d.len - i ≤ f →
      decompressLoop d (f + 1) i out = decompressLoop d f i out := by
  intro f
  induction f with
  | zero =>
    intro i out h
    have : ¬ i < d.len := by omega
    simp [decompressLoop, this]
  | succ f ih =>
    intro i out h
    conv_lhs => rw [decompressLoop]
    conv_rhs => rw [decompressLoop]
    split
    · cases d.index (i : Int) with
      | panic => rfl
      | ret b =>
        simp only [Go.bind_ret]
        split
        · exact ih _ _ (by omega)
        · cases d.slice i (i + 2) with
          | panic => rfl
          | ret two =>
            simp only [Go.bind_ret]
            cases bigEndianUint16 two with
            | panic => rfl
            | ret pointer =>
              simp only [Go.bind_ret]
              cases decompressCopy d d.len
                  (((pointer &&& 0x3FFF : Nat) : Int) - (headerSize : Int)) out with
              | panic => rfl
              | ret r =>
                simp only [Go.bind_ret]
                exact ih _ _ (by split <;> omega)
    · rfl

theorem parseNameLoop_fuel (d : Slice) (nullIndex : Int) :
    ∀ (f i : Nat) (parts : List (List Nat)), nullIndex - (i : Int) ≤ f →
      parseNameLoop d nullIndex (f + 1) i parts = parseNameLoop d nullIndex f i parts := by
  intro f
  induction f with
  | zero =>
    intro i parts h
    have : ¬ (i : Int) < nullIndex := by omega
    simp [parseNameLoop, this]
  | succ f ih =>
    intro i parts h
    conv_lhs => rw [parseNameLoop]
    conv_rhs => rw [parseNameLoop]
    split
    · cases d.index (i : Int) with
      | panic => rfl
      | ret length =>
        simp only [Go.bind_ret]
        cases d.slice (i + 1) (i + 1 + length) with
        | panic => rfl
        | ret label =>
          simp only [Go.bind_ret]
          exact ih _ _ (by push_cast at h ⊢; omega)
    · rfl

theorem unmarshallQuestionLoop_fuel (d : Slice) (nullIndexes : List Nat) :
    ∀ (f i : Nat) (questions : List dnsQuestion), nullIndexes.length - i ≤ f →
      unmarshallQuestionLoop d nullIndexes (f + 1) i questions
        = unmarshallQuestionLoop d nullIndexes f i questions := by
  intro f
  induction f with
  | zero =>
    intro i questions h
    have : ¬ i < nullIndexes.length := by omega
    simp [unmarshallQuestionLoop, this]
  | succ f ih =>
    intro i questions h
    conv_lhs => rw [unmarshallQuestionLoop]
    conv_rhs => rw [unmarshallQuestionLoop]
    split
    · cases nullIndexes[i]? with
      | none => rfl
      | some ni =>
        simp only []
        split
        · cases d.slice 0 (ni + 4 + 1) with
          | panic => rfl
          | ret s =>
            simp only [Go.bind_ret]
            cases deserializeQuestion s with
            | panic => rfl
            | ret q =>
              simp only [Go.bind_ret]
              exact ih _ _ (by omega)
        · cases nullIndexes[i - 1]? with
          | none => rfl
          | some prev =>
            simp only []
            cases d.slice (prev + 1 + 4) (ni + 4 + 1) with
            | panic => rfl
            | ret s =>
              simp only [Go.bind_ret]
              cases deserializeQuestion s with
              | panic => rfl
              | ret q =>
                simp only [Go.bind_ret]
                exact ih _ _ (by omega)
    · rfl

theorem findNullIndexes_more_fuel (d : Slice) (k : Nat) :
    findNullIndexesLoop d (d.len + k) 0 [] = findNullIndexes d := by
  induction k with
  | zero => rfl
  | succ k ih =>
    rw [← ih]
    exact findNullIndexesLoop_fuel d (d.len + k) 0 [] (by omega)

theorem decompressLoop_more_fuel (d : Slice) (k : Nat) :
    decompressLoop d (d.len + k) 0 [] = decompressLoop d d.len 0 [] := by
  induction k with
  | zero => rfl
  | succ k ih =>
    rw [← ih]
    exact decompressLoop_fuel d (d.len + k) 0 [] (by omega)

theorem decompressCopy_more_fuel (d : Slice) (j : Int) (out : List Nat) (k : Nat)
    (hlen : 1 ≤ d.len) :
    decompressCopy d (d.len + k) j out = decompressCopy d d.len j out := by
  induction k with
  | zero => rfl
  | succ k ih =>
    rw [← ih]
    by_cases hj : j < 0
    · obtain ⟨n, hn⟩ : ∃ n, d.len + k = n + 1 := ⟨d.len + k - 1, by omega⟩
      rw [show d.len + (k + 1) = (n + 1) + 1 by omega, hn,
        decompressCopy_negative d (n + 1) j out hj, decompressCopy_negative d n j out hj]
    · exact decompressCopy_fuel d (d.len + k) j out (by push_cast; omega)

theorem parseNameLoop_more_fuel (d : Slice) (k : Nat) :
    parseNameLoop d (bytesIndex d.elems 0) ((bytesIndex d.elems 0).toNat + k) 0 []
      = parseNameLoop d (bytesIndex d.elems 0) (bytesIndex d.elems 0).toNat 0 [] := by
  induction k with
  | zero => rfl
  | succ k ih =>
    rw [← ih]
    exact parseNameLoop_fuel d _ ((bytesIndex d.elems 0).toNat + k) 0 [] (by push_cast; omega)

theorem unmarshallQuestionLoop_more_fuel (d : Slice) (nullIndexes : List Nat) (k : Nat) :
    unmarshallQuestionLoop d nullIndexes (nullIndexes.length + k) 0 []
      = unmarshallQuestionLoop d nullIndexes nullIndexes.length 0 [] := by
  induction k with
  | zero => rfl
  | succ k ih =>
    rw [← ih]
    exact unmarshallQuestionLoop_fuel d nullIndexes (nullIndexes.length + k) 0 [] (by omega)

/-! ## Name codec -/

theorem encodeDomain_eq (domain : List Nat) :
    encodeDomain domain = encodeLabels (stringsSplit dot domain) ++ [0] := by
  unfold encodeDomain encodeLabels
  have h := foldl_append_flatten (fun s : List Nat => [s.length % 256] ++ s)
    (stringsSplit dot domain) []
  simp only [List.nil_append] at h
  rw [← h]
  congr 1
  congr 1
  funext r s
  simp [List.append_assoc]

theorem stringsSplit_ne_nil (sep : Nat) (s : List Nat) : stringsSplit sep s ≠ [] := by
  induction s with
  | nil => simp [stringsSplit]
  | cons c cs ih =>
    unfold stringsSplit
    split
    · simp
    · split
      · simp
      · simp

theorem stringsJoin_stringsSplit (sep : Nat) (s : List Nat) :
    stringsJoin sep (stringsSplit sep s) = s := by
  induction s with
  | nil => simp [stringsSplit, stringsJoin]
  | cons c cs ih =>
    unfold stringsSplit
    split
    · rename_i hc
      cases hs : stringsSplit sep cs with
      | nil => exact absurd hs (stringsSplit_ne_nil sep cs)
      | cons q ps =>
        rw [hs] at ih
        simp [stringsJoin, ih, hc]
    · cases hs : stringsSplit sep cs with
      | nil => exact absurd hs (stringsSplit_ne_nil sep cs)
      | cons p ps =>
        rw [hs] at ih
        cases ps with
        | nil => simpa [stringsJoin] using ih
        | cons q qs =>
          simp only [stringsJoin] at ih ⊢
          simp [← ih]

theorem Slice.index_ofNat (s : Slice) (i b : Nat) (h : s.elems[i]? = some b) :
    s.index (i : Int) = .ret b := by
  unfold Slice.index
  have h0 : ¬ ((i : Int) < 0) := by omega
  simp [h0, h]

theorem Slice.index_ofNat_none (s : Slice) (i : Nat) (h : s.len ≤ i) :
    s.index (i : Int) = .panic := by
  unfold Slice.index
  have h0 : ¬ ((i : Int) < 0) := by omega
  have h1 : s.elems[i]? = none := List.getElem?_eq_none (by simpa [Slice.len] using h)
  simp [h0, h1]

theorem Slice.slice_of_le (s : Slice) (lo hi : Nat) (h1 : lo ≤ hi) (h2 : hi ≤ s.cap) :
    s.slice lo hi = .ret { elems := (s.backing.take hi).drop lo, spare := s.backing.drop hi } := by
  simp [Slice.slice, h1, h2]

theorem firstIndex_append_of_not_mem (b : Nat) (pre rest : List Nat) (h : b ∉ pre) :
    firstIndex b (pre ++ b :: rest) = some pre.length := by
  induction pre with
  | nil => simp [firstIndex]
  | cons c cs ih =>
    have hc : c ≠ b := fun e => h (by simp [e])
    have hcs : b ∉ cs := fun e => h (by simp [e])
    simp [firstIndex, hc, ih hcs]

theorem take_drop_middle (A l B : List Nat) :
    ((A ++ l ++ B).take (A.length + l.length)).drop A.length = l := by
  rw [← List.length_append, List.take_left, List.drop_left]

theorem parseNameLoop_labels (rest spare : List Nat) (ls : List (List Nat)) :
    ∀ (A : List Nat) (fuel : Nat) (parts : List (List Nat)),
      (∀ l ∈ ls, l.length < 256) → ls.length ≤ fuel →
      parseNameLoop ⟨A ++ encodeLabels ls ++ 0 :: rest, spare⟩
          ((A.length + (encodeLabels ls).length : Nat) : Int) fuel A.length parts
        = .ret (parts ++ ls) := by
  induction ls with
  | nil =>
    intro A fuel parts _ _
    cases fuel with
    | zero => simp [parseNameLoop]
    | succ f => simp [parseNameLoop, encodeLabels]
  | cons l ls ih =>
    intro A fuel parts hl hf
    cases fuel with
    | zero => simp at hf
    | succ f =>
      have hlen : l.length % 256 = l.length := Nat.mod_eq_of_lt (hl l (by simp))
      have henc : encodeLabels (l :: ls) = (l.length :: l) ++ encodeLabels ls := by
        simp [encodeLabels, hlen]
      have hidx : (⟨A ++ encodeLabels (l :: ls) ++ 0 :: rest, spare⟩ : Slice).elems[A.length]?
          = some l.length := by
        show (A ++ encodeLabels (l :: ls) ++ 0 :: rest)[A.length]? = some l.length
        rw [henc, List.append_assoc, List.getElem?_append_right (Nat.le_refl _)]
        simp
      have hsl : (⟨A ++ encodeLabels (l :: ls) ++ 0 :: rest, spare⟩ : Slice).slice
          (A.length + 1) (A.length + 1 + l.length)
          = .ret ⟨l, encodeLabels ls ++ 0 :: rest ++ spare⟩ := by
        rw [Slice.slice_of_le _ _ _ (by omega) (by simp [Slice.cap, henc]; omega)]
        have hb : (⟨A ++ encodeLabels (l :: ls) ++ 0 :: rest, spare⟩ : Slice).backing
            = (A ++ [l.length]) ++ l ++ (encodeLabels ls ++ 0 :: rest ++ spare) := by
          simp [Slice.backing, henc]
        rw [hb]
        congr 2
        · have := take_drop_middle (A ++ [l.length]) l (encodeLabels ls ++ 0 :: rest ++ spare)
          simpa [Nat.add_assoc] using this
        · have : A.length + 1 + l.length = ((A ++ [l.length]) ++ l).length := by
            simp only [List.length_append, List.length_singleton]
          rw [this, List.drop_left]
      have hlt : ((A.length : Nat) : Int)
          < ((A.length + (encodeLabels (l :: ls)).length : Nat) : Int) := by
        simp [henc]; omega
      have hrec := ih (A ++ l.length :: l) f (parts ++ [l])
        (fun x hx => hl x (by simp [hx])) (by simpa using hf)
      have e1 : A ++ l.length :: l ++ encodeLabels ls ++ 0 :: rest
          = A ++ encodeLabels (l :: ls) ++ 0 :: rest := by simp [henc]
      have e2 : (A ++ l.length :: l).length + (encodeLabels ls).length
          = A.length + (encodeLabels (l :: ls)).length := by simp [henc]; omega
      have e3 : (A ++ l.length :: l).length = A.length + l.length + 1 := by simp; omega
      rw [e1, e2, e3] at hrec
      rw [parseNameLoop, if_pos hlt, Slice.index_ofNat _ _ _ hidx, Go.bind_ret, hsl, Go.bind_ret,
        hrec]
      simp

theorem encodeLabels_cons (l : List Nat) (ls : List (List Nat)) :
    encodeLabels (l :: ls) = (l.length % 256) :: l ++ encodeLabels ls := by
  simp [encodeLabels]

theorem length_le_encodeLabels_length (ls : List (List Nat)) :
    ls.length ≤ (encodeLabels ls).length := by
  induction ls with
  | nil => simp
  | cons l ls ih =>
    rw [encodeLabels_cons]
    simp only [List.length_cons, List.length_append]
    omega

theorem zero_not_mem_encodeLabels (ls : List (List Nat))
    (h : ∀ l ∈ ls, 1 ≤ l.length ∧ l.length < 256 ∧ 0 ∉ l) : 0 ∉ encodeLabels ls := by
  induction ls with
  | nil => simp [encodeLabels]
  | cons l ls ih =>
    have hl := h l (by simp)
    have hmod : l.length % 256 = l.length := Nat.mod_eq_of_lt hl.2.1
    rw [encodeLabels_cons, hmod]
    intro hmem
    simp only [List.cons_append, List.mem_cons, List.mem_append] at hmem
    rcases hmem with h0 | h1 | h2
    · omega
    · exact hl.2.2 h1
    · exact ih (fun x hx => h x (by simp [hx])) h2

theorem parseName_labels (ls : List (List Nat)) (rest spare : List Nat)
    (h : ∀ l ∈ ls, 1 ≤ l.length ∧ l.length < 256 ∧ 0 ∉ l) :
    parseName ⟨encodeLabels ls ++ 0 :: rest, spare⟩
      = .ret (stringsJoin dot ls, (((encodeLabels ls).length + 1 : Nat) : Int)) := by
  have hidx : bytesIndex (encodeLabels ls ++ 0 :: rest) 0 = ((encodeLabels ls).length : Int) := by
    simp [bytesIndex, firstIndex_append_of_not_mem 0 _ rest (zero_not_mem_encodeLabels ls h)]
  have hloop := parseNameLoop_labels rest spare ls [] (encodeLabels ls).length []
    (fun l hl => (h l hl).2.1) (length_le_encodeLabels_length ls)
  simp only [List.nil_append, List.length_nil, Nat.zero_add] at hloop
  simp only [parseName, hidx, Int.toNat_ofNat, hloop, Go.bind_ret]
  simp

/-- C2 fails on the code: the name made of the single one-byte label `\x00` is
encoded by `encodeDomain` as the three bytes `1 0 0`, but `parseName` reports
two bytes consumed instead of three: it walks the labels by their length
bytes, yet takes the end of the name from the first zero byte. -/
theorem parseName_nul_label :
    (stringsSplit dot [0]).length = 1
      ∧ (∀ l ∈ stringsSplit dot [0], 1 ≤ l.length ∧ l.length ≤ 63)
      ∧ parseName (Slice.ofList (encodeDomain [0])) = .ret ([0], 2)
      ∧ parseName (Slice.ofList (encodeDomain [0]))
          ≠ .ret ([0], ((encodeDomain [0]).length : Int)) := by
  decide

/-- Where no label holds a zero byte `parseName` reads `encodeDomain` back: for
every name made of dot-separated labels of 1 to 63 bytes each, none of them a
zero byte, `parseName` applied to `encodeDomain name` (whatever the spare
capacity of the slice) returns the name and the length of the encoding,
terminating zero included. -/
theorem parseName_encodeDomain (name spare : List Nat)
    (hlabels : ∀ l ∈ stringsSplit dot name, 1 ≤ l.length ∧ l.length ≤ 63 ∧ 0 ∉ l) :
    parseName ⟨encodeDomain name, spare⟩
      = .ret (name, ((encodeDomain name).length : Int)) := by
  have h := parseName_labels (stringsSplit dot name) [] spare
    (fun l hl => ⟨(hlabels l hl).1, by have := (hlabels l hl).2.1; omega, (hlabels l hl).2.2⟩)
  rw [encodeDomain_eq, h, stringsJoin_stringsSplit]
  simp

/-- The name `codecrafters.io` is read back. -/
theorem parseName_encodeDomain_witness :
    (∀ l ∈ stringsSplit dot codecraftersIo, 1 ≤ l.length ∧ l.length ≤ 63 ∧ 0 ∉ l)
      ∧ parseName ⟨encodeDomain codecraftersIo, [5, 6]⟩
          = .ret (codecraftersIo, ((encodeDomain codecraftersIo).length : Int)) :=
  ⟨by decide, parseName_encodeDomain codecraftersIo [5, 6] (by decide)⟩

/-! ## Question codec on well-behaved questions -/

theorem decompressLoop_of_no_pointer (data : Slice) :
    ∀ (fuel i : Nat) (out : List Nat),
      (∀ b ∈ data.elems.drop i, b ≠ 0xC0) → data.len - i ≤ fuel →
      decompressLoop data fuel i out = .ret (out ++ data.elems.drop i) := by
  intro fuel
  induction fuel with
  | zero =>
    intro i out _ hf
    have : data.elems.length ≤ i := by simp only [Slice.len] at hf; omega
    simp [decompressLoop, List.drop_eq_nil_of_le this]
  | succ f ih =>
    intro i out hb hf
    by_cases hi : i < data.len
    · have hi2 : i < data.elems.length := hi
      have hd : data.elems.drop i = data.elems[i] :: data.elems.drop (i + 1) :=
        List.drop_eq_getElem_cons hi2
      have hne : data.elems[i] ≠ 0xC0 := hb _ (hd ▸ List.mem_cons_self _ _)
      have hidx : data.elems[i]? = some data.elems[i] := List.getElem?_eq_getElem hi2
      have hrec := ih (i + 1) (out ++ [data.elems[i]])
        (fun b hbm => hb b (hd ▸ List.mem_cons_of_mem _ hbm)) (by omega)
      rw [decompressLoop, if_pos hi, Slice.index_ofNat _ _ _ hidx, Go.bind_ret, if_pos hne, hrec,
        hd]
      simp
    · have : data.elems.length ≤ i := by simp only [Slice.len] at hi; omega
      simp [decompressLoop, hi, List.drop_eq_nil_of_le this]

theorem decompressQuestions_of_no_pointer (growth : Nat → Nat → Nat) (data : Slice)
    (h : ∀ b ∈ data.elems, b ≠ 0xC0) :
    decompressQuestions growth data = .ret ⟨data.elems, []⟩ := by
  have hl := decompressLoop_of_no_pointer data data.len 0 [] (by simpa using h) (by omega)
  simp only [List.drop_zero, List.nil_append] at hl
  simp only [decompressQuestions, hl, Go.bind_ret]
  simp [Slice.len]

theorem findNullIndexesLoop_end (d : Slice) (f i : Nat) (acc : List Nat) (h : d.len ≤ i) :
    findNullIndexesLoop d f i acc = .ret acc := by
  cases f with
  | zero => rfl
  | succ f =>
    have : ¬ i < d.len := by omega
    simp [findNullIndexesLoop, this]

theorem findNullIndexesLoop_nonzero (d : Slice) (f i b : Nat) (acc : List Nat)
    (h : d.elems[i]? = some b) (hb : b ≠ 0) :
    findNullIndexesLoop d (f + 1) i acc = findNullIndexesLoop d f (i + 1) acc := by
  have hi : i < d.len := by
    rcases List.getElem?_eq_some_iff.mp h with ⟨hlt, _⟩
    exact hlt
  rw [findNullIndexesLoop, if_pos hi, Slice.index_ofNat _ _ _ h, Go.bind_ret, if_neg hb]

theorem findNullIndexesLoop_zero_zero (d : Slice) (f i : Nat) (acc : List Nat)
    (h : d.elems[i]? = some 0) (h1 : d.elems[i + 1]? = some 0) :
    findNullIndexesLoop d (f + 1) i acc = findNullIndexesLoop d f (i + 1) (acc ++ [i]) := by
  have hi : i < d.len := by
    rcases List.getElem?_eq_some_iff.mp h with ⟨hlt, _⟩
    exact hlt
  have h1int : d.index ((i : Int) + 1) = .ret 0 := by
    have := Slice.index_ofNat d (i + 1) 0 h1
    simpa using this
  rw [findNullIndexesLoop, if_pos hi, Slice.index_ofNat _ _ _ h, Go.bind_ret, if_pos rfl]
  simp [h1int]

theorem findNullIndexesLoop_zero_nonzero (d : Slice) (f i c : Nat) (acc : List Nat)
    (h : d.elems[i]? = some 0) (h1 : d.elems[i + 1]? = some c) (hc : c ≠ 0) :
    findNullIndexesLoop d (f + 1) i acc = findNullIndexesLoop d f (i + 1) acc := by
  have hi : i < d.len := by
    rcases List.getElem?_eq_some_iff.mp h with ⟨hlt, _⟩
    exact hlt
  have h1int : d.index ((i : Int) + 1) = .ret c := by
    have := Slice.index_ofNat d (i + 1) c h1
    simpa using this
  rw [findNullIndexesLoop, if_pos hi, Slice.index_ofNat _ _ _ h, Go.bind_ret, if_pos rfl]
  simp [h1int, hc]

theorem findNullIndexesLoop_zero_last (d : Slice) (f i : Nat) (acc : List Nat)
    (h : d.elems[i]? = some 0) (h1 : d.len ≤ i + 1) :
    findNullIndexesLoop d (f + 1) i acc = .panic := by
  have hi : i < d.len := by
    rcases List.getElem?_eq_some_iff.mp h with ⟨hlt, _⟩
    exact hlt
  have h1int : d.index ((i : Int) + 1) = .panic := by
    have := Slice.index_ofNat_none d (i + 1) h1
    simpa using this
  rw [findNullIndexesLoop, if_pos hi, Slice.index_ofNat _ _ _ h, Go.bind_ret, if_pos rfl]
  simp [h1int]

theorem getElem?_middle (A B : List Nat) (x : Nat) : (A ++ x :: B)[A.length]? = some x := by
  rw [List.getElem?_append_right (Nat.le_refl _)]
  simp

theorem findNullIndexesLoop_run (d : Slice) (X : List Nat) :
    ∀ (A B : List Nat) (f : Nat) (acc : List Nat),
      d.elems = A ++ X ++ B → 0 ∉ X →
      findNullIndexesLoop d (f + X.length) A.length acc
        = findNullIndexesLoop d f (A.length + X.length) acc := by
  induction X with
  | nil => intro A B f acc _ _; simp
  | cons x xs ih =>
    intro A B f acc hd hX
    have hx : x ≠ 0 := fun e => hX (by simp [e])
    have hidx : d.elems[A.length]? = some x := by
      rw [hd, List.append_assoc]
      exact getElem?_middle A (xs ++ B) x
    have hrec := ih (A ++ [x]) B f acc (by simp [hd]) (fun e => hX (by simp [e]))
    have e1 : f + (x :: xs).length = (f + xs.length) + 1 := by simp; omega
    rw [e1, findNullIndexesLoop_nonzero d _ _ x acc hidx hx]
    simp only [List.length_append, List.length_singleton] at hrec
    rw [hrec]
    congr 1
    simp; omega

theorem getElem?_block (P Q B : List Nat) (k : Nat) (hk : k < Q.length) :
    (P ++ Q ++ B)[P.length + k]? = Q[k]? := by
  rw [List.append_assoc, List.getElem?_append_right (Nat.le_add_right _ _)]
  simp only [Nat.add_sub_cancel_left]
  exact List.getElem?_append_left hk

theorem findNullIndexesLoop_question (d : Slice) (A L B : List Nat) (t ch cl f : Nat)
    (acc : List Nat) (hd : d.elems = A ++ (L ++ [0, 0, t, ch, cl]) ++ B) (hL : 0 ∉ L)
    (ht : t ≠ 0) (hc : cl ≠ 0) :
    findNullIndexesLoop d (f + (L.length + 5)) A.length acc
      = findNullIndexesLoop d f (A.length + (L.length + 5)) (acc ++ [A.length + L.length]) := by
  have hd1 : d.elems = A ++ L ++ ([0, 0, t, ch, cl] ++ B) := by simp [hd]
  have hd2 : d.elems = (A ++ L) ++ [0, 0, t, ch, cl] ++ B := by simp [hd]
  have hp : (A ++ L).length = A.length + L.length := by simp
  have g : ∀ k, k < 5 → d.elems[A.length + L.length + k]? = [0, 0, t, ch, cl][k]? := by
    intro k hk
    rw [hd2, ← hp]
    exact getElem?_block (A ++ L) _ B k (by simpa using hk)
  have g0 := g 0 (by omega)
  have g1 := g 1 (by omega)
  have g2 := g 2 (by omega)
  have g3 := g 3 (by omega)
  have g4 := g 4 (by omega)
  simp only [List.getElem?_cons_zero, List.getElem?_cons_succ, Nat.add_zero] at g0 g1 g2 g3 g4
  have e0 : f + (L.length + 5) = (f + 5) + L.length := by omega
  rw [e0, findNullIndexesLoop_run d L A _ (f + 5) acc hd1 hL]
  rw [show f + 5 = (f + 4) + 1 by omega,
    findNullIndexesLoop_zero_zero d (f + 4) _ acc g0 g1]
  rw [show f + 4 = (f + 3) + 1 by omega,
    findNullIndexesLoop_zero_nonzero d (f + 3) _ t _ g1 (by simpa [Nat.add_assoc] using g2) ht]
  rw [show f + 3 = (f + 2) + 1 by omega,
    findNullIndexesLoop_nonzero d (f + 2) _ t _ (by simpa [Nat.add_assoc] using g2) ht]
  have hstep : findNullIndexesLoop d (f + 1 + 1) (A.length + L.length + 1 + 1 + 1)
        (acc ++ [A.length + L.length])
      = findNullIndexesLoop d (f + 1) (A.length + L.length + 1 + 1 + 1 + 1)
        (acc ++ [A.length + L.length]) := by
    by_cases hch : ch = 0
    · subst hch
      exact findNullIndexesLoop_zero_nonzero d (f + 1) _ cl _
        (by simpa [Nat.add_assoc] using g3) (by simpa [Nat.add_assoc] using g4) hc
    · exact findNullIndexesLoop_nonzero d (f + 1) _ ch _ (by simpa [Nat.add_assoc] using g3) hch
  rw [show f + 2 = (f + 1) + 1 by omega, hstep]
  rw [findNullIndexesLoop_nonzero d f _ cl _ (by simpa [Nat.add_assoc] using g4) hc]
  have e5 : A.length + L.length + 1 + 1 + 1 + 1 + 1 = A.length + (L.length + 5) := by omega
  rw [e5]

theorem marshall_of_small (q : dnsQuestion) (ht : q.Typ ≤ 255) (hc : q.Class ≤ 255) :
    q.marshall = encodeLabels (stringsSplit dot q.Name) ++ [0, 0, q.Typ, 0, q.Class] := by
  have h1 : q.Typ / 256 % 256 = 0 := by omega
  have h2 : q.Typ % 256 = q.Typ := by omega
  have h3 : q.Class / 256 % 256 = 0 := by omega
  have h4 : q.Class % 256 = q.Class := by omega
  simp [dnsQuestion.marshall, encodeDomain_eq, appendUint16, h1, h2, h3, h4]

theorem CleanQuestion.marshall_eq {q : dnsQuestion} (h : CleanQuestion q) :
    q.marshall
      = encodeLabels (stringsSplit dot q.Name)
        ++ [0, 0, q.Typ, q.Class / 256, q.Class % 256] := by
  have h1 : q.Typ / 256 % 256 = 0 := by have := h.2.1.2.1; omega
  have h2 : q.Typ % 256 = q.Typ := by have := h.2.1.2.1; omega
  have h3 : q.Class / 256 % 256 = q.Class / 256 := by have := h.2.2.1; omega
  simp [dnsQuestion.marshall, encodeDomain_eq, appendUint16, h1, h2, h3]

/-- The conditions of the claims on type and class, both in 1..255 and other
than 192, are a case of `CleanQuestion`. -/
theorem CleanQuestion.of_small {q : dnsQuestion}
    (hl : ∀ l ∈ stringsSplit dot q.Name, CleanLabel l)
    (ht : 1 ≤ q.Typ ∧ q.Typ ≤ 255 ∧ q.Typ ≠ 192)
    (hc : 1 ≤ q.Class ∧ q.Class ≤ 255 ∧ q.Class ≠ 192) : CleanQuestion q :=
  ⟨hl, ht, by omega, by omega, by omega, by omega⟩

theorem CleanQuestion.labels {q : dnsQuestion} (h : CleanQuestion q) :
    ∀ l ∈ stringsSplit dot q.Name, 1 ≤ l.length ∧ l.length < 256 ∧ 0 ∉ l := by
  intro l hl
  have hc := h.1 l hl
  exact ⟨hc.1, by have := hc.2.1; omega, fun h0 => (hc.2.2 0 h0).1 rfl⟩

theorem CleanQuestion.marshall_length {q : dnsQuestion} (h : CleanQuestion q) :
    q.marshall.length = (encodeLabels (stringsSplit dot q.Name)).length + 5 := by
  rw [h.marshall_eq]
  simp

theorem marshallQuestions_cons (q : dnsQuestion) (qs : List dnsQuestion) :
    marshallQuestions (q :: qs) = q.marshall ++ marshallQuestions qs := by
  simp [marshallQuestions]

theorem marshallQuestions_append (xs ys : List dnsQuestion) :
    marshallQuestions (xs ++ ys) = marshallQuestions xs ++ marshallQuestions ys := by
  simp [marshallQuestions]

theorem findNullIndexesLoop_questions (d : Slice) (qs : List dnsQuestion) :
    ∀ (A : List Nat) (acc : List Nat),
      (∀ q ∈ qs, CleanQuestion q) → d.elems = A ++ marshallQuestions qs →
      findNullIndexesLoop d (marshallQuestions qs).length A.length acc
        = .ret (acc ++ nullPositions A.length qs) := by
  induction qs with
  | nil =>
    intro A acc _ _
    simp [marshallQuestions, findNullIndexesLoop, nullPositions]
  | cons q qs ih =>
    intro A acc hq hd
    have hcq := hq q (by simp)
    have hm := hcq.marshall_eq
    have hml := hcq.marshall_length
    have hd1 : d.elems
        = A ++ (encodeLabels (stringsSplit dot q.Name)
            ++ [0, 0, q.Typ, q.Class / 256, q.Class % 256])
          ++ marshallQuestions qs := by
      rw [hd, marshallQuestions_cons, hm]
      simp
    have hstep := findNullIndexesLoop_question d A (encodeLabels (stringsSplit dot q.Name))
      (marshallQuestions qs) q.Typ (q.Class / 256) (q.Class % 256)
      (marshallQuestions qs).length acc hd1
      (zero_not_mem_encodeLabels _ hcq.labels) (by have := hcq.2.1.1; omega)
      hcq.2.2.2.1
    have hrec := ih (A ++ q.marshall)
      (acc ++ [A.length + (encodeLabels (stringsSplit dot q.Name)).length])
      (fun x hx => hq x (by simp [hx])) (by rw [hd, marshallQuestions_cons]; simp)
    have e1 : (marshallQuestions (q :: qs)).length
        = (marshallQuestions qs).length
          + ((encodeLabels (stringsSplit dot q.Name)).length + 5) := by
      rw [marshallQuestions_cons, List.length_append, hml]
      omega
    have e2 : (A ++ q.marshall).length
        = A.length + ((encodeLabels (stringsSplit dot q.Name)).length + 5) := by
      rw [List.length_append, hml]
    rw [e1, hstep, ← e2, hrec]
    simp [nullPositions]

theorem deserializeQuestion_marshall (q : dnsQuestion) (spare : List Nat)
    (hl : ∀ l ∈ stringsSplit dot q.Name, 1 ≤ l.length ∧ l.length < 256 ∧ 0 ∉ l)
    (ht : q.Typ < 65536) (hc : q.Class < 65536) :
    deserializeQuestion ⟨q.marshall, spare⟩ = .ret q := by
  have hm : q.marshall = encodeLabels (stringsSplit dot q.Name)
      ++ 0 :: (appendUint16 q.Typ ++ appendUint16 q.Class) := by
    simp [dnsQuestion.marshall, encodeDomain_eq]
  have hp := parseName_labels (stringsSplit dot q.Name)
    (appendUint16 q.Typ ++ appendUint16 q.Class) spare hl
  have hdrop : (encodeLabels (stringsSplit dot q.Name)
      ++ 0 :: (appendUint16 q.Typ ++ appendUint16 q.Class)).drop
        ((encodeLabels (stringsSplit dot q.Name)).length + 1)
      = appendUint16 q.Typ ++ appendUint16 q.Class := by
    have := List.drop_left (encodeLabels (stringsSplit dot q.Name) ++ [0])
      (appendUint16 q.Typ ++ appendUint16 q.Class)
    simp
  have h1 : q.Typ / 256 % 256 * 256 + q.Typ % 256 = q.Typ := by omega
  have h2 : q.Class / 256 % 256 * 256 + q.Class % 256 = q.Class := by omega
  rw [deserializeQuestion, hm, hp, Go.bind_ret]
  simp only [Int.toNat_ofNat, hdrop, stringsJoin_stringsSplit]
  simp [appendUint16, readUint16, h1, h2]

theorem marshallQuestions_nil : marshallQuestions [] = [] := rfl

theorem nullPositions_length (off : Nat) (qs : List dnsQuestion) :
    (nullPositions off qs).length = qs.length := by
  induction qs generalizing off with
  | nil => rfl
  | cons q qs ih => simp [nullPositions, ih]

theorem nullPositions_append (off : Nat) (xs ys : List dnsQuestion) :
    nullPositions off (xs ++ ys)
      = nullPositions off xs ++ nullPositions (off + (marshallQuestions xs).length) ys := by
  induction xs generalizing off with
  | nil => simp [nullPositions, marshallQuestions]
  | cons x xs ih =>
    simp [nullPositions, ih, marshallQuestions_cons, Nat.add_assoc]

theorem nullPositions_getElem? (pre suf : List dnsQuestion) (q : dnsQuestion) :
    (nullPositions 0 (pre ++ q :: suf))[pre.length]?
      = some ((marshallQuestions pre).length
          + (encodeLabels (stringsSplit dot q.Name)).length) := by
  rw [nullPositions_append, List.getElem?_append_right (by rw [nullPositions_length])]
  simp [nullPositions_length, nullPositions]

theorem unmarshallQuestionLoop_questions (spare : List Nat) (qs : List dnsQuestion)
    (hq : ∀ q ∈ qs, CleanQuestion q) :
    ∀ (suf pre : List dnsQuestion) (acc : List dnsQuestion), qs = pre ++ suf →
      unmarshallQuestionLoop ⟨marshallQuestions qs, spare⟩ (nullPositions 0 qs) suf.length
          pre.length acc
        = .ret (acc ++ suf) := by
  intro suf
  induction suf with
  | nil => intro pre acc _; simp [unmarshallQuestionLoop]
  | cons q suf ih =>
    intro pre acc hqs
    have hcq : CleanQuestion q := hq q (by simp [hqs])
    have hlt : pre.length < (nullPositions 0 qs).length := by
      rw [nullPositions_length, hqs]; simp
    have hni : (nullPositions 0 qs)[pre.length]?
        = some ((marshallQuestions pre).length
            + (encodeLabels (stringsSplit dot q.Name)).length) := by
      rw [hqs]; exact nullPositions_getElem? pre suf q
    have hE : marshallQuestions qs
        = marshallQuestions pre ++ q.marshall ++ marshallQuestions suf := by
      rw [hqs, marshallQuestions_append, marshallQuestions_cons]; simp
    -- the slice of the question at index `pre.length`
    have hslice : (⟨marshallQuestions qs, spare⟩ : Slice).slice (marshallQuestions pre).length
        ((marshallQuestions pre).length + (encodeLabels (stringsSplit dot q.Name)).length + 4 + 1)
        = .ret ⟨q.marshall, marshallQuestions suf ++ spare⟩ := by
      have hhi : (marshallQuestions pre).length
          + (encodeLabels (stringsSplit dot q.Name)).length + 4 + 1
          = (marshallQuestions pre).length + q.marshall.length := by
        rw [hcq.marshall_length]
        omega
      rw [hhi, Slice.slice_of_le _ _ _ (by omega) (by simp [Slice.cap, Slice.backing, hE]; omega)]
      have hb : (⟨marshallQuestions qs, spare⟩ : Slice).backing
          = marshallQuestions pre ++ q.marshall ++ (marshallQuestions suf ++ spare) := by
        simp [Slice.backing, hE]
      rw [hb, take_drop_middle, ← List.length_append, List.drop_left]
    have hdes := deserializeQuestion_marshall q (marshallQuestions suf ++ spare) hcq.labels
      (by have := hcq.2.1.2.1; omega) hcq.2.2.1
    have hrec := ih (pre ++ [q]) (acc ++ [q]) (by simp [hqs])
    simp only [List.length_append, List.length_singleton] at hrec
    rw [List.length_cons, unmarshallQuestionLoop, if_pos hlt, hni]
    simp only []
    by_cases h0 : pre.length = 0
    · have hpre : pre = [] := List.length_eq_zero.mp h0
      subst hpre
      simp only [List.length_nil, if_true]
      simp only [marshallQuestions_nil, List.length_nil, Nat.zero_add] at hslice hrec ⊢
      rw [hslice, Go.bind_ret, hdes, Go.bind_ret, hrec]
      simp
    · rcases List.eq_nil_or_concat pre with hnil | ⟨pre0, p, hp⟩
      · exact absurd (by simp [hnil]) h0
      · rw [List.concat_eq_append] at hp
        have hcp : CleanQuestion p := hq p (by simp [hqs, hp])
        have hprev : (nullPositions 0 qs)[pre.length - 1]?
            = some ((marshallQuestions pre0).length
                + (encodeLabels (stringsSplit dot p.Name)).length) := by
          have hqs2 : qs = pre0 ++ p :: (q :: suf) := by simp [hqs, hp]
          have : pre.length - 1 = pre0.length := by simp [hp]
          rw [this, hqs2]
          exact nullPositions_getElem? pre0 (q :: suf) p
        have hlo : (marshallQuestions pre0).length
            + (encodeLabels (stringsSplit dot p.Name)).length + 1 + 4
            = (marshallQuestions pre).length := by
          rw [hp, marshallQuestions_append, marshallQuestions_cons, List.length_append,
            List.length_append, hcp.marshall_length, marshallQuestions_nil]
          simp
          omega
        rw [if_neg h0, hprev]
        simp only []
        rw [hlo, hslice, Go.bind_ret, hdes, Go.bind_ret, hrec]
        simp

theorem pointer_not_mem_encodeLabels (ls : List (List Nat)) (h : ∀ l ∈ ls, CleanLabel l) :
    0xC0 ∉ encodeLabels ls := by
  induction ls with
  | nil => simp [encodeLabels]
  | cons l ls ih =>
    have hl := h l (by simp)
    have hmod : l.length % 256 = l.length := Nat.mod_eq_of_lt (by have := hl.2.1; omega)
    rw [encodeLabels_cons, hmod]
    intro hmem
    simp only [List.cons_append, List.mem_cons, List.mem_append] at hmem
    rcases hmem with h0 | h1 | h2
    · have := hl.2.1; omega
    · exact (hl.2.2 _ h1).2 rfl
    · exact ih (fun x hx => h x (by simp [hx])) h2

theorem pointer_not_mem_marshallQuestions (qs : List dnsQuestion)
    (hq : ∀ q ∈ qs, CleanQuestion q) : ∀ b ∈ marshallQuestions qs, b ≠ 0xC0 := by
  induction qs with
  | nil => simp [marshallQuestions]
  | cons q qs ih =>
    intro b hb hb0
    subst hb0
    have hcq := hq q (by simp)
    rw [marshallQuestions_cons, hcq.marshall_eq] at hb
    simp only [List.mem_append, List.mem_cons, List.mem_nil_iff, or_false] at hb
    rcases hb with (h1 | h2) | h3
    · exact pointer_not_mem_encodeLabels _ hcq.1 h1
    · have := hcq.2.1.2.2
      have := hcq.2.2.2.2.1
      have := hcq.2.2.2.2.2
      omega
    · exact ih (fun x hx => hq x (by simp [hx])) _ h3 rfl

theorem unmarshallQuestion_marshallQuestions (growth : Nat → Nat → Nat) (qs : List dnsQuestion)
    (spare : List Nat) (hq : ∀ q ∈ qs, CleanQuestion q) :
    unmarshallQuestion growth ⟨marshallQuestions qs, spare⟩ = .ret qs := by
  have hdec := decompressQuestions_of_no_pointer growth ⟨marshallQuestions qs, spare⟩
    (pointer_not_mem_marshallQuestions qs hq)
  have hnull := findNullIndexesLoop_questions ⟨marshallQuestions qs, []⟩ qs [] [] hq (by simp)
  have hloop := unmarshallQuestionLoop_questions [] qs hq qs [] [] (by simp)
  simp only [List.length_nil, List.nil_append] at hnull hloop
  simp only [unmarshallQuestion, hdec, Go.bind_ret, findNullIndexes, Slice.len, hnull,
    nullPositions_length, hloop]

theorem unmarshallAnswer_eq_map (qs : List dnsQuestion) :
    unmarshallAnswer qs = qs.map placeholderAnswer := by
  have h : ∀ init : List dnsAnswer,
      qs.foldl (fun answers q => answers ++ [placeholderAnswer q]) init
        = init ++ qs.map placeholderAnswer := by
    induction qs with
    | nil => simp
    | cons q qs ih => intro init; simp [ih]
  exact h []

theorem unmarshallHeader_cons (a b c d : Nat) (T spare : List Nat) :
    unmarshallHeader ⟨a :: b :: c :: d :: T, spare⟩
      = .ret { Id := a * 256 + b
               flags := { QueryResInd := true
                          OpCode := (c &&& 120) >>> 3
                          AuthAns := decide ((c &&& 4) = 1)
                          Tc := decide ((c &&& 2) = 1)
                          RecrDes := decide ((c &&& 1) = 1)
                          RecrAvl := decide ((d &&& 128) = 1)
                          Reserved := (d &&& 112) >>> 4
                          ResCode := if (c &&& 120) >>> 3 ≠ 0 then 4 else 0 }
               Qcount := 0, ARecCount := 0, AuthRecCount := 0, AddRecCount := 0 } := by
  have hc2 : 2 ≤ (⟨a :: b :: c :: d :: T, spare⟩ : Slice).cap := by simp [Slice.cap]; omega
  have hc4 : 4 ≤ (⟨a :: b :: c :: d :: T, spare⟩ : Slice).cap := by simp [Slice.cap]; omega
  simp only [unmarshallHeader, Slice.slice_of_le _ 0 2 (by omega) hc2,
    Slice.slice_of_le _ 2 4 (by omega) hc4, Go.bind_ret, Slice.backing, bigEndianUint16,
    unmarshallFlags, Slice.index]
  simp

theorem unmarshallHeader_of_four (a b c d : Nat) (T spare : List Nat) :
    ∃ hdr, unmarshallHeader ⟨a :: b :: c :: d :: T, spare⟩ = .ret hdr
      ∧ hdr.Id = a * 256 + b ∧ hdr.Qcount = 0 ∧ hdr.ARecCount = 0
      ∧ hdr.AuthRecCount = 0 ∧ hdr.AddRecCount = 0 ∧ hdr.flags.QueryResInd = true :=
  ⟨_, unmarshallHeader_cons a b c d T spare, rfl, rfl, rfl, rfl, rfl, rfl⟩

theorem marshallQuestions_length_pos (qs : List dnsQuestion) (hne : qs ≠ []) :
    1 ≤ (marshallQuestions qs).length := by
  cases qs with
  | nil => exact absurd rfl hne
  | cons q qs =>
    simp [marshallQuestions_cons, dnsQuestion.marshall, encodeDomain_eq, appendUint16]
    omega

theorem Unmarshall_split (growth : Nat → Nat → Nat) (H body extra spare : List Nat)
    (hH : H.length = 12) (hbody : 1 ≤ body.length) :
    ∃ hdr, unmarshallHeader ⟨H, body ++ extra ++ spare⟩ = .ret hdr
      ∧ hdr.Id = H.getD 0 0 * 256 + H.getD 1 0
      ∧ Unmarshall growth ⟨H ++ body ++ extra, spare⟩ ((12 + body.length : Nat) : Int)
        = (unmarshallQuestion growth ⟨body, extra ++ spare⟩).bind fun questions =>
            .ret (.ok { header := { hdr with
                                      Qcount := questions.length % 65536
                                      ARecCount := (unmarshallAnswer questions).length % 65536 }
                        questions := questions
                        answers := unmarshallAnswer questions }) := by
  obtain ⟨a, b, c, d, T, rfl⟩ : ∃ a b c d T, H = a :: b :: c :: d :: T := by
    match H, hH with
    | a :: b :: c :: d :: T, _ => exact ⟨a, b, c, d, T, rfl⟩
  obtain ⟨hdr, hhdr, hid, -⟩ := unmarshallHeader_of_four a b c d T (body ++ extra ++ spare)
  refine ⟨hdr, hhdr, by simpa using hid, ?_⟩
  have hT : T.length = 8 := by simpa using hH
  have hsz : ¬ (((12 + body.length : Nat) : Int) ≤ 12) := by omega
  have hb : (⟨a :: b :: c :: d :: T ++ body ++ extra, spare⟩ : Slice).backing
      = (a :: b :: c :: d :: T) ++ body ++ (extra ++ spare) := by
    simp [Slice.backing]
  have e : (12 : Nat) = (a :: b :: c :: d :: T).length := hH.symm
  have hs1 : (⟨a :: b :: c :: d :: T ++ body ++ extra, spare⟩ : Slice).slice 0 12
      = .ret ⟨a :: b :: c :: d :: T, body ++ extra ++ spare⟩ := by
    rw [Slice.slice_of_le _ _ _ (by omega) (by simp [Slice.cap, Slice.backing]; omega), hb]
    rw [List.drop_zero, List.append_assoc]
    congr 2
    · rw [e, List.take_left]
    · rw [e, List.drop_left]; simp
  have hs2 : (⟨a :: b :: c :: d :: T ++ body ++ extra, spare⟩ : Slice).slice 12
      (12 + body.length) = .ret ⟨body, extra ++ spare⟩ := by
    rw [Slice.slice_of_le _ _ _ (by omega) (by simp [Slice.cap, Slice.backing]; omega), hb]
    congr 2
    · rw [e, take_drop_middle]
    · rw [e, ← List.length_append, List.drop_left]
  rw [Unmarshall, if_neg hsz, hs1, Go.bind_ret, hhdr, Go.bind_ret, Int.toNat_ofNat, hs2,
    Go.bind_ret]

theorem Unmarshall_clean (growth : Nat → Nat → Nat) (H extra spare : List Nat)
    (qs : List dnsQuestion) (hH : H.length = 12) (hne : qs ≠ [])
    (hq : ∀ q ∈ qs, CleanQuestion q) :
    ∃ hdr, unmarshallHeader ⟨H, marshallQuestions qs ++ extra ++ spare⟩ = .ret hdr
      ∧ hdr.Id = H.getD 0 0 * 256 + H.getD 1 0
      ∧ Unmarshall growth ⟨H ++ marshallQuestions qs ++ extra, spare⟩
          ((12 + (marshallQuestions qs).length : Nat) : Int)
        = .ret (.ok { header := { hdr with Qcount := qs.length % 65536
                                           ARecCount := qs.length % 65536 }
                      questions := qs
                      answers := qs.map placeholderAnswer }) := by
  obtain ⟨hdr, hhdr, hid, hU⟩ := Unmarshall_split growth H (marshallQuestions qs) extra spare hH
    (marshallQuestions_length_pos qs hne)
  refine ⟨hdr, hhdr, hid, ?_⟩
  rw [hU, unmarshallQuestion_marshallQuestions growth qs _ hq, Go.bind_ret]
  simp [unmarshallAnswer_eq_map]

/-! ## A compression pointer to the first name -/

theorem decompressLoop_run (d : Slice) (X : List Nat) :
    ∀ (A B : List Nat) (f : Nat) (out : List Nat),
      d.elems = A ++ X ++ B → (∀ b ∈ X, b ≠ 0xC0) →
      decompressLoop d (f + X.length) A.length out
        = decompressLoop d f (A.length + X.length) (out ++ X) := by
  induction X with
  | nil => intro A B f out _ _; simp
  | cons x xs ih =>
    intro A B f out hd hX
    have hx : x ≠ 0xC0 := hX x (by simp)
    have hidx : d.elems[A.length]? = some x := by
      rw [hd, List.append_assoc]
      exact getElem?_middle A (xs ++ B) x
    have hi : A.length < d.len := by
      rcases List.getElem?_eq_some_iff.mp hidx with ⟨hlt, _⟩
      exact hlt
    have hrec := ih (A ++ [x]) B f (out ++ [x]) (by simp [hd])
      (fun b hb => hX b (by simp [hb]))
    have e1 : f + (x :: xs).length = (f + xs.length) + 1 := by simp; omega
    rw [e1, decompressLoop, if_pos hi, Slice.index_ofNat _ _ _ hidx, Go.bind_ret, if_pos hx]
    simp only [List.length_append, List.length_singleton] at hrec
    rw [hrec]
    congr 1
    · simp; omega
    · simp

theorem decompressCopy_run (d : Slice) (X : List Nat) :
    ∀ (A B : List Nat) (f : Nat) (out : List Nat),
      d.elems = A ++ X ++ 0 :: B → 0 ∉ X →
      decompressCopy d (f + X.length + 1) (A.length : Int) out = .ret (out ++ X ++ [0], true) := by
  induction X with
  | nil =>
    intro A B f out hd _
    have hidx : d.elems[A.length]? = some 0 := by
      rw [hd]; simpa using getElem?_middle A B 0
    have hi : (A.length : Int) < (d.len : Int) := by
      rcases List.getElem?_eq_some_iff.mp hidx with ⟨hlt, _⟩
      exact Int.ofNat_lt.mpr hlt
    rw [List.length_nil, Nat.add_zero, decompressCopy, if_pos hi, Slice.index_ofNat _ _ _ hidx,
      Go.bind_ret, if_pos rfl]
    simp
  | cons x xs ih =>
    intro A B f out hd hX
    have hx : x ≠ 0 := fun e => hX (by simp [e])
    have hidx : d.elems[A.length]? = some x := by
      rw [hd, List.append_assoc]
      exact getElem?_middle A (xs ++ 0 :: B) x
    have hi : (A.length : Int) < (d.len : Int) := by
      rcases List.getElem?_eq_some_iff.mp hidx with ⟨hlt, _⟩
      exact Int.ofNat_lt.mpr hlt
    have hrec := ih (A ++ [x]) B f (out ++ [x]) (by simp [hd]) (fun e => hX (by simp [e]))
    have e1 : f + (x :: xs).length + 1 = (f + xs.length + 1) + 1 := by simp; omega
    have e2 : ((A ++ [x]).length : Int) = (A.length : Int) + 1 := by simp
    rw [e1, decompressCopy, if_pos hi, Slice.index_ofNat _ _ _ hidx, Go.bind_ret, if_neg hx,
      ← e2, hrec]
    simp

theorem unmarshallQuestion_of_decompressed (growth : Nat → Nat → Nat) (data : Slice)
    (qs : List dnsQuestion) (spare : List Nat) (hq : ∀ q ∈ qs, CleanQuestion q)
    (hd : decompressQuestions growth data = .ret ⟨marshallQuestions qs, spare⟩) :
    unmarshallQuestion growth data = .ret qs := by
  have hnull := findNullIndexesLoop_questions ⟨marshallQuestions qs, spare⟩ qs [] [] hq (by simp)
  have hloop := unmarshallQuestionLoop_questions spare qs hq qs [] [] (by simp)
  simp only [List.length_nil, List.nil_append] at hnull hloop
  simp only [unmarshallQuestion, hd, Go.bind_ret, findNullIndexes, Slice.len, hnull,
    nullPositions_length, hloop]

theorem decompressLoop_pointer (L spare : List Nat) (t c : Nat) (hL0 : 0 ∉ L)
    (hLC : ∀ b ∈ L, b ≠ 0xC0) (ht : t ≠ 0xC0) (hc : c ≠ 0xC0) :
    decompressLoop ⟨(L ++ [0, 0, 1, 0, 1]) ++ [0xC0, 0x0C, 0, t, 0, c], spare⟩
        ((L ++ [0, 0, 1, 0, 1]) ++ [0xC0, 0x0C, 0, t, 0, c]).length 0 []
      = .ret ((L ++ [0, 0, 1, 0, 1]) ++ (L ++ [0, 0, t, 0, c])) := by
  generalize hd : (⟨(L ++ [0, 0, 1, 0, 1]) ++ [0xC0, 0x0C, 0, t, 0, c], spare⟩ : Slice) = d
  have hde : d.elems = (L ++ [0, 0, 1, 0, 1]) ++ [0xC0, 0x0C, 0, t, 0, c] := by rw [← hd]
  have hsp : d.spare = spare := by rw [← hd]
  have hlen : d.len = L.length + 11 := by simp [Slice.len, hde]
  have hQ : ∀ b ∈ L ++ [0, 0, 1, 0, 1], b ≠ 0xC0 := by
    intro b hb
    simp only [List.mem_append, List.mem_cons, List.mem_nil_iff, or_false] at hb
    rcases hb with h | h | h | h | h | h
    · exact hLC b h
    all_goals omega
  -- the first question is copied
  have h1 := decompressLoop_run d (L ++ [0, 0, 1, 0, 1]) [] [0xC0, 0x0C, 0, t, 0, c] 6 []
    (by simp [hde]) hQ
  simp only [List.length_nil, Nat.zero_add, List.nil_append] at h1
  -- the pointer is expanded
  have hidx : d.elems[(L ++ [0, 0, 1, 0, 1]).length]? = some 0xC0 := by
    rw [hde]
    exact getElem?_middle _ _ _
  have hi : (L ++ [0, 0, 1, 0, 1]).length < d.len := by
    rw [hlen]; simp
  have hslice : d.slice (L ++ [0, 0, 1, 0, 1]).length ((L ++ [0, 0, 1, 0, 1]).length + 2)
      = .ret ⟨[0xC0, 0x0C], [0, t, 0, c] ++ spare⟩ := by
    rw [Slice.slice_of_le _ _ _ (by omega) (by simp [Slice.cap, Slice.backing, hde]; omega)]
    have hb : d.backing = (L ++ [0, 0, 1, 0, 1]) ++ [0xC0, 0x0C] ++ ([0, t, 0, c] ++ spare) := by
      simp [Slice.backing, hde, hsp]
    rw [hb]
    congr 2
    · exact take_drop_middle (L ++ [0, 0, 1, 0, 1]) [0xC0, 0x0C] _
    · have : (L ++ [0, 0, 1, 0, 1]).length + 2
          = ((L ++ [0, 0, 1, 0, 1]) ++ [0xC0, 0x0C]).length := by simp
      rw [this, List.drop_left]
  have hptr : bigEndianUint16 ⟨[0xC0, 0x0C], [0, t, 0, c] ++ spare⟩ = .ret 0xC00C := by
    simp [bigEndianUint16, Slice.index]
  have hpv : ((0xC00C &&& 0x3FFF : Nat) : Int) - (headerSize : Int) = ((([] : List Nat).length : Nat) : Int) := by
    decide
  have hcopy := decompressCopy_run d L [] ([0, 1, 0, 1] ++ [0xC0, 0x0C, 0, t, 0, c]) 10
    (L ++ [0, 0, 1, 0, 1]) (by simp [hde]) hL0
  have hfuel : 10 + L.length + 1 = d.len := by rw [hlen]; omega
  rw [hfuel] at hcopy
  -- the type and class of the second question are copied
  have h3 := decompressLoop_run d [0, t, 0, c] ((L ++ [0, 0, 1, 0, 1]) ++ [0xC0, 0x0C]) [] 1
    ((L ++ [0, 0, 1, 0, 1]) ++ L ++ [0]) (by simp [hde]) (by
      intro b hb
      simp only [List.mem_cons, List.mem_nil_iff, or_false] at hb
      rcases hb with h | h | h | h <;> omega)
  have hend : ¬ ((L ++ [0, 0, 1, 0, 1]) ++ [0xC0, 0x0C]).length + [0, t, 0, c].length < d.len := by
    rw [hlen]; simp
  have e0 : ((L ++ [0, 0, 1, 0, 1]) ++ [0xC0, 0x0C, 0, t, 0, c]).length
      = 6 + (L ++ [0, 0, 1, 0, 1]).length := by simp; omega
  have e2 : (L ++ [0, 0, 1, 0, 1]).length + 1 + 1
      = ((L ++ [0, 0, 1, 0, 1]) ++ [0xC0, 0x0C]).length := by simp
  rw [e0, h1, show (6 : Nat) = 5 + 1 by rfl, decompressLoop, if_pos hi,
    Slice.index_ofNat _ _ _ hidx, Go.bind_ret, if_neg (by simp), hslice, Go.bind_ret, hptr,
    Go.bind_ret]
  simp only [hpv, hcopy, Go.bind_ret, if_true]
  rw [e2, show (5 : Nat) = 1 + [0, t, 0, c].length by rfl, h3, decompressLoop, if_neg hend]
  simp

theorem pointerQuestionBytes_of_small (t c : Nat) (ht : t ≤ 255) (hc : c ≤ 255) :
    pointerQuestionBytes t c = [0xC0, 0x0C, 0, t, 0, c] := by
  have h1 : t / 256 % 256 = 0 := by omega
  have h2 : t % 256 = t := by omega
  have h3 : c / 256 % 256 = 0 := by omega
  have h4 : c % 256 = c := by omega
  simp [pointerQuestionBytes, appendUint16, h1, h2, h3, h4]

theorem unmarshallQuestion_pointer_to_first (growth : Nat → Nat → Nat) (name spare : List Nat)
    (t c : Nat) (hl : ∀ l ∈ stringsSplit dot name, CleanLabel l)
    (ht : 1 ≤ t ∧ t ≤ 255 ∧ t ≠ 192) (hc : 1 ≤ c ∧ c ≤ 255 ∧ c ≠ 192) :
    unmarshallQuestion growth
        ⟨(⟨name, 1, 1⟩ : dnsQuestion).marshall ++ pointerQuestionBytes t c, spare⟩
      = .ret [⟨name, 1, 1⟩, ⟨name, t, c⟩] := by
  have hq1 : CleanQuestion ⟨name, 1, 1⟩ :=
    CleanQuestion.of_small hl (by show 1 ≤ 1 ∧ 1 ≤ 255 ∧ 1 ≠ 192; decide)
      (by show 1 ≤ 1 ∧ 1 ≤ 255 ∧ 1 ≠ 192; decide)
  have hq2 : CleanQuestion ⟨name, t, c⟩ := CleanQuestion.of_small hl ht hc
  have hqs : ∀ q ∈ [(⟨name, 1, 1⟩ : dnsQuestion), ⟨name, t, c⟩], CleanQuestion q := by
    intro q hq
    simp only [List.mem_cons, List.mem_nil_iff, or_false] at hq
    rcases hq with h | h
    · rw [h]; exact hq1
    · rw [h]; exact hq2
  have hm1 := marshall_of_small ⟨name, 1, 1⟩ (by show 1 ≤ 255; decide) (by show 1 ≤ 255; decide)
  have hm2 := marshall_of_small ⟨name, t, c⟩ ht.2.1 hc.2.1
  simp only [] at hm1 hm2
  have hmq : marshallQuestions [(⟨name, 1, 1⟩ : dnsQuestion), ⟨name, t, c⟩]
      = (encodeLabels (stringsSplit dot name) ++ [0, 0, 1, 0, 1])
        ++ (encodeLabels (stringsSplit dot name) ++ [0, 0, t, 0, c]) := by
    rw [marshallQuestions_cons, marshallQuestions_cons, marshallQuestions_nil, hm1, hm2]
    simp
  have hloop := decompressLoop_pointer (encodeLabels (stringsSplit dot name)) spare t c
    (zero_not_mem_encodeLabels _ hq1.labels)
    (fun b hb e => pointer_not_mem_encodeLabels _ hl (e ▸ hb)) ht.2.2 hc.2.2
  rw [← hmq] at hloop
  apply unmarshallQuestion_of_decompressed growth _ _ _ hqs
  · rw [decompressQuestions, hm1, pointerQuestionBytes_of_small t c ht.2.1 hc.2.1]
    simp only [Slice.len]
    rw [hloop, Go.bind_ret]

/-! ## Message aggregate: errors and layout -/

theorem Marshall_ok_of_counts (m : DnsMessage)
    (hq : m.header.Qcount = m.questions.length % 65536)
    (ha : m.header.ARecCount = m.answers.length % 65536) :
    ∃ bytes, m.Marshall = .ok bytes := by
  simp [DnsMessage.Marshall, hq, ha]

theorem manyQuestions_length : manyQuestions.questions.length = 65536 :=
  List.length_replicate 65536 questionA

theorem manyAnswers_length : manyAnswers.answers.length = 65536 :=
  List.length_replicate 65536 answerA

/-- C4: for every buffer and every `size <= 12`, `Unmarshall` returns the
header-too-short `ParseError`, whose section is HEADER; the result does not
depend on the buffer. -/
theorem Unmarshall_header_too_short (growth : Nat → Nat → Nat) (data : Slice) (size : Int)
    (h : size ≤ 12) :
    Unmarshall growth data size = .ret (.error (headerTooShort size))
      ∧ (headerTooShort size).Section = .HeaderSection := by
  simp [Unmarshall, h, headerTooShort]

theorem Unmarshall_header_too_short_witness :
    (12 : Int) ≤ 12
      ∧ Unmarshall noSpare (Slice.ofList (List.replicate 12 7)) 12
          = .ret (.error (headerTooShort 12))
      ∧ (headerTooShort 12).Section = .HeaderSection :=
  ⟨by decide, Unmarshall_header_too_short noSpare (Slice.ofList (List.replicate 12 7)) 12
    (by decide)⟩

/-- C6, as stated, fails: a message with 65536 questions and `Qcount = 0` has a
header count different from the number of questions, yet `Marshall` returns
bytes, because the count is compared with `uint16(len(m.questions))`. -/
theorem Marshall_qcount_wraps :
    manyQuestions.header.Qcount ≠ manyQuestions.questions.length
      ∧ ∃ bytes, manyQuestions.Marshall = .ok bytes := by
  constructor
  · rw [manyQuestions_length]
    decide
  · apply Marshall_ok_of_counts
    · rw [manyQuestions_length]
      rfl
    · rfl

theorem Marshall_error_of_qcount (m : DnsMessage)
    (h : m.header.Qcount ≠ m.questions.length % 65536) :
    m.Marshall = .error (questionCountMismatch m) := by
  simp [DnsMessage.Marshall, h]

theorem Marshall_error_of_arcount (m : DnsMessage)
    (hq : m.header.Qcount = m.questions.length % 65536)
    (ha : m.header.ARecCount ≠ m.answers.length % 65536) :
    m.Marshall = .error (answerCountMismatch m) := by
  simp [DnsMessage.Marshall, hq, ha]

/-- C6, amended: for every message holding fewer than 65536 questions whose
header `Qcount` differs from their number, `Marshall` returns the
question-count `ParseError`, with section REQUEST and index -1. -/
theorem Marshall_question_count_mismatch (m : DnsMessage)
    (hlen : m.questions.length < 65536) (h : m.header.Qcount ≠ m.questions.length) :
    m.Marshall = .error (questionCountMismatch m)
      ∧ (questionCountMismatch m).Section = .RequestSection
      ∧ (questionCountMismatch m).Index = -1 := by
  refine ⟨Marshall_error_of_qcount m ?_, rfl, rfl⟩
  rw [Nat.mod_eq_of_lt hlen]
  exact h

theorem Marshall_question_count_mismatch_witness :
    wrongQcount.questions.length < 65536
      ∧ wrongQcount.header.Qcount ≠ wrongQcount.questions.length
      ∧ wrongQcount.Marshall = .error (questionCountMismatch wrongQcount)
      ∧ (questionCountMismatch wrongQcount).Section = .RequestSection
      ∧ (questionCountMismatch wrongQcount).Index = -1 :=
  ⟨by decide, by decide, Marshall_question_count_mismatch wrongQcount (by decide) (by decide)⟩

/-- C7, as stated, fails: a message with no questions, 65536 answers and both
header counts zero has an `ARecCount` different from the number of answers,
yet `Marshall` returns bytes and no error. -/
theorem Marshall_arcount_wraps :
    (manyAnswers.header.Qcount ≠ manyAnswers.questions.length
        ∨ manyAnswers.header.ARecCount ≠ manyAnswers.answers.length)
      ∧ ∃ bytes, manyAnswers.Marshall = .ok bytes := by
  constructor
  · right
    rw [manyAnswers_length]
    decide
  · apply Marshall_ok_of_counts
    · rfl
    · rw [manyAnswers_length]
      rfl

/-- C7, amended: for every message holding fewer than 65536 questions and
fewer than 65536 answers, `Marshall` returns an error exactly when `Qcount`
differs from the number of questions or `ARecCount` differs from the number
of answers; when the question count matches and the answer count does not,
the error has section RESPONSE and index -1; when both match it returns
bytes. -/
theorem Marshall_error_iff (m : DnsMessage)
    (hlq : m.questions.length < 65536) (hla : m.answers.length < 65536) :
    ((∃ e, m.Marshall = .error e) ↔
        (m.header.Qcount ≠ m.questions.length ∨ m.header.ARecCount ≠ m.answers.length))
      ∧ (m.header.Qcount = m.questions.length → m.header.ARecCount ≠ m.answers.length →
          m.Marshall = .error (answerCountMismatch m)
            ∧ (answerCountMismatch m).Section = .ResponseSection
            ∧ (answerCountMismatch m).Index = -1)
      ∧ (m.header.Qcount = m.questions.length → m.header.ARecCount = m.answers.length →
          ∃ bytes, m.Marshall = .ok bytes) := by
  have hmq : m.questions.length % 65536 = m.questions.length := Nat.mod_eq_of_lt hlq
  have hma : m.answers.length % 65536 = m.answers.length := Nat.mod_eq_of_lt hla
  refine ⟨?_, ?_, ?_⟩
  · by_cases hq : m.header.Qcount = m.questions.length
    · by_cases ha : m.header.ARecCount = m.answers.length
      · obtain ⟨bytes, hb⟩ := Marshall_ok_of_counts m (hmq.symm ▸ hq) (hma.symm ▸ ha)
        simp [hb, hq, ha]
      · have he := Marshall_error_of_arcount m (hmq.symm ▸ hq) (hma.symm ▸ ha)
        simp [he, ha]
    · have he := Marshall_error_of_qcount m (hmq.symm ▸ hq)
      simp [he, hq]
  · intro hq ha
    exact ⟨Marshall_error_of_arcount m (hmq.symm ▸ hq) (hma.symm ▸ ha), rfl, rfl⟩
  · intro hq ha
    exact Marshall_ok_of_counts m (hmq.symm ▸ hq) (hma.symm ▸ ha)

theorem Marshall_error_iff_witness :
    (oneEach.questions.length < 65536 ∧ oneEach.answers.length < 65536
        ∧ oneEach.header.Qcount = oneEach.questions.length
        ∧ oneEach.header.ARecCount = oneEach.answers.length
        ∧ ∃ bytes, oneEach.Marshall = .ok bytes)
      ∧ (wrongArcount.questions.length < 65536 ∧ wrongArcount.answers.length < 65536
        ∧ wrongArcount.header.Qcount = wrongArcount.questions.length
        ∧ wrongArcount.header.ARecCount ≠ wrongArcount.answers.length
        ∧ wrongArcount.Marshall = .error (answerCountMismatch wrongArcount)) :=
  ⟨⟨by decide, by decide, by decide, by decide,
      (Marshall_error_iff oneEach (by decide) (by decide)).2.2 (by decide) (by decide)⟩,
    ⟨by decide, by decide, by decide, by decide,
      ((Marshall_error_iff wrongArcount (by decide) (by decide)).2.1 (by decide)
        (by decide)).1⟩⟩

/-- C10: for a message (with fields in the range of their Go types) whose
header counts match its sequences, `Marshall` returns the 12-byte header
encoding, then the encoding of each question in index order, then the encoding
of each answer in index order. -/
theorem Marshall_layout (m : DnsMessage) (hw : m.WellTyped)
    (hq : m.header.Qcount = m.questions.length)
    (ha : m.header.ARecCount = m.answers.length) :
    m.Marshall = .ok (m.header.marshall
        ++ (m.questions.map dnsQuestion.marshall).flatten
        ++ (m.answers.map dnsAnswer.marshall).flatten)
      ∧ m.header.marshall.length = 12 := by
  have hq2 : m.questions.length % 65536 = m.questions.length :=
    Nat.mod_eq_of_lt (hq ▸ hw.1.2.2.1)
  have ha2 : m.answers.length % 65536 = m.answers.length :=
    Nat.mod_eq_of_lt (ha ▸ hw.1.2.2.2.1)
  refine ⟨?_, dnsHeader_marshall_length _⟩
  simp [DnsMessage.Marshall, hq, ha, hq2, ha2, foldl_append_flatten]

theorem Marshall_layout_witness :
    oneEach.WellTyped
      ∧ oneEach.header.Qcount = oneEach.questions.length
      ∧ oneEach.header.ARecCount = oneEach.answers.length
      ∧ oneEach.Marshall = .ok (oneEach.header.marshall
          ++ (oneEach.questions.map dnsQuestion.marshall).flatten
          ++ (oneEach.answers.map dnsAnswer.marshall).flatten)
      ∧ oneEach.header.marshall.length = 12 :=
  ⟨by decide, by decide, by decide,
    Marshall_layout oneEach (by decide) (by decide) (by decide)⟩

/-! ## Parsing: round trip, panics, compression, example scenario -/

theorem Marshall_eq_of_counts (m : DnsMessage)
    (hq : m.header.Qcount = m.questions.length % 65536)
    (ha : m.header.ARecCount = m.answers.length % 65536) :
    m.Marshall = .ok (m.header.marshall ++ marshallQuestions m.questions
      ++ (m.answers.map dnsAnswer.marshall).flatten) := by
  simp [DnsMessage.Marshall, hq, ha, foldl_append_flatten, marshallQuestions]

/-- C1, as stated, fails on each of three valid messages: for the message with
no question and no answer `Marshall` returns 12 bytes and `Unmarshall` rejects
them as too short; for a message with one question and no answer `Unmarshall`
returns a message that has one answer more, and a different header; for a
message with one question and one placeholder answer `Unmarshall` panics. -/
theorem roundTrip_fails :
    (ValidMessage emptyMessage
        ∧ roundTrip emptyMessage = .ret (.error (headerTooShort 12)))
      ∧ (ValidMessage oneQuestion
        ∧ roundTrip oneQuestion = .ret (.ok
            { header := { (plainHeader 1 1) with
                flags := { (plainHeader 1 1).flags with QueryResInd := true } }
              questions := [questionA]
              answers := [answerA] })
        ∧ roundTrip oneQuestion ≠ .ret (.ok oneQuestion))
      ∧ (ValidMessage oneEach ∧ roundTrip oneEach = .panic) := by
  decide

/-- C3 fails on the code: on the 17-byte packet made of a header and the name
`3 w w w 0`, cut before the type and class, `Unmarshall` with `size = 17`
panics: `findNullIndexes` reads `data[i+1]` one past the last byte. -/
theorem Unmarshall_panics_on_truncated_packet :
    (12 : Int) < 17 ∧ (17 : Int) ≤ (Slice.ofList truncatedPacket).len
      ∧ Unmarshall noSpare (Slice.ofList truncatedPacket) 17 = .panic := by
  decide

/-- C5 fails on the code: on every packet whose first 13 bytes are 12 header
bytes and a zero byte, whatever follows them in the buffer, `Unmarshall` with
`size = 13` panics instead of returning a message. -/
theorem Unmarshall_panics_on_root_name (growth : Nat → Nat → Nat) (H extra spare : List Nat)
    (hH : H.length = 12) :
    Unmarshall growth ⟨H ++ [0] ++ extra, spare⟩ 13 = .panic := by
  obtain ⟨hdr, -, -, hU⟩ := Unmarshall_split growth H [0] extra spare hH (by simp)
  have hdec := decompressQuestions_of_no_pointer growth ⟨[0], extra ++ spare⟩ (by simp)
  have hq : unmarshallQuestion growth ⟨[0], extra ++ spare⟩ = .panic := by
    simp only [unmarshallQuestion, hdec, Go.bind_ret]
    rfl
  have hsz : (((12 + [0].length : Nat) : Int)) = 13 := by simp
  rw [hsz, hq] at hU
  exact hU

theorem Unmarshall_panics_on_root_name_witness :
    (queryHeaderBytes 1).length = 12
      ∧ Unmarshall noSpare ⟨queryHeaderBytes 1 ++ [0] ++ [], []⟩ 13 = .panic :=
  ⟨by decide, Unmarshall_panics_on_root_name noSpare (queryHeaderBytes 1) [] [] (by decide)⟩

/-- C8 fails on the code: when the second question, a pointer to offset 12,
has type CAA (257) and class IN, `Unmarshall` returns one question, not two:
the zero that ends the expanded second name is followed by the non-zero high
byte of the type, so `findNullIndexes` does not see it and the second
question is dropped. -/
theorem Unmarshall_compressed_caa :
    compressedCaaPacket
        = queryHeaderBytes 2 ++ (exampleQuestion.marshall ++ pointerQuestionBytes 257 1)
      ∧ Unmarshall noSpare (Slice.ofList compressedCaaPacket) 39
        = .ret (.ok { header := { exampleParsed.header with Qcount := 1, ARecCount := 1 }
                      questions := [exampleQuestion]
                      answers := [placeholderAnswer exampleQuestion] }) := by
  decide

/-- Where the scan of `findNullIndexes` finds both names the pointer is
resolved: for every packet made of a 12-byte header, a first question (a name
of 1-63-byte labels without the bytes `0x00` and `0xC0`, type A, class IN) and
a second question made of the pointer `0xC0 0x0C` followed by a type and a
class that both lie in 1..255 and differ from 192, `Unmarshall` (with `size`
the length of the packet, whatever follows it in the buffer) returns exactly
two questions, both with the name of the first question. -/
theorem Unmarshall_pointer_to_first_question (growth : Nat → Nat → Nat)
    (H name extra spare : List Nat) (t c : Nat) (hH : H.length = 12)
    (hl : ∀ l ∈ stringsSplit dot name, 1 ≤ l.length ∧ l.length ≤ 63 ∧ ∀ b ∈ l, b ≠ 0 ∧ b ≠ 0xC0)
    (ht : 1 ≤ t ∧ t ≤ 255 ∧ t ≠ 192) (hc : 1 ≤ c ∧ c ≤ 255 ∧ c ≠ 192) :
    ∃ r, Unmarshall growth
          ⟨H ++ ((⟨name, 1, 1⟩ : dnsQuestion).marshall ++ pointerQuestionBytes t c) ++ extra,
            spare⟩
          ((12 + ((⟨name, 1, 1⟩ : dnsQuestion).marshall ++ pointerQuestionBytes t c).length
            : Nat) : Int)
        = .ret (.ok r)
      ∧ r.questions = [⟨name, 1, 1⟩, ⟨name, t, c⟩] := by
  obtain ⟨hdr, -, -, hU⟩ := Unmarshall_split growth H
    ((⟨name, 1, 1⟩ : dnsQuestion).marshall ++ pointerQuestionBytes t c) extra spare hH
    (by simp [pointerQuestionBytes]; omega)
  rw [unmarshallQuestion_pointer_to_first growth name (extra ++ spare) t c hl ht hc,
    Go.bind_ret] at hU
  exact ⟨_, hU, rfl⟩

/-- A pointer question of type AAAA (28) after `codecrafters.io`. -/
theorem Unmarshall_pointer_to_first_question_witness :
    (queryHeaderBytes 2).length = 12
      ∧ (∀ l ∈ stringsSplit dot codecraftersIo,
          1 ≤ l.length ∧ l.length ≤ 63 ∧ ∀ b ∈ l, b ≠ 0 ∧ b ≠ 0xC0)
      ∧ (1 ≤ 28 ∧ 28 ≤ 255 ∧ 28 ≠ 192) ∧ (1 ≤ 1 ∧ 1 ≤ 255 ∧ 1 ≠ 192)
      ∧ ∃ r, Unmarshall noSpare
            ⟨queryHeaderBytes 2
                ++ ((⟨codecraftersIo, 1, 1⟩ : dnsQuestion).marshall ++ pointerQuestionBytes 28 1)
                ++ [], []⟩
            ((12 + ((⟨codecraftersIo, 1, 1⟩ : dnsQuestion).marshall
                ++ pointerQuestionBytes 28 1).length : Nat) : Int)
          = .ret (.ok r)
        ∧ r.questions = [⟨codecraftersIo, 1, 1⟩, ⟨codecraftersIo, 28, 1⟩] :=
  ⟨by decide, by decide, by decide, by decide,
    Unmarshall_pointer_to_first_question noSpare (queryHeaderBytes 2) codecraftersIo [] [] 28 1
      (by decide) (by decide) (by decide) (by decide)⟩

/-- C9: for the example packet (whatever follows it in the buffer and whatever
the spare capacity) `Unmarshall` with `size = 33` returns one question named
`codecrafters.io` and one answer with TTL 60 and no resource data; one call of
the `Transform` iterator with `fillAnswer` returns true and sets `Rdata` to
`[8,8,8,8]` and `RdLength` to 4; `Marshall` then succeeds and the bytes after
the 12-byte header and the 21-byte question are the encoded name, type 1,
class 1, TTL 60, rdlength 4 and rdata `[8,8,8,8]`. -/
theorem example_scenario (growth : Nat → Nat → Nat) (extra spare : List Nat) :
    Unmarshall growth ⟨examplePacket ++ extra, spare⟩ 33 = .ret (.ok exampleParsed)
      ∧ exampleParsed.questions = [{ Name := codecraftersIo, Typ := 1, Class := 1 }]
      ∧ exampleParsed.answers
          = [{ Name := codecraftersIo, Typ := 1, Class := 1, TTL := 60, RdLength := 0,
               Rdata := [] }]
      ∧ (exampleParsed.Transform.call fillAnswer).2 = true
      ∧ (exampleParsed.Transform.call fillAnswer).1.m.answers
          = [{ Name := codecraftersIo, Typ := 1, Class := 1, TTL := 60, RdLength := 4,
               Rdata := [8, 8, 8, 8] }]
      ∧ (exampleParsed.Transform.call fillAnswer).1.m.Marshall
          = .ok ([0x12, 0x34, 0x81, 0x00, 0, 1, 0, 1, 0, 0, 0, 0] ++ exampleQuestionBytes
              ++ (encodeDomain codecraftersIo
                  ++ [0, 1, 0, 1, 0, 0, 0, 60, 0, 4, 8, 8, 8, 8])) := by
  refine ⟨?_, by decide, by decide, by decide, by decide, by decide⟩
  obtain ⟨hdr, hhdr, -, hU⟩ := Unmarshall_clean growth (queryHeaderBytes 1) extra spare
    [exampleQuestion] (by decide) (by decide) (by decide)
  have hh := hhdr.symm.trans (unmarshallHeader_cons 0x12 0x34 0x01 0x00 [0, 1, 0, 0, 0, 0, 0, 0]
    (marshallQuestions [exampleQuestion] ++ extra ++ spare))
  injection hh with hh
  have hE : queryHeaderBytes 1 ++ marshallQuestions [exampleQuestion] = examplePacket := by
    decide
  have hsz : (((12 + (marshallQuestions [exampleQuestion]).length : Nat)) : Int) = 33 := by
    decide
  rw [hE, hsz, hh] at hU
  rw [hU]
  decide

/-! ## Header codec -/

theorem flagByte_bits : ∀ op < 16, ∀ qr aa tc rd : Bool,
    ((headerFlags.marshall ⟨qr, op, aa, tc, rd, false, 0, 0⟩).getD 0 0 &&& 120) >>> 3 = op
      ∧ decide ((headerFlags.marshall ⟨qr, op, aa, tc, rd, false, 0, 0⟩).getD 0 0 &&& 1 = 1)
          = rd := by
  decide

theorem headerFlags_marshall_first (f : headerFlags) :
    f.marshall.getD 0 0
      = (headerFlags.marshall
          ⟨f.QueryResInd, f.OpCode, f.AuthAns, f.Tc, f.RecrDes, false, 0, 0⟩).getD 0 0 := rfl

theorem dnsHeader_marshall_cons (h : dnsHeader) :
    h.marshall = (h.Id / 256 % 256) :: (h.Id % 256) :: h.flags.marshall.getD 0 0
      :: h.flags.marshall.getD 1 0
      :: (appendUint16 h.Qcount ++ appendUint16 h.ARecCount ++ appendUint16 h.AuthRecCount
          ++ appendUint16 h.AddRecCount) := rfl

/-- C11 fails on the code: for the header with all flags clear, reserved 0
and response code 1 the layout of the claim gives byte 3 = 1, while
`dnsHeader.marshall` returns byte 3 = 17: `headerFlags.marshall` ors
`ResCode << 4` into the second flag byte where the reserved field belongs. -/
theorem dnsHeader_marshall_rcode_one :
    rcodeOneHeader.flags.OpCode ≤ 15 ∧ rcodeOneHeader.flags.Reserved ≤ 7
      ∧ rcodeOneHeader.flags.ResCode ≤ 15
      ∧ rcodeOneHeader.marshall = [0, 7, 0, 17, 0, 0, 0, 0, 0, 0, 0, 0]
      ∧ headerBytesSpec rcodeOneHeader = [0, 7, 0, 1, 0, 0, 0, 0, 0, 0, 0, 0] := by
  decide

/-- C12, as stated, fails: decoding the encoding of a query header with
authoritative-answer and recursion-available set, reserved 5 and one question
announced returns a header with `QueryResInd` true, both flags false,
reserved 0 and all counts zero. -/
theorem unmarshallHeader_marshall_differs :
    flaggedHeader.flags.OpCode ≤ 15 ∧ flaggedHeader.flags.Reserved ≤ 7
      ∧ flaggedHeader.flags.ResCode ≤ 15
      ∧ unmarshallHeader (Slice.ofList flaggedHeader.marshall)
          = .ret { Id := 0x1234
                   flags := { QueryResInd := true, OpCode := 2, AuthAns := false, Tc := false,
                              RecrDes := true, RecrAvl := false, Reserved := 0, ResCode := 4 }
                   Qcount := 0, ARecCount := 0, AuthRecCount := 0, AddRecCount := 0 }
      ∧ unmarshallHeader (Slice.ofList flaggedHeader.marshall) ≠ .ret flaggedHeader := by
  decide

/-- C12, amended: for every header `h` with a 16-bit id and opcode <= 15,
`unmarshallHeader` applied to `h.marshall()` returns a header with the id, the
opcode and the recursion-desired flag of `h`; its `QueryResInd` is true, its
response code is 4 when the opcode is not zero and 0 otherwise, and its four
counts are zero. -/
theorem unmarshallHeader_marshall (h : dnsHeader) (spare : List Nat) (hid : h.Id < 65536)
    (hop : h.flags.OpCode ≤ 15) :
    ∃ r, unmarshallHeader ⟨h.marshall, spare⟩ = .ret r
      ∧ r.Id = h.Id
      ∧ r.flags.OpCode = h.flags.OpCode
      ∧ r.flags.RecrDes = h.flags.RecrDes
      ∧ r.flags.QueryResInd = true
      ∧ r.flags.ResCode = (if h.flags.OpCode ≠ 0 then 4 else 0)
      ∧ r.Qcount = 0 ∧ r.ARecCount = 0 ∧ r.AuthRecCount = 0 ∧ r.AddRecCount = 0 := by
  have hb := flagByte_bits h.flags.OpCode (by omega) h.flags.QueryResInd h.flags.AuthAns
    h.flags.Tc h.flags.RecrDes
  rw [← headerFlags_marshall_first h.flags] at hb
  refine ⟨_, by rw [dnsHeader_marshall_cons]; exact unmarshallHeader_cons _ _ _ _ _ _,
    ?_, hb.1, hb.2, rfl, ?_, rfl, rfl, rfl, rfl⟩
  · show h.Id / 256 % 256 * 256 + h.Id % 256 = h.Id
    omega
  · show (if (h.flags.marshall.getD 0 0 &&& 120) >>> 3 ≠ 0 then 4 else 0) = _
    rw [hb.1]

theorem unmarshallHeader_marshall_witness :
    flaggedHeader.Id < 65536 ∧ flaggedHeader.flags.OpCode ≤ 15
      ∧ ∃ r, unmarshallHeader ⟨flaggedHeader.marshall, [9]⟩ = .ret r
        ∧ r.Id = flaggedHeader.Id
        ∧ r.flags.OpCode = flaggedHeader.flags.OpCode
        ∧ r.flags.RecrDes = flaggedHeader.flags.RecrDes
        ∧ r.flags.QueryResInd = true
        ∧ r.flags.ResCode = (if flaggedHeader.flags.OpCode ≠ 0 then 4 else 0)
        ∧ r.Qcount = 0 ∧ r.ARecCount = 0 ∧ r.AuthRecCount = 0 ∧ r.AddRecCount = 0 :=
  ⟨by decide, by decide, unmarshallHeader_marshall flaggedHeader [9] (by decide) (by decide)⟩

/-! ## The Transform iterator -/

theorem TransformState.call_of_lt (each : dnsQuestion → dnsAnswer → dnsQuestion × dnsAnswer)
    (s : TransformState) (q : dnsQuestion) (a : dnsAnswer)
    (hq : s.m.questions[s.curr]? = some q) (ha : s.m.answers[s.curr]? = some a) :
    s.call each
      = ({ m := { s.m with questions := s.m.questions.set s.curr (each q a).1
                           answers := s.m.answers.set s.curr (each q a).2 }
           curr := s.curr + 1 }, true) := by
  have h1 : s.curr < s.m.questions.length := (List.getElem?_eq_some_iff.mp hq).1
  have h2 : s.curr < s.m.answers.length := (List.getElem?_eq_some_iff.mp ha).1
  simp [TransformState.call, h1, h2, hq, ha]

theorem TransformState.call_of_not_lt
    (each : dnsQuestion → dnsAnswer → dnsQuestion × dnsAnswer) (s : TransformState)
    (h : ¬ (s.curr < s.m.answers.length ∧ s.curr < s.m.questions.length)) :
    s.call each = (s, false) := by
  simp only [TransformState.call, if_neg h]

theorem TransformState.call_false (each : dnsQuestion → dnsAnswer → dnsQuestion × dnsAnswer)
    (s : TransformState) (h : (s.call each).2 = false) : (s.call each).1 = s := by
  by_cases hc : s.curr < s.m.answers.length ∧ s.curr < s.m.questions.length
  · obtain ⟨q, hq⟩ : ∃ q, s.m.questions[s.curr]? = some q :=
      ⟨_, List.getElem?_eq_getElem hc.2⟩
    obtain ⟨a, ha⟩ : ∃ a, s.m.answers[s.curr]? = some a :=
      ⟨_, List.getElem?_eq_getElem hc.1⟩
    rw [TransformState.call_of_lt each s q a hq ha] at h
    simp at h
  · rw [TransformState.call_of_not_lt each s hc]

/-- What `j` calls of the iterator have done to the message `m`, for `j` up to
the length of the shorter sequence. -/
theorem TransformState.calls_spec (each : dnsQuestion → dnsAnswer → dnsQuestion × dnsAnswer)
    (m : DnsMessage) :
    ∀ j, j ≤ min m.questions.length m.answers.length →
      (m.Transform.calls each j).curr = j
        ∧ (m.Transform.calls each j).m.header = m.header
        ∧ (m.Transform.calls each j).m.questions.length = m.questions.length
        ∧ (m.Transform.calls each j).m.answers.length = m.answers.length
        ∧ (∀ i q a, i < j → m.questions[i]? = some q → m.answers[i]? = some a →
            (m.Transform.calls each j).m.questions[i]? = some (each q a).1
              ∧ (m.Transform.calls each j).m.answers[i]? = some (each q a).2)
        ∧ (∀ i, j ≤ i →
            (m.Transform.calls each j).m.questions[i]? = m.questions[i]?
              ∧ (m.Transform.calls each j).m.answers[i]? = m.answers[i]?) := by
  intro j
  induction j with
  | zero =>
    intro _
    refine ⟨rfl, rfl, rfl, rfl, ?_, ?_⟩
    · intro i q a hi; omega
    · intro i _; exact ⟨rfl, rfl⟩
  | succ j ih =>
    intro hj
    obtain ⟨hcurr, hhdr, hlq, hla, hlow, hhigh⟩ := ih (by omega)
    have hjq : j < m.questions.length := by omega
    have hja : j < m.answers.length := by omega
    have hq : (m.Transform.calls each j).m.questions[(m.Transform.calls each j).curr]?
        = some m.questions[j] := by
      rw [hcurr, (hhigh j (Nat.le_refl _)).1]
      exact List.getElem?_eq_getElem hjq
    have ha : (m.Transform.calls each j).m.answers[(m.Transform.calls each j).curr]?
        = some m.answers[j] := by
      rw [hcurr, (hhigh j (Nat.le_refl _)).2]
      exact List.getElem?_eq_getElem hja
    have hstep : m.Transform.calls each (j + 1)
        = ((m.Transform.calls each j).call each).1 := rfl
    rw [hstep, TransformState.call_of_lt each _ _ _ hq ha]
    simp only [hcurr, List.length_set]
    refine ⟨trivial, hhdr, hlq, hla, ?_, ?_⟩
    · intro i q a hi hqi hai
      by_cases hij : i = j
      · subst hij
        have e1 : m.questions[i] = q := by
          have := List.getElem?_eq_getElem hjq
          rw [hqi] at this
          exact (Option.some.inj this).symm
        have e2 : m.answers[i] = a := by
          have := List.getElem?_eq_getElem hja
          rw [hai] at this
          exact (Option.some.inj this).symm
        rw [e1, e2, List.getElem?_set_self (by rw [hlq]; exact hjq),
          List.getElem?_set_self (by rw [hla]; exact hja)]
        exact ⟨rfl, rfl⟩
      · rw [List.getElem?_set_ne (Ne.symm hij), List.getElem?_set_ne (Ne.symm hij)]
        exact hlow i q a (by omega) hqi hai
    · intro i hi
      rw [List.getElem?_set_ne (by omega), List.getElem?_set_ne (by omega)]
      exact hhigh i (by omega)

theorem TransformState.calls_exhausted
    (each : dnsQuestion → dnsAnswer → dnsQuestion × dnsAnswer) (m : DnsMessage) :
    ∀ k, m.Transform.calls each (min m.questions.length m.answers.length + k)
      = m.Transform.calls each (min m.questions.length m.answers.length) := by
  intro k
  induction k with
  | zero => rfl
  | succ k ih =>
    obtain ⟨hcurr, -, hlq, hla, -, -⟩ :=
      TransformState.calls_spec each m (min m.questions.length m.answers.length)
        (Nat.le_refl _)
    have hstep : m.Transform.calls each (min m.questions.length m.answers.length + (k + 1))
        = ((m.Transform.calls each (min m.questions.length m.answers.length + k)).call each).1 :=
      rfl
    rw [hstep, ih, TransformState.call_of_not_lt]
    rw [hcurr, hlq, hla]
    omega

/-- C14: the iterator returned by `Transform` starts at index 0; its call
number `j + 1` returns true when `j < min n k` and false otherwise, where `n`
and `k` are the numbers of questions and answers. -/
theorem Transform_call_result (each : dnsQuestion → dnsAnswer → dnsQuestion × dnsAnswer)
    (m : DnsMessage) (j : Nat) :
    m.Transform.curr = 0
      ∧ ((m.Transform.calls each j).call each).2
          = decide (j < min m.questions.length m.answers.length) := by
  refine ⟨rfl, ?_⟩
  by_cases hj : j < min m.questions.length m.answers.length
  · have hjq : j < m.questions.length := by omega
    have hja : j < m.answers.length := by omega
    obtain ⟨hcurr, -, hlq, hla, -, hhigh⟩ := TransformState.calls_spec each m j (by omega)
    have hq : (m.Transform.calls each j).m.questions[(m.Transform.calls each j).curr]?
        = some m.questions[j] := by
      rw [hcurr, (hhigh j (Nat.le_refl _)).1]
      exact List.getElem?_eq_getElem hjq
    have ha : (m.Transform.calls each j).m.answers[(m.Transform.calls each j).curr]?
        = some m.answers[j] := by
      rw [hcurr, (hhigh j (Nat.le_refl _)).2]
      exact List.getElem?_eq_getElem hja
    rw [TransformState.call_of_lt each _ _ _ hq ha]
    simp [hj]
  · obtain ⟨k, hk⟩ : ∃ k, j = min m.questions.length m.answers.length + k :=
      ⟨j - min m.questions.length m.answers.length, by omega⟩
    obtain ⟨hcurr, -, hlq, hla, -, -⟩ :=
      TransformState.calls_spec each m (min m.questions.length m.answers.length)
        (Nat.le_refl _)
    rw [hk, TransformState.calls_exhausted each m k, TransformState.call_of_not_lt]
    · simp
      omega
    · rw [hcurr, hlq, hla]
      omega

/-- C15: after `j <= min n k` calls of the iterator the pair at each index
`i < j` is `each` applied to the original pair, the pairs at the indexes from
`j` on are the original ones, and the header and both lengths are unchanged; a
call that returns false leaves the state as it was. -/
theorem Transform_calls_effect (each : dnsQuestion → dnsAnswer → dnsQuestion × dnsAnswer)
    (m : DnsMessage) (j : Nat) (hj : j ≤ min m.questions.length m.answers.length) :
    (m.Transform.calls each j).m.header = m.header
      ∧ (m.Transform.calls each j).m.questions.length = m.questions.length
      ∧ (m.Transform.calls each j).m.answers.length = m.answers.length
      ∧ (∀ i q a, i < j → m.questions[i]? = some q → m.answers[i]? = some a →
          (m.Transform.calls each j).m.questions[i]? = some (each q a).1
            ∧ (m.Transform.calls each j).m.answers[i]? = some (each q a).2)
      ∧ (∀ i, j ≤ i →
          (m.Transform.calls each j).m.questions[i]? = m.questions[i]?
            ∧ (m.Transform.calls each j).m.answers[i]? = m.answers[i]?)
      ∧ (∀ s : TransformState, (s.call each).2 = false → (s.call each).1 = s) := by
  obtain ⟨-, hhdr, hlq, hla, hlow, hhigh⟩ := TransformState.calls_spec each m j hj
  exact ⟨hhdr, hlq, hla, hlow, hhigh, fun s h => TransformState.call_false each s h⟩

theorem Transform_calls_effect_witness :
    1 ≤ min twoAndThree.questions.length twoAndThree.answers.length
      ∧ (twoAndThree.Transform.calls swapAndFill 1).m.header = twoAndThree.header
      ∧ (twoAndThree.Transform.calls swapAndFill 1).m.questions.length
          = twoAndThree.questions.length
      ∧ (twoAndThree.Transform.calls swapAndFill 1).m.questions[0]?
          = some (swapAndFill questionA answerA).1
      ∧ (twoAndThree.Transform.calls swapAndFill 1).m.answers[0]?
          = some (swapAndFill questionA answerA).2
      ∧ (twoAndThree.Transform.calls swapAndFill 1).m.questions[1]?
          = twoAndThree.questions[1]? :=
  ⟨by decide,
    (Transform_calls_effect swapAndFill twoAndThree 1 (by decide)).1,
    (Transform_calls_effect swapAndFill twoAndThree 1 (by decide)).2.1,
    ((Transform_calls_effect swapAndFill twoAndThree 1 (by decide)).2.2.2.1 0 questionA answerA
      (by decide) rfl rfl).1,
    ((Transform_calls_effect swapAndFill twoAndThree 1 (by decide)).2.2.2.1 0 questionA answerA
      (by decide) rfl rfl).2,
    ((Transform_calls_effect swapAndFill twoAndThree 1 (by decide)).2.2.2.2.1 1
      (by decide)).1⟩

/-! ## Encodings of names, answers and questions -/

/-- C16 fails on the code: `encodeDomain` encodes the empty name as two zero
bytes, a length byte for its one empty label and the terminator, where the
claim gives the terminator alone; a trailing dot or two consecutive dots add a
zero length byte in the same way, which a reader takes for the end of the
name. -/
theorem encodeDomain_empty_label :
    (∀ l ∈ stringsSplit dot [], l.length < 256)
      ∧ encodeDomain [] = [0, 0] ∧ encodeDomainSpec [] = [0]
      ∧ encodeDomain [97, 46] = [1, 97, 0, 0] ∧ encodeDomainSpec [97, 46] = [1, 97, 0]
      ∧ encodeDomain [97, 46, 46, 98] = [1, 97, 0, 1, 98, 0]
      ∧ encodeDomainSpec [97, 46, 46, 98] = [1, 97, 1, 98, 0] := by
  decide

/-- What `encodeDomain` returns for every name whose labels are shorter than
256 bytes: for each label of the name split on `.`, empty or not, one length
byte followed by the bytes of the label, in order, and then one terminating
zero byte; when no label is empty this is the encoding of the specification. -/
theorem encodeDomain_layout (name : List Nat)
    (h : ∀ l ∈ stringsSplit dot name, l.length < 256) :
    encodeDomain name = ((stringsSplit dot name).map fun s => s.length :: s).flatten ++ [0]
      ∧ ((∀ l ∈ stringsSplit dot name, l ≠ []) → encodeDomain name = encodeDomainSpec name) := by
  have h1 : encodeDomain name
      = ((stringsSplit dot name).map fun s => s.length :: s).flatten ++ [0] := by
    rw [encodeDomain_eq, encodeLabels]
    congr 2
    apply List.map_congr_left
    intro l hl
    simp [Nat.mod_eq_of_lt (h l hl)]
  refine ⟨h1, fun hne => ?_⟩
  rw [h1, encodeDomainSpec]
  congr 3
  symm
  apply List.filter_eq_self.mpr
  intro l hl
  simpa using hne l hl

/-- The name `codecrafters.io` has no empty label. -/
theorem encodeDomain_layout_witness :
    (∀ l ∈ stringsSplit dot codecraftersIo, l.length < 256)
      ∧ encodeDomain codecraftersIo
          = ((stringsSplit dot codecraftersIo).map fun s => s.length :: s).flatten ++ [0]
      ∧ (∀ l ∈ stringsSplit dot codecraftersIo, l ≠ [])
      ∧ encodeDomain codecraftersIo = encodeDomainSpec codecraftersIo :=
  ⟨by decide, (encodeDomain_layout codecraftersIo (by decide)).1, by decide,
    (encodeDomain_layout codecraftersIo (by decide)).2 (by decide)⟩

/-- C17: for every answer record with fields in the range of their Go types,
`dnsAnswer.marshall` returns the encoded name, then type (2 bytes), class (2
bytes), TTL (4 bytes) and `RdLength` (2 bytes), most significant byte first,
then the bytes of `Rdata`; its length is that of the encoded name plus 10 plus
the length of `Rdata`. -/
theorem dnsAnswer_marshall_layout (a : dnsAnswer) (hw : a.WellTyped) :
    a.marshall = encodeDomain a.Name ++ [a.Typ / 256, a.Typ % 256]
        ++ [a.Class / 256, a.Class % 256]
        ++ [a.TTL / 16777216, a.TTL / 65536 % 256, a.TTL / 256 % 256, a.TTL % 256]
        ++ [a.RdLength / 256, a.RdLength % 256] ++ a.Rdata
      ∧ a.marshall.length = (encodeDomain a.Name).length + 10 + a.Rdata.length := by
  obtain ⟨-, ht, hc, httl, hrd, -⟩ := hw
  have e1 : a.Typ / 256 % 256 = a.Typ / 256 := by omega
  have e2 : a.Class / 256 % 256 = a.Class / 256 := by omega
  have e3 : a.TTL / 16777216 % 256 = a.TTL / 16777216 := by omega
  have e4 : a.RdLength / 256 % 256 = a.RdLength / 256 := by omega
  constructor
  · simp [dnsAnswer.marshall, appendUint16, appendUint32, e1, e2, e3, e4]
  · simp [dnsAnswer.marshall, appendUint16, appendUint32]
    omega

theorem dnsAnswer_marshall_layout_witness :
    filledAnswer.WellTyped
      ∧ filledAnswer.marshall = encodeDomain filledAnswer.Name
          ++ [filledAnswer.Typ / 256, filledAnswer.Typ % 256]
          ++ [filledAnswer.Class / 256, filledAnswer.Class % 256]
          ++ [filledAnswer.TTL / 16777216, filledAnswer.TTL / 65536 % 256,
              filledAnswer.TTL / 256 % 256, filledAnswer.TTL % 256]
          ++ [filledAnswer.RdLength / 256, filledAnswer.RdLength % 256] ++ filledAnswer.Rdata
      ∧ filledAnswer.marshall.length
          = (encodeDomain filledAnswer.Name).length + 10 + filledAnswer.Rdata.length :=
  ⟨by decide, dnsAnswer_marshall_layout filledAnswer (by decide)⟩

/-- C20 fails on the code: for the questions `a` (type URI = 256, class IN)
and `b` (type A, class IN) `unmarshallQuestion` applied to their concatenated
encodings returns `a` and then a question with an empty name: the record
boundary is put at the zero low byte of type 256, not at the zero that ends
the name. For the single question `a` with type A and class 256 it panics. -/
theorem unmarshallQuestion_zero_in_type :
    (∀ q ∈ uriThenA, (∀ l ∈ stringsSplit dot q.Name, 1 ≤ l.length ∧ l.length ≤ 63)
        ∧ q.Typ < 65536 ∧ q.Class < 65536)
      ∧ unmarshallQuestion noSpare (Slice.ofList (marshallQuestions uriThenA))
          = .ret [{ Name := [97], Typ := 256, Class := 1 }, { Name := [], Typ := 1, Class := 1 }]
      ∧ unmarshallQuestion noSpare (Slice.ofList (marshallQuestions uriThenA)) ≠ .ret uriThenA
      ∧ unmarshallQuestion noSpare
          (Slice.ofList (marshallQuestions [{ Name := [97], Typ := 1, Class := 256 }]))
          = .panic := by
  decide

/-! ## What every successful parse returns -/

theorem Go.bind_eq_ret {α β : Type} {x : Go α} {f : α → Go β} {b : β}
    (h : x.bind f = .ret b) : ∃ a, x = .ret a ∧ f a = .ret b := by
  cases x with
  | panic => simp at h
  | ret a => exact ⟨a, rfl, h⟩

theorem Slice.slice_eq_ret {s r : Slice} {lo hi : Nat} (h : s.slice lo hi = .ret r) :
    lo ≤ hi ∧ hi ≤ s.cap ∧ r.elems = (s.backing.take hi).drop lo := by
  by_cases hc : lo ≤ hi ∧ hi ≤ s.cap
  · rw [Slice.slice, if_pos hc] at h
    injection h with h
    exact ⟨hc.1, hc.2, by rw [← h]⟩
  · rw [Slice.slice, if_neg hc] at h
    simp at h

theorem Unmarshall_eq_ok {growth : Nat → Nat → Nat} {data : Slice} {size : Int}
    {r : DnsMessage} (h : Unmarshall growth data size = .ret (.ok r)) :
    12 < size ∧ ∃ (hdr : dnsHeader) (rest : Slice) (qs : List dnsQuestion), data.slice 12 size.toNat = .ret rest
      ∧ unmarshallQuestion growth rest = .ret qs
      ∧ r = { header := { hdr with Qcount := qs.length % 65536
                                   ARecCount := (unmarshallAnswer qs).length % 65536 }
              questions := qs
              answers := unmarshallAnswer qs } := by
  unfold Unmarshall at h
  split at h
  · simp at h
  · rename_i hsz
    obtain ⟨hb, -, h⟩ := Go.bind_eq_ret h
    obtain ⟨hdr, -, h⟩ := Go.bind_eq_ret h
    obtain ⟨rest, hrest, h⟩ := Go.bind_eq_ret h
    obtain ⟨qs, hqs, h⟩ := Go.bind_eq_ret h
    refine ⟨by omega, hdr, rest, qs, hrest, hqs, ?_⟩
    injection h with h
    injection h with h
    exact h.symm

theorem decompressCopy_count (d : Slice) :
    ∀ (f : Nat) (j : Int) (out : List Nat) (r : List Nat × Bool),
      decompressCopy d f j out = .ret r → r.1.count 0 ≤ out.count 0 + 1 := by
  intro f
  induction f with
  | zero =>
    intro j out r h
    simp only [decompressCopy] at h
    injection h with h
    rw [← h]
    simp
  | succ f ih =>
    intro j out r h
    rw [decompressCopy] at h
    split at h
    · obtain ⟨b, -, h⟩ := Go.bind_eq_ret h
      split at h
      · rename_i hb
        injection h with h
        rw [← h, hb]
        simp
      · rename_i hb
        have := ih _ _ _ h
        have hc : (out ++ [b]).count 0 = out.count 0 := by
          simp [List.count_append, List.count_singleton, hb]
        omega
    · injection h with h
      rw [← h]
      simp

theorem decompressLoop_count (d : Slice) :
    ∀ (f i : Nat) (out res : List Nat),
      decompressLoop d f i out = .ret res → res.count 0 ≤ out.count 0 + (d.len - i) := by
  intro f
  induction f with
  | zero =>
    intro i out res h
    simp only [decompressLoop] at h
    injection h with h
    rw [← h]
    simp
  | succ f ih =>
    intro i out res h
    rw [decompressLoop] at h
    split at h
    · rename_i hi
      obtain ⟨b, -, h⟩ := Go.bind_eq_ret h
      split at h
      · have := ih _ _ _ h
        have hc : (out ++ [b]).count 0 ≤ out.count 0 + 1 := by
          simp only [List.count_append, List.count_singleton]
          split <;> omega
        omega
      · obtain ⟨two, -, h⟩ := Go.bind_eq_ret h
        obtain ⟨pointer, -, h⟩ := Go.bind_eq_ret h
        obtain ⟨r, hr, h⟩ := Go.bind_eq_ret h
        have h1 := decompressCopy_count d _ _ _ _ hr
        have h2 := ih _ _ _ h
        have h3 : d.len - (if r.2 = true then i + 1 + 1 else i + 1) + 1 ≤ d.len - i := by
          split <;> omega
        omega
    · injection h with h
      rw [← h]
      simp

theorem findNullIndexesLoop_length (d : Slice) :
    ∀ (f i : Nat) (acc res : List Nat),
      findNullIndexesLoop d f i acc = .ret res →
        res.length ≤ acc.length + (d.elems.drop i).count 0 := by
  intro f
  induction f with
  | zero =>
    intro i acc res h
    simp only [findNullIndexesLoop] at h
    injection h with h
    rw [← h]
    simp
  | succ f ih =>
    intro i acc res h
    rw [findNullIndexesLoop] at h
    split at h
    · rename_i hi
      have hi2 : i < d.elems.length := hi
      have hd : d.elems.drop i = d.elems[i] :: d.elems.drop (i + 1) :=
        List.drop_eq_getElem_cons hi2
      have hidx : d.index (i : Int) = .ret d.elems[i] :=
        Slice.index_ofNat d i _ (List.getElem?_eq_getElem hi2)
      rw [hidx, Go.bind_ret] at h
      rw [hd, List.count_cons]
      split at h
      · rename_i hb
        obtain ⟨c, -, h⟩ := Go.bind_eq_ret h
        have hone : (if (d.elems[i] == 0) = true then 1 else 0) = 1 := by simp [hb]
        rw [hone]
        split at h
        · have := ih _ _ _ h
          simp only [List.length_append, List.length_singleton] at this
          omega
        · have := ih _ _ _ h
          omega
      · have := ih _ _ _ h
        omega
    · injection h with h
      rw [← h]
      simp

theorem unmarshallQuestionLoop_length (d : Slice) (nullIndexes : List Nat) :
    ∀ (f i : Nat) (questions res : List dnsQuestion),
      unmarshallQuestionLoop d nullIndexes f i questions = .ret res →
        res.length ≤ questions.length + (nullIndexes.length - i) := by
  intro f
  induction f with
  | zero =>
    intro i questions res h
    simp only [unmarshallQuestionLoop] at h
    injection h with h
    rw [← h]
    simp
  | succ f ih =>
    intro i questions res h
    rw [unmarshallQuestionLoop] at h
    split at h
    · rename_i hi
      split at h
      · simp at h
      · simp only [] at h
        split at h
        · obtain ⟨s, -, h⟩ := Go.bind_eq_ret h
          obtain ⟨q, -, h⟩ := Go.bind_eq_ret h
          have := ih _ _ _ h
          simp only [List.length_append, List.length_singleton] at this
          omega
        · split at h
          · simp at h
          · obtain ⟨s, -, h⟩ := Go.bind_eq_ret h
            obtain ⟨q, -, h⟩ := Go.bind_eq_ret h
            have := ih _ _ _ h
            simp only [List.length_append, List.length_singleton] at this
            omega
    · injection h with h
      rw [← h]
      simp

theorem unmarshallQuestion_length_le (growth : Nat → Nat → Nat) (data : Slice)
    (qs : List dnsQuestion) (h : unmarshallQuestion growth data = .ret qs) :
    qs.length ≤ data.len := by
  unfold unmarshallQuestion at h
  obtain ⟨dd, hdd, h⟩ := Go.bind_eq_ret h
  obtain ⟨nulls, hn, h⟩ := Go.bind_eq_ret h
  unfold decompressQuestions at hdd
  obtain ⟨out, hout, hdd⟩ := Go.bind_eq_ret hdd
  injection hdd with hdd
  have h1 := decompressLoop_count data _ _ _ _ hout
  have h2 := findNullIndexesLoop_length dd _ _ _ _ hn
  have h3 := unmarshallQuestionLoop_length dd nulls _ _ _ _ h
  have h4 : dd.elems = out := by rw [← hdd]
  simp only [List.drop_zero, h4, List.length_nil, Nat.zero_add, List.count_nil,
    Nat.sub_zero] at h1 h2 h3
  omega

theorem marshallQuestions_replicate_length (n : Nat) (q : dnsQuestion) :
    (marshallQuestions (List.replicate n q)).length = n * q.marshall.length := by
  induction n with
  | zero => simp [marshallQuestions]
  | succ n ih =>
    rw [List.replicate_succ, marshallQuestions_cons, List.length_append, ih]
    rw [Nat.succ_mul]
    omega

/-- C13, as stated, fails: on the packet made of a header and 65536 times the
question `a`, `Unmarshall` succeeds and returns 65536 questions and 65536
answers with `Qcount` and `ARecCount` equal to 0: the counts are set with
`uint16(len(...))`. -/
theorem Unmarshall_counts_wrap :
    ∃ r, Unmarshall noSpare (Slice.ofList manyQuestionsPacket) 458764 = .ret (.ok r)
      ∧ r.questions.length = 65536 ∧ r.answers.length = 65536
      ∧ r.header.Qcount = 0 ∧ r.header.ARecCount = 0
      ∧ r.header.Qcount ≠ r.questions.length ∧ r.header.ARecCount ≠ r.answers.length := by
  have hq : ∀ q ∈ List.replicate 65536 questionA, CleanQuestion q := by
    intro q hmem
    rw [List.eq_of_mem_replicate hmem]
    decide
  have hne : List.replicate 65536 questionA ≠ [] := by
    intro h
    have := congrArg List.length h
    rw [List.length_replicate] at this
    exact absurd this (by decide)
  obtain ⟨hdr, -, -, hU⟩ := Unmarshall_clean noSpare (queryHeaderBytes 0) [] []
    (List.replicate 65536 questionA) rfl hne hq
  have hlen : (marshallQuestions (List.replicate 65536 questionA)).length = 458752 := by
    rw [marshallQuestions_replicate_length]
    rfl
  rw [hlen, List.append_nil, List.length_replicate] at hU
  refine ⟨_, hU, ?_, ?_, rfl, rfl, ?_, ?_⟩
  · exact List.length_replicate _ _
  · show (List.map placeholderAnswer (List.replicate 65536 questionA)).length = 65536
    rw [List.length_map, List.length_replicate]
  · show 65536 % 65536 ≠ (List.replicate 65536 questionA).length
    rw [List.length_replicate]
    decide
  · show 65536 % 65536 ≠ (List.map placeholderAnswer (List.replicate 65536 questionA)).length
    rw [List.length_map, List.length_replicate]
    decide

/-- C13, amended: for every packet on which `Unmarshall` succeeds, whatever
its size, the returned message has one answer per question, answer `i`
carries the name of question `i` with type 1, class 1, TTL 60, `RdLength` 0
and no `Rdata` (the fields of `dnsAnswer.mk` in this order), and the header
counts `Qcount` and `ARecCount` are the numbers of questions and of answers
modulo 65536: the numbers themselves when fewer than 65536 questions were
read, which is the case for every `size` up to 65535. -/
theorem Unmarshall_placeholder_answers (growth : Nat → Nat → Nat) (data : Slice) (size : Int)
    (r : DnsMessage) (h : Unmarshall growth data size = .ret (.ok r)) :
    r.answers.length = r.questions.length
      ∧ (∀ (i : Nat) (q : dnsQuestion), r.questions[i]? = some q →
          r.answers[i]? = some (dnsAnswer.mk q.Name 1 1 60 0 []))
      ∧ r.header.Qcount = r.questions.length % 65536
      ∧ r.header.ARecCount = r.answers.length % 65536
      ∧ (r.questions.length < 65536 →
          r.header.Qcount = r.questions.length ∧ r.header.ARecCount = r.answers.length)
      ∧ (size ≤ 65535 → r.questions.length < 65536) := by
  obtain ⟨hlt, hdr, rest, qs, hrest, hqs, hr⟩ := Unmarshall_eq_ok h
  have hans : unmarshallAnswer qs = qs.map placeholderAnswer := unmarshallAnswer_eq_map qs
  subst hr
  simp only [hans, List.length_map]
  refine ⟨trivial, ?_, trivial, trivial, ?_, ?_⟩
  · intro i q hi
    rw [List.getElem?_map, hi]
    rfl
  · intro hsmall
    exact ⟨Nat.mod_eq_of_lt hsmall, Nat.mod_eq_of_lt hsmall⟩
  · intro hsize
    obtain ⟨-, -, helems⟩ := Slice.slice_eq_ret hrest
    have hlen : rest.len ≤ size.toNat - 12 := by
      simp only [Slice.len, helems, List.length_drop, List.length_take]
      omega
    have hq := unmarshallQuestion_length_le growth rest qs hqs
    omega

theorem Unmarshall_placeholder_answers_witness :
    Unmarshall noSpare (Slice.ofList examplePacket) 33 = .ret (.ok exampleParsed)
      ∧ exampleParsed.answers.length = exampleParsed.questions.length
      ∧ (∀ (i : Nat) (q : dnsQuestion), exampleParsed.questions[i]? = some q →
          exampleParsed.answers[i]? = some (dnsAnswer.mk q.Name 1 1 60 0 []))
      ∧ exampleParsed.header.Qcount = exampleParsed.questions.length % 65536
      ∧ exampleParsed.header.ARecCount = exampleParsed.answers.length % 65536
      ∧ (exampleParsed.questions.length < 65536 →
          exampleParsed.header.Qcount = exampleParsed.questions.length
            ∧ exampleParsed.header.ARecCount = exampleParsed.answers.length)
      ∧ ((33 : Int) ≤ 65535 → exampleParsed.questions.length < 65536) :=
  ⟨by decide,
    Unmarshall_placeholder_answers noSpare (Slice.ofList examplePacket) 33 exampleParsed
      (by decide)⟩

/-! ## Decoding the flag bytes -/

theorem unmarshallFlags_pair (first second : Nat) (spare : List Nat) :
    unmarshallFlags ⟨[first, second], spare⟩
      = .ret { QueryResInd := true
               OpCode := (first &&& 120) >>> 3
               AuthAns := decide ((first &&& 4) = 1)
               Tc := decide ((first &&& 2) = 1)
               RecrDes := decide ((first &&& 1) = 1)
               RecrAvl := decide ((second &&& 128) = 1)
               Reserved := (second &&& 112) >>> 4
               ResCode := if (first &&& 120) >>> 3 ≠ 0 then 4 else 0 } := by
  rfl

theorem and_even_ne_one (x k : Nat) (hk : k % 2 = 0) : x &&& k ≠ 1 := by
  intro h
  have h1 := congrArg (fun n => n.testBit 0) h
  simp only [Nat.testBit_and, Nat.testBit_zero] at h1
  simp [hk] at h1

theorem and_one_eq_one_iff (x : Nat) : x &&& 1 = 1 ↔ x % 2 = 1 := by
  rw [Nat.and_one_is_mod]

theorem and_120_shiftRight (x : Nat) : (x &&& 120) >>> 3 = x / 8 % 16 := by
  apply Nat.eq_of_testBit_eq
  intro i
  have h120 : Nat.testBit 120 (3 + i) = decide (i < 4) := by
    by_cases hi : i < 4
    · have : i = 0 ∨ i = 1 ∨ i = 2 ∨ i = 3 := by omega
      rcases this with h | h | h | h <;> subst h <;> decide
    · have : 120 < 2 ^ (3 + i) := by
        have : 2 ^ 7 ≤ 2 ^ (3 + i) := Nat.pow_le_pow_right (by decide) (by omega)
        omega
      simp [Nat.testBit_lt_two_pow this, hi]
  rw [Nat.testBit_shiftRight, Nat.testBit_and, h120,
    show (16 : Nat) = 2 ^ 4 by rfl, Nat.testBit_mod_two_pow,
    show (8 : Nat) = 2 ^ 3 by rfl, ← Nat.shiftRight_eq_div_pow, Nat.testBit_shiftRight,
    Bool.and_comm]

/-- What `unmarshallFlags` returns for the one-bit flags, for every pair of
flag bytes: `AuthAns`, `Tc` and `RecrAvl` are false whatever the bytes are,
and `RecrDes` is true exactly when bit 0 of byte 0 is set. -/
theorem unmarshallFlags_one_bit_flags (first second : Nat) (spare : List Nat) :
    ∃ f, unmarshallFlags ⟨[first, second], spare⟩ = .ret f
      ∧ f.AuthAns = false ∧ f.Tc = false ∧ f.RecrAvl = false
      ∧ (f.RecrDes = true ↔ first % 2 = 1) := by
  refine ⟨_, unmarshallFlags_pair first second spare, ?_, ?_, ?_, ?_⟩
  · exact decide_eq_false (and_even_ne_one first 4 (by decide))
  · exact decide_eq_false (and_even_ne_one first 2 (by decide))
  · exact decide_eq_false (and_even_ne_one second 128 (by decide))
  · simp only [decide_eq_true_eq]
    exact and_one_eq_one_iff first

/-- C21 (code defect): on the flag bytes `0x06 0x80`, in which bit 2 and bit 1
of byte 0 and bit 7 of byte 1 are set, `unmarshallFlags` returns `AuthAns`,
`Tc` and `RecrAvl` all false: the masked byte is compared with 1. -/
theorem unmarshallFlags_set_bits_lost :
    unmarshallFlags ⟨[0x06, 0x80], []⟩
      = .ret { QueryResInd := true, OpCode := 0, AuthAns := false, Tc := false,
               RecrDes := false, RecrAvl := false, Reserved := 0, ResCode := 0 } := by
  decide

/-- C23: for every pair of flag bytes `unmarshallFlags` returns `OpCode` equal
to bits 6-3 of byte 0, and `ResCode` equal to 4 when that opcode is non-zero
and to 0 when it is zero; byte 1, which carries the response-code bits, plays
no part. -/
theorem unmarshallFlags_opcode_rescode (first second : Nat) (spare : List Nat) :
    ∃ f, unmarshallFlags ⟨[first, second], spare⟩ = .ret f
      ∧ f.OpCode = first / 8 % 16
      ∧ f.ResCode = if first / 8 % 16 ≠ 0 then 4 else 0 := by
  refine ⟨_, unmarshallFlags_pair first second spare, ?_, ?_⟩
  · exact and_120_shiftRight first
  · show (if (first &&& 120) >>> 3 ≠ 0 then 4 else 0) = _
    rw [and_120_shiftRight]

/-! ## Reading marshalled questions back -/

/-- C24: for every list of questions whose names are made of labels of 1 to 63
bytes other than `0x00` and `0xC0` (a label holds no `.`), and whose type and
class lie in 1..255 and differ from 192, `decompressQuestions` returns the
concatenation of their `marshall` outputs as it is, `findNullIndexes` returns
the positions of the zero bytes that end the names and nothing else, and
`unmarshallQuestion` returns exactly that list, in order. -/
theorem unmarshallQuestion_marshall_clean (growth : Nat → Nat → Nat) (qs : List dnsQuestion)
    (spare : List Nat)
    (hq : ∀ q ∈ qs,
      (∀ l ∈ stringsSplit dot q.Name,
        1 ≤ l.length ∧ l.length ≤ 63 ∧ ∀ b ∈ l, b ≠ 0 ∧ b ≠ 0xC0)
      ∧ (1 ≤ q.Typ ∧ q.Typ ≤ 255 ∧ q.Typ ≠ 192)
      ∧ (1 ≤ q.Class ∧ q.Class ≤ 255 ∧ q.Class ≠ 192)) :
    decompressQuestions growth ⟨marshallQuestions qs, spare⟩ = .ret ⟨marshallQuestions qs, []⟩
      ∧ findNullIndexes ⟨marshallQuestions qs, []⟩ = .ret (nullPositions 0 qs)
      ∧ unmarshallQuestion growth ⟨marshallQuestions qs, spare⟩ = .ret qs := by
  have hq2 : ∀ q ∈ qs, CleanQuestion q := fun q hmem =>
    CleanQuestion.of_small (hq q hmem).1 (hq q hmem).2.1 (hq q hmem).2.2
  have hdec := decompressQuestions_of_no_pointer growth ⟨marshallQuestions qs, spare⟩
    (pointer_not_mem_marshallQuestions qs hq2)
  have hnull := findNullIndexesLoop_questions ⟨marshallQuestions qs, []⟩ qs [] [] hq2 (by simp)
  have hloop := unmarshallQuestionLoop_questions [] qs hq2 qs [] [] (by simp)
  simp only [List.length_nil, List.nil_append] at hnull hloop
  refine ⟨hdec, ?_, ?_⟩
  · simp only [findNullIndexes, Slice.len, hnull]
  · simp only [unmarshallQuestion, hdec, Go.bind_ret, findNullIndexes, Slice.len, hnull,
      nullPositions_length, hloop]

theorem unmarshallQuestion_marshall_clean_witness :
    (∀ q ∈ [exampleQuestion, questionA],
      (∀ l ∈ stringsSplit dot q.Name,
        1 ≤ l.length ∧ l.length ≤ 63 ∧ ∀ b ∈ l, b ≠ 0 ∧ b ≠ 0xC0)
      ∧ (1 ≤ q.Typ ∧ q.Typ ≤ 255 ∧ q.Typ ≠ 192)
      ∧ (1 ≤ q.Class ∧ q.Class ≤ 255 ∧ q.Class ≠ 192))
      ∧ marshallQuestions [exampleQuestion, questionA]
        = exampleQuestionBytes ++ [1, 97, 0, 0, 1, 0, 1]
      ∧ nullPositions 0 [exampleQuestion, questionA] = [16, 23]
      ∧ decompressQuestions noSpare ⟨marshallQuestions [exampleQuestion, questionA], [7]⟩
        = .ret ⟨marshallQuestions [exampleQuestion, questionA], []⟩
      ∧ findNullIndexes ⟨marshallQuestions [exampleQuestion, questionA], []⟩
        = .ret (nullPositions 0 [exampleQuestion, questionA])
      ∧ unmarshallQuestion noSpare ⟨marshallQuestions [exampleQuestion, questionA], [7]⟩
        = .ret [exampleQuestion, questionA] :=
  ⟨by decide, by decide, by decide,
    unmarshallQuestion_marshall_clean noSpare [exampleQuestion, questionA] [7] (by decide)⟩

/-! ## The count invariant -/

set_option maxRecDepth 10000 in
/-- C22 fails on the code: in `farPointerSection` the name `b` ends with the
pointer `0xC1 0x20`, whose low 14 bits are the offset 288 of the name `1 a 0`,
but `decompressQuestions` returns the section as it is, not
`farPointerExpanded`: only a byte equal to `0xC0` is taken for the start of a
pointer, although 14 bits of offset are read. -/
theorem decompressQuestions_far_pointer :
    (farPointerSection.drop (0x0120 - 12)).take 3 = [1, 97, 0]
      ∧ (farPointerSection.drop 283).take 4 = [1, 98, 0xC1, 0x20]
      ∧ 0xC120 &&& 0x3FFF = 0x0120
      ∧ decompressQuestions noSpare (Slice.ofList farPointerSection)
        = .ret (Slice.ofList farPointerSection)
      ∧ farPointerSection ≠ farPointerExpanded := by
  refine ⟨by decide, by decide, by decide, ?_, by decide⟩
  exact decompressQuestions_of_no_pointer noSpare (Slice.ofList farPointerSection) (by decide)

theorem pointer_low_bits (o : Nat) (ho : o ≤ 255) : (0xC0 * 256 + o) &&& 0x3FFF = o := by
  have h : (0x3FFF : Nat) = 2 ^ 14 - 1 := by decide
  rw [h, Nat.and_pow_two_sub_one_eq_mod]
  omega

theorem bigEndianUint16_pair (a b : Nat) (rest : List Nat) :
    bigEndianUint16 ⟨[a, b], rest⟩ = .ret (a * 256 + b) := by
  rfl

/-- The output of the loop of `decompressQuestions` on a section with one
pointer `0xC0 o`, where `o - 12` is the position of the zero-free run `X` and
the zero that ends it, and no other byte is `0xC0`. -/
theorem decompressLoop_one_pointer (A X B post spare : List Nat) (hoff : A.length + 12 ≤ 255)
    (hX : 0 ∉ X) (hpre : ∀ b ∈ A ++ X ++ 0 :: B, b ≠ 0xC0) (hpost : ∀ b ∈ post, b ≠ 0xC0) :
    decompressLoop ⟨(A ++ X ++ 0 :: B) ++ [0xC0, A.length + 12] ++ post, spare⟩
        ((A ++ X ++ 0 :: B) ++ [0xC0, A.length + 12] ++ post).length 0 []
      = .ret ((A ++ X ++ 0 :: B) ++ (X ++ [0]) ++ post) := by
  generalize hP : A ++ X ++ 0 :: B = P at hpre ⊢
  generalize hd : (⟨P ++ [0xC0, A.length + 12] ++ post, spare⟩ : Slice) = d
  have hde : d.elems = P ++ [0xC0, A.length + 12] ++ post := by rw [← hd]
  have hsp : d.spare = spare := by rw [← hd]
  have hlen : d.len = P.length + 2 + post.length := by
    simp only [Slice.len, hde, List.length_append, List.length_cons, List.length_nil]
  have hPlen : P.length = A.length + X.length + 1 + B.length := by
    rw [← hP]; simp; omega
  -- the bytes before the pointer are copied
  have h1 := decompressLoop_run d P [] ([0xC0, A.length + 12] ++ post) (2 + post.length) []
    (by simp [hde]) hpre
  simp only [List.length_nil, Nat.zero_add, List.nil_append] at h1
  -- the pointer is expanded
  have hidx : d.elems[P.length]? = some 0xC0 := by
    rw [hde, List.append_assoc]
    exact getElem?_middle _ _ _
  have hi : P.length < d.len := by rw [hlen]; omega
  have hslice : d.slice P.length (P.length + 2)
      = .ret ⟨[0xC0, A.length + 12], post ++ spare⟩ := by
    rw [Slice.slice_of_le _ _ _ (by omega) (by simp [Slice.cap, Slice.backing, hde]; omega)]
    have hb : d.backing = P ++ [0xC0, A.length + 12] ++ (post ++ spare) := by
      simp [Slice.backing, hde, hsp]
    rw [hb]
    congr 2
    · exact take_drop_middle P [0xC0, A.length + 12] _
    · have : P.length + 2 = (P ++ [0xC0, A.length + 12]).length := by simp
      rw [this, List.drop_left]
  have hptr : bigEndianUint16 ⟨[0xC0, A.length + 12], post ++ spare⟩
      = .ret (0xC0 * 256 + (A.length + 12)) :=
    bigEndianUint16_pair _ _ _
  have hpv : (((0xC0 * 256 + (A.length + 12)) &&& 0x3FFF : Nat) : Int) - (headerSize : Int)
      = (A.length : Int) := by
    rw [pointer_low_bits _ hoff]
    simp [headerSize]
  have hcopy := decompressCopy_run d X A (B ++ [0xC0, A.length + 12] ++ post)
    (B.length + 2 + post.length + A.length) P (by simp [hde, ← hP]) hX
  have hfuel : B.length + 2 + post.length + A.length + X.length + 1 = d.len := by
    rw [hlen, hPlen]; omega
  rw [hfuel] at hcopy
  -- the bytes after the pointer are copied
  have h3 := decompressLoop_run d post (P ++ [0xC0, A.length + 12]) [] 1 (P ++ X ++ [0])
    (by simp [hde]) hpost
  have hend : ¬ (P ++ [0xC0, A.length + 12]).length + post.length < d.len := by
    rw [hlen]; simp
  have e0 : (P ++ [0xC0, A.length + 12] ++ post).length = (2 + post.length) + P.length := by
    simp; omega
  have e2 : P.length + 1 + 1 = (P ++ [0xC0, A.length + 12]).length := by simp
  rw [e0, h1, show 2 + post.length = (1 + post.length) + 1 by omega, decompressLoop, if_pos hi,
    Slice.index_ofNat _ _ _ hidx, Go.bind_ret, if_neg (by simp), hslice, Go.bind_ret, hptr,
    Go.bind_ret]
  simp only [hpv, hcopy, Go.bind_ret, if_true]
  rw [e2, h3, decompressLoop, if_neg hend]
  simp

/-- A pointer with first byte `0xC0` is expanded: for every question section
that holds a 2-byte pointer with first byte `0xC0` and second byte `o` in
12..255, and no other byte `0xC0`, where `o - 12` is the position in the
section of an earlier name, a run `X` of non-zero bytes followed by its
terminating zero, `decompressQuestions` outputs, in place of the two pointer
bytes, `X` and the zero, and copies every other byte unchanged. -/
theorem decompressQuestions_pointer (growth : Nat → Nat → Nat) (A X B post spare : List Nat)
    (hoff : A.length + 12 ≤ 255) (hX : 0 ∉ X)
    (hpre : ∀ b ∈ A ++ X ++ 0 :: B, b ≠ 0xC0) (hpost : ∀ b ∈ post, b ≠ 0xC0) :
    ∃ s, decompressQuestions growth
          ⟨(A ++ X ++ 0 :: B) ++ [0xC0, A.length + 12] ++ post, spare⟩ = .ret s
      ∧ s.elems = (A ++ X ++ 0 :: B) ++ (X ++ [0]) ++ post := by
  have h := decompressLoop_one_pointer A X B post spare hoff hX hpre hpost
  simp only [decompressQuestions, Slice.len, h, Go.bind_ret]
  exact ⟨_, rfl, rfl⟩

/-- The name `www` followed by a pointer to the label `io` of `codecrafters.io`. -/
theorem decompressQuestions_pointer_witness :
    [12, 99, 111, 100, 101, 99, 114, 97, 102, 116, 101, 114, 115].length + 12 ≤ 255
      ∧ 0 ∉ [2, 105, 111]
      ∧ [12, 99, 111, 100, 101, 99, 114, 97, 102, 116, 101, 114, 115] ++ [2, 105, 111]
          ++ 0 :: [0, 1, 0, 1, 3, 119, 119, 119]
        = exampleQuestionBytes ++ [3, 119, 119, 119]
      ∧ ∃ s, decompressQuestions noSpare
            ⟨([12, 99, 111, 100, 101, 99, 114, 97, 102, 116, 101, 114, 115] ++ [2, 105, 111]
                ++ 0 :: [0, 1, 0, 1, 3, 119, 119, 119])
              ++ [0xC0, [12, 99, 111, 100, 101, 99, 114, 97, 102, 116, 101, 114, 115].length + 12]
              ++ [0, 1, 0, 1], []⟩ = .ret s
        ∧ s.elems
          = ([12, 99, 111, 100, 101, 99, 114, 97, 102, 116, 101, 114, 115] ++ [2, 105, 111]
                ++ 0 :: [0, 1, 0, 1, 3, 119, 119, 119])
              ++ ([2, 105, 111] ++ [0]) ++ [0, 1, 0, 1] :=
  ⟨by decide, by decide, by decide,
    decompressQuestions_pointer noSpare
      [12, 99, 111, 100, 101, 99, 114, 97, 102, 116, 101, 114, 115] [2, 105, 111]
      [0, 1, 0, 1, 3, 119, 119, 119] [0, 1, 0, 1] [] (by decide) (by decide) (by decide)
      (by decide)⟩

/-! ## The round trip of a query -/

theorem headerFlags_marshall_opcode_mod (qr aa tc rd : Bool) (op : Nat) :
    (headerFlags.marshall ⟨qr, op, aa, tc, rd, false, 0, 0⟩).getD 0 0
      = (headerFlags.marshall ⟨qr, op % 32, aa, tc, rd, false, 0, 0⟩).getD 0 0 := by
  have h : (op <<< 3) % 256 = ((op % 32) <<< 3) % 256 := by
    rw [Nat.shiftLeft_eq, Nat.shiftLeft_eq]
    omega
  simp only [headerFlags.marshall, h]

theorem flagByte_bits_mod : ∀ op < 32, ∀ qr aa tc rd : Bool,
    ((headerFlags.marshall ⟨qr, op, aa, tc, rd, false, 0, 0⟩).getD 0 0 &&& 120) >>> 3 = op % 16
      ∧ decide ((headerFlags.marshall ⟨qr, op, aa, tc, rd, false, 0, 0⟩).getD 0 0 &&& 1 = 1)
          = rd := by
  decide

/-- The fields of a header that decoding its encoding gives back, for every
header: the id and the opcode as far as they fit their 16 and 4 bits, and the
recursion-desired flag. -/
theorem unmarshallHeader_marshall_fields (h : dnsHeader) (spare : List Nat) :
    ∃ r, unmarshallHeader ⟨h.marshall, spare⟩ = .ret r
      ∧ r.Id = h.Id / 256 % 256 * 256 + h.Id % 256
      ∧ r.flags.OpCode = h.flags.OpCode % 16
      ∧ r.flags.RecrDes = h.flags.RecrDes
      ∧ r.flags.QueryResInd = true
      ∧ r.flags.ResCode = (if h.flags.OpCode % 16 ≠ 0 then 4 else 0)
      ∧ r.Qcount = 0 ∧ r.ARecCount = 0 ∧ r.AuthRecCount = 0 ∧ r.AddRecCount = 0 := by
  have hb := flagByte_bits_mod (h.flags.OpCode % 32) (Nat.mod_lt _ (by decide))
    h.flags.QueryResInd h.flags.AuthAns h.flags.Tc h.flags.RecrDes
  rw [← headerFlags_marshall_opcode_mod, ← headerFlags_marshall_first h.flags] at hb
  have hmod : h.flags.OpCode % 32 % 16 = h.flags.OpCode % 16 := by omega
  rw [hmod] at hb
  refine ⟨_, by rw [dnsHeader_marshall_cons]; exact unmarshallHeader_cons _ _ _ _ _ _,
    rfl, hb.1, hb.2, rfl, ?_, rfl, rfl, rfl, rfl⟩
  show (if (h.flags.marshall.getD 0 0 &&& 120) >>> 3 ≠ 0 then 4 else 0) = _
  rw [hb.1]

/-- C1, amended: for every valid message with at least one question and no
answer, whose question names are made of 1-63-byte labels without the bytes
`0x00` and `0xC0`, whose types lie in 1..255 and differ from 192 and whose
classes have a low byte other than `0x00` and `0xC0` and a high byte other
than `0xC0`, `Unmarshall` applied to the bytes of `Marshall`, with `size`
their length, returns a message with the same questions and, in the header,
the same id, the same opcode when it is at most 15 (its low four bits in
general), the same recursion-desired flag and the same `Qcount`;
`QueryResInd` is true, the response code is 4 for a non-zero opcode and 0
otherwise, the answers are one placeholder per question, `ARecCount` is their
number and the two other counts are 0. -/
theorem Unmarshall_Marshall_query (growth : Nat → Nat → Nat) (m : DnsMessage)
    (spare : List Nat) (hw : m.WellTyped) (hvalid : ValidMessage m)
    (hne : m.questions ≠ []) (hans : m.answers = [])
    (hq : ∀ q ∈ m.questions, CleanQuestion q) :
    ∃ bytes r, m.Marshall = .ok bytes
      ∧ Unmarshall growth ⟨bytes, spare⟩ (bytes.length : Int) = .ret (.ok r)
      ∧ r.questions = m.questions
      ∧ r.header.Id = m.header.Id
      ∧ r.header.flags.OpCode = m.header.flags.OpCode % 16
      ∧ (m.header.flags.OpCode ≤ 15 → r.header.flags.OpCode = m.header.flags.OpCode)
      ∧ r.header.flags.RecrDes = m.header.flags.RecrDes
      ∧ r.header.Qcount = m.header.Qcount
      ∧ r.header.flags.QueryResInd = true
      ∧ r.header.flags.ResCode = (if m.header.flags.OpCode % 16 ≠ 0 then 4 else 0)
      ∧ r.answers = m.questions.map placeholderAnswer
      ∧ r.header.ARecCount = m.questions.length
      ∧ r.header.AuthRecCount = 0 ∧ r.header.AddRecCount = 0 := by
  have hid : m.header.Id < 65536 := hw.1.1
  have hmod : m.questions.length % 65536 = m.questions.length :=
    Nat.mod_eq_of_lt (hvalid.1 ▸ hw.1.2.2.1)
  have hM := Marshall_eq_of_counts m (by rw [hmod]; exact hvalid.1)
    (by rw [hvalid.2.1, hans]; rfl)
  rw [hans] at hM
  simp only [List.map_nil, List.flatten_nil] at hM
  obtain ⟨hdr, hhdr, -, hU⟩ := Unmarshall_clean growth m.header.marshall [] spare m.questions
    (dnsHeader_marshall_length _) hne hq
  obtain ⟨r0, hr0, fid, fop, frd, fqr, frc, -, -, fauth, fadd⟩ :=
    unmarshallHeader_marshall_fields m.header (marshallQuestions m.questions ++ [] ++ spare)
  have hsame : hdr = r0 := by
    rw [hhdr] at hr0
    injection hr0
  subst hsame
  have hlen : ((m.header.marshall ++ marshallQuestions m.questions ++ []).length : Int)
      = ((12 + (marshallQuestions m.questions).length : Nat) : Int) := by
    simp [dnsHeader_marshall_length]
  refine ⟨_, (⟨{ hdr with Qcount := m.questions.length % 65536,
                            ARecCount := m.questions.length % 65536 },
    m.questions, m.questions.map placeholderAnswer⟩ : DnsMessage), hM, ?_, rfl, ?_, fop, ?_,
    frd, ?_, fqr, frc, rfl, hmod, fauth, fadd⟩
  · rw [hlen]
    exact hU
  · show hdr.Id = m.header.Id
    rw [fid]
    omega
  · intro hop
    show hdr.flags.OpCode = m.header.flags.OpCode
    rw [fop]
    omega
  · show m.questions.length % 65536 = m.header.Qcount
    rw [hmod]
    exact hvalid.1.symm

/-- A message with two questions, the second of class 257, opcode 2 and
recursion desired. -/
theorem Unmarshall_Marshall_query_witness :
    classyQuery.WellTyped ∧ ValidMessage classyQuery ∧ classyQuery.questions ≠ []
      ∧ classyQuery.answers = [] ∧ (∀ q ∈ classyQuery.questions, CleanQuestion q)
      ∧ ∃ bytes r, classyQuery.Marshall = .ok bytes
          ∧ Unmarshall noSpare ⟨bytes, [1, 2]⟩ (bytes.length : Int) = .ret (.ok r)
          ∧ r.questions = classyQuery.questions
          ∧ r.header.Id = classyQuery.header.Id
          ∧ r.header.flags.OpCode = classyQuery.header.flags.OpCode % 16
          ∧ (classyQuery.header.flags.OpCode ≤ 15 →
              r.header.flags.OpCode = classyQuery.header.flags.OpCode)
          ∧ r.header.flags.RecrDes = classyQuery.header.flags.RecrDes
          ∧ r.header.Qcount = classyQuery.header.Qcount
          ∧ r.header.flags.QueryResInd = true
          ∧ r.header.flags.ResCode = (if classyQuery.header.flags.OpCode % 16 ≠ 0 then 4 else 0)
          ∧ r.answers = classyQuery.questions.map placeholderAnswer
          ∧ r.header.ARecCount = classyQuery.questions.length
          ∧ r.header.AuthRecCount = 0 ∧ r.header.AddRecCount = 0 :=
  ⟨by decide, by decide, by decide, by decide, by decide,
    Unmarshall_Marshall_query noSpare classyQuery [1, 2] (by decide) (by decide) (by decide)
      (by decide) (by decide)⟩

/-! ## Consequences of the defects for whole packets -/

/-- The question with the one-label name `\x00`, type A and class IN, as
`dnsQuestion.marshall` encodes it, is read back by `unmarshallQuestion` as two
questions, neither of them the original. -/
theorem unmarshallQuestion_nul_label :
    (⟨[0], 1, 1⟩ : dnsQuestion).marshall = [1, 0, 0, 0, 1, 0, 1]
      ∧ unmarshallQuestion noSpare (Slice.ofList (⟨[0], 1, 1⟩ : dnsQuestion).marshall)
        = .ret [⟨[0], 0, 256⟩, ⟨[], 0, 0⟩] := by
  decide

/-- A query for the root name with type NS (2) and class IN is parsed to a
question with the empty name, which `marshall` encodes with one byte more than
was read. -/
theorem root_name_query_grows :
    Unmarshall noSpare (Slice.ofList (queryHeaderBytes 1 ++ [0, 0, 2, 0, 1])) 17
        = .ret (.ok { header := exampleParsed.header
                      questions := [⟨[], 2, 1⟩]
                      answers := [placeholderAnswer ⟨[], 2, 1⟩] })
      ∧ (⟨[], 2, 1⟩ : dnsQuestion).marshall = [0, 0, 0, 2, 0, 1]
      ∧ parseName (Slice.ofList (encodeDomain [])) = .ret ([], 1) := by
  decide

end DnsServer

namespace HttpServer
open DnsServer

/-! ## The route tree: theorems -/

theorem stringsSplit_of_not_mem (sep : Nat) (a : List Nat) (h : sep ∉ a) :
    stringsSplit sep a = [a] := by
  induction a with
  | nil => rfl
  | cons c cs ih =>
    have hc : c ≠ sep := fun e => h (by simp [e])
    have hcs : sep ∉ cs := fun e => h (by simp [e])
    simp [stringsSplit, hc, ih hcs]

theorem stringsSplit_append_sep (sep : Nat) (a b : List Nat) (h : sep ∉ a) :
    stringsSplit sep (a ++ sep :: b) = a :: stringsSplit sep b := by
  induction a with
  | nil => simp [stringsSplit]
  | cons c cs ih =>
    have hc : c ≠ sep := fun e => h (by simp [e])
    have hcs : sep ∉ cs := fun e => h (by simp [e])
    simp [stringsSplit, hc, ih hcs]

theorem echoServer_eq (hRoot hEcho : Handler) :
    echoServer hRoot hEcho = .ret
      { heap := [
          { path := [], template := false,
            childPaths := some [(bytesOf "echo", 1)], handler := some hRoot },
          { path := bytesOf "echo", template := false,
            childPaths := some [(bytesOf "\x7bstr\x7d", 2)], handler := none },
          { path := bytesOf "\x7bstr\x7d", template := true,
            childPaths := none, handler := some hEcho }],
        root := some 0,
        req := none } := by
  rfl

/-- What `handle` does on the server of `TestHandle` for a request path
`echo/v` whose segment `v` is not the text `{str}` itself: the handler of
`echo/{str}` is called with `params` equal to `[v]`. A `range` over a map may
visit the entries in any order. -/
theorem handle_echo_segment (rangeOrder : GoMap Nat → GoMap Nat)
    (hperm : ∀ m, (rangeOrder m).Perm m) (hRoot hEcho : Handler)
    (method : List Nat) (headers : GoMap (List Nat)) (body v : List Nat)
    (hslash : 47 ∉ v) (hv : v ≠ bytesOf "\x7bstr\x7d") :
    handleEcho rangeOrder hRoot hEcho (requestFor method (bytesOf "echo/" ++ v) headers body)
      = .ret (.invoked hEcho
          { method := method
            request := some { path := bytesOf "echo/" ++ v, params := [v] }
            headers := headers
            body := body }) := by
  have hsplit : stringsSplit 47 (bytesOf "echo/" ++ v) = [bytesOf "echo", v] := by
    have h := stringsSplit_append_sep 47 (bytesOf "echo") v (by decide)
    rw [stringsSplit_of_not_mem 47 v hslash] at h
    exact h
  have hrange : rangeOrder [(bytesOf "\x7bstr\x7d", 2)] = [(bytesOf "\x7bstr\x7d", 2)] :=
    List.perm_singleton.mp (hperm _)
  have hv2 : ¬ bytesOf "\x7bstr\x7d" = v := fun e => hv e.symm
  have hroot : ¬ ([] : List Nat) = bytesOf "echo/" ++ v := by
    intro e
    have := congrArg List.length e
    simp [bytesOf] at this
  unfold handleEcho
  rw [echoServer_eq, Go.bind_ret]
  simp only [handle, requestFor]
  simp only [List.getElem?_cons_zero, if_neg hroot, hsplit]
  simp [handleLoop, node.children, GoMap.get, hv2, hrange, Go.bind]

/-- C19 (code defect): on the server with the routes `""` and `echo/{str}`
registered, `handle` on the request path `echo/{str}`, whose segment `v` is the
text `{str}`, finds the template node by its own key in `childPaths` and calls
the handler of `echo/{str}` with `params` still empty, not with `[v]`. -/
theorem handle_literal_template_segment (rangeOrder : GoMap Nat → GoMap Nat)
    (hRoot hEcho : Handler) :
    handleEcho rangeOrder hRoot hEcho
        (requestFor (bytesOf "GET") (bytesOf "echo/" ++ bytesOf "\x7bstr\x7d") [] [])
      = .ret (.invoked hEcho
          { method := bytesOf "GET"
            request := some { path := bytesOf "echo/" ++ bytesOf "\x7bstr\x7d", params := [] }
            headers := []
            body := [] }) := by
  unfold handleEcho
  rw [echoServer_eq, Go.bind_ret]
  rfl

/-! ## Reading a request: theorems -/

theorem firstOccurrence_append (c : Nat) (sep a t : List Nat) (h : c ∉ a) :
    firstOccurrence (c :: sep) (a ++ t)
      = (firstOccurrence (c :: sep) t).map (· + a.length) := by
  induction a with
  | nil => simp
  | cons x xs ih =>
    have hx : ¬ c = x := fun e => h (by simp [e])
    have hxs : c ∉ xs := fun e => h (by simp [e])
    have hcx : (c == x) = false := by simp [hx]
    simp only [List.cons_append, firstOccurrence, List.isPrefixOf, hcx, List.append_eq,
      Bool.false_and, Bool.false_eq_true, if_false, ih hxs, Option.map_map, List.length_cons]
    congr 1

theorem firstOccurrence_prefix (c : Nat) (sep t : List Nat) :
    firstOccurrence (c :: sep) (c :: sep ++ t) = some 0 := by
  have : (c :: sep).isPrefixOf (c :: (sep ++ t)) = true := by
    rw [List.isPrefixOf_iff_prefix]
    exact List.prefix_append (c :: sep) t
  simp only [List.cons_append, firstOccurrence, List.append_eq, this, if_true]

theorem firstOccurrence_none (c : Nat) (sep a : List Nat) (h : c ∉ a) :
    firstOccurrence (c :: sep) a = none := by
  have := firstOccurrence_append c sep a [] h
  simpa [firstOccurrence] using this

theorem firstOccurrence_at (c : Nat) (sep a t : List Nat) (h : c ∉ a) :
    firstOccurrence (c :: sep) (a ++ (c :: sep ++ t)) = some a.length := by
  rw [firstOccurrence_append c sep a _ h, firstOccurrence_prefix]
  simp

theorem substr_take (s : List Nat) (n : Nat) (h : n ≤ s.length) :
    substr s 0 (n : Int) = .ret (s.take n) := by
  have : (0 : Int) ≤ 0 ∧ (0 : Int) ≤ (n : Int) ∧ (n : Int) ≤ (s.length : Int) := by omega
  simp [substr, this]

theorem substr_drop (s : List Nat) (n : Nat) (h : n ≤ s.length) :
    substr s (n : Int) (s.length : Int) = .ret (s.drop n) := by
  have : (0 : Int) ≤ (n : Int) ∧ (n : Int) ≤ (s.length : Int)
      ∧ (s.length : Int) ≤ (s.length : Int) := by omega
  simp [substr, this]

theorem crlfBlocks_cons (l : List Nat) (ls : List (List Nat)) :
    crlfBlocks (l :: ls) = 13 :: 10 :: (l ++ crlfBlocks ls) := by
  simp [crlfBlocks]

theorem crlfBlocks_headerLines (lines : List (List Nat)) (t : List Nat) :
    [13, 10] ++ ((lines.map fun l => l ++ [13, 10]).flatten ++ t)
      = crlfBlocks lines ++ ([13, 10] ++ t) := by
  induction lines with
  | nil => simp [crlfBlocks]
  | cons l ls ih =>
    rw [crlfBlocks_cons]
    simp only [List.map_cons, List.flatten_cons, List.append_assoc, List.cons_append,
      List.nil_append] at ih ⊢
    rw [ih]

theorem firstOccurrence_skip_crlf (x : Nat) (r : List Nat) (hx : x ≠ 13) :
    firstOccurrence [13, 10, 13, 10] (13 :: 10 :: x :: r)
      = (firstOccurrence [13, 10, 13, 10] (x :: r)).map (· + 2) := by
  have h1 : (13 == x) = false := by
    simp only [beq_eq_false_iff_ne]
    exact fun e => hx e.symm
  have h2 : ((13 : Nat) == 10) = false := by decide
  have h3 : ((10 : Nat) == 13) = false := by decide
  rw [firstOccurrence, firstOccurrence]
  simp only [List.isPrefixOf, h1, h2, h3, Bool.and_false, Bool.false_and, Bool.and_true,
    beq_self_eq_true, Bool.true_and, Bool.false_eq_true, if_false, Option.map_map]
  congr 1

/-- The empty line is found right after the last header line: the lines
hold no carriage return and none of them is empty. -/
theorem firstOccurrence_crlfBlocks (lines : List (List Nat)) (t : List Nat)
    (h : ∀ l ∈ lines, 13 ∉ l ∧ l ≠ []) :
    firstOccurrence [13, 10, 13, 10] (crlfBlocks lines ++ ([13, 10, 13, 10] ++ t))
      = some (crlfBlocks lines).length := by
  induction lines with
  | nil => simp [crlfBlocks, firstOccurrence, List.isPrefixOf]
  | cons l ls ih =>
    obtain ⟨h13, hne⟩ := h l (by simp)
    have ih := ih fun x hx => h x (by simp [hx])
    rw [crlfBlocks_cons]
    cases l with
    | nil => exact absurd rfl hne
    | cons x xs =>
      have hx : x ≠ 13 := fun e => h13 (by simp [e])
      have h1 := firstOccurrence_append 13 [10, 13, 10] (x :: xs)
        (crlfBlocks ls ++ ([13, 10, 13, 10] ++ t)) h13
      rw [ih] at h1
      have h2 := firstOccurrence_skip_crlf x
        (xs ++ (crlfBlocks ls ++ ([13, 10, 13, 10] ++ t))) hx
      simp only [List.cons_append, List.append_assoc] at h1 h2 ⊢
      rw [h2, h1]
      simp
      omega

/-- Splitting lines joined by CRLF gives the lines back. -/
theorem splitLoop_crlfBlocks (rest : List (List Nat)) :
    ∀ (fuel : Nat) (l : List Nat), 13 ∉ l → (∀ r ∈ rest, 13 ∉ r) →
      (crlfBlocks rest).length ≤ fuel →
      splitLoop [13, 10] fuel (l ++ crlfBlocks rest) = l :: rest := by
  induction rest with
  | nil =>
    intro fuel l hl _ _
    cases fuel with
    | zero => simp [splitLoop, crlfBlocks]
    | succ f => simp [splitLoop, crlfBlocks, firstOccurrence_none 13 [10] l hl]
  | cons r rs ih =>
    intro fuel l hl hrest hf
    rw [crlfBlocks_cons] at hf ⊢
    cases fuel with
    | zero => simp at hf
    | succ f =>
      have hocc := firstOccurrence_at 13 [10] l (r ++ crlfBlocks rs) hl
      simp only [List.cons_append, List.nil_append] at hocc
      simp only [splitLoop, hocc, List.take_left, List.length_cons, List.length_nil]
      have hdrop : List.drop (l.length + (0 + 1 + 1)) (l ++ 13 :: 10 :: (r ++ crlfBlocks rs))
          = r ++ crlfBlocks rs := by
        rw [List.drop_append]
        rfl
      rw [hdrop, ih f r (hrest r (by simp)) (fun x hx => hrest x (by simp [hx]))
        (by simp at hf; omega)]

theorem trimSpace_space (v : List Nat) : trimSpace (32 :: v) = trimSpace v := by
  have h : stripPrefixes spaceEncodings (32 :: v).length (32 :: v)
      = stripPrefixes spaceEncodings v.length v := by
    simp [stripPrefixes, spaceEncodings, List.find?, List.isPrefixOf]
  unfold trimSpace
  rw [h]

theorem GoMap.get_put {α : Type} (m : GoMap α) (k k2 : List Nat) (v : α) :
    (m.put k v).get k2 = if k = k2 then some v else m.get k2 := by
  induction m with
  | nil => simp [GoMap.put, GoMap.get]
  | cons e es ih =>
    by_cases he : e.1 = k
    · by_cases hk : k = k2
      · simp [GoMap.put, GoMap.get, he, hk]
      · simp [GoMap.put, GoMap.get, he, hk]
    · by_cases hk : e.1 = k2
      · have h1 : ¬ k = k2 := fun e2 => he (hk.trans e2.symm)
        have h2 : ¬ k2 = k := fun e2 => h1 e2.symm
        simp [GoMap.put, GoMap.get, hk, h1, h2]
      · simp [GoMap.put, GoMap.get, he, hk, ih]

theorem GoMap.keys_put {α : Type} (m : GoMap α) (k : List Nat) (v : α) :
    (m.put k v).map Prod.fst
      = if k ∈ m.map Prod.fst then m.map Prod.fst else m.map Prod.fst ++ [k] := by
  induction m with
  | nil => simp [GoMap.put]
  | cons e es ih =>
    by_cases he : e.1 = k
    · simp [GoMap.put, he]
    · have hk : ¬ k = e.1 := fun e2 => he e2.symm
      simp only [GoMap.put, he, if_false, List.map_cons, ih, List.mem_cons, hk, false_or]
      split <;> simp

theorem GoMap.nodup_put {α : Type} (m : GoMap α) (k : List Nat) (v : α)
    (h : (m.map Prod.fst).Nodup) : ((m.put k v).map Prod.fst).Nodup := by
  rw [GoMap.keys_put]
  split
  · exact h
  · rename_i hk
    rw [List.nodup_append]
    refine ⟨h, List.nodup_singleton k, ?_⟩
    intro a ha hb
    simp only [List.mem_singleton] at hb
    exact hk (hb ▸ ha)

/-- The header map after the loop: the lines are `<name>: <value>` with no
colon in the name. -/
theorem headersLoop_lines (hs : List (List Nat × List Nat)) :
    ∀ (m : GoMap (List Nat)), (∀ h ∈ hs, 58 ∉ h.1) →
      headersLoop (hs.map fun h => h.1 ++ ([58, 32] ++ h.2)) m
        = .ret (hs.foldl (fun acc h => acc.put h.1 (trimSpace h.2)) m) := by
  induction hs with
  | nil => intro m _; rfl
  | cons h t ih =>
    intro m hn
    have h58 : 58 ∉ h.1 := hn h (by simp)
    have hidx : stringsIndex (h.1 ++ ([58, 32] ++ h.2)) (bytesOf ":") = (h.1.length : Int) := by
      have := firstOccurrence_at 58 [] h.1 (32 :: h.2) h58
      simp only [List.cons_append, List.nil_append] at this
      show stringsIndex _ [58] = _
      simp only [stringsIndex, List.cons_append, List.nil_append, this]
    have hlen : (h.1 ++ ([58, 32] ++ h.2)).length = h.1.length + (h.2.length + 2) := by simp
    have hkey : substr (h.1 ++ ([58, 32] ++ h.2)) 0 (h.1.length : Int) = .ret h.1 := by
      rw [substr_take _ _ (by rw [hlen]; omega), List.take_left]
    have hval : substr (h.1 ++ ([58, 32] ++ h.2)) ((h.1.length : Int) + 1)
        ((h.1 ++ ([58, 32] ++ h.2)).length : Int) = .ret (32 :: h.2) := by
      have := substr_drop (h.1 ++ ([58, 32] ++ h.2)) (h.1.length + 1) (by rw [hlen]; omega)
      rw [List.drop_append] at this
      simpa using this
    simp only [List.map_cons, headersLoop, hidx, hkey, hval, Go.bind_ret, trimSpace_space,
      List.foldl_cons]
    exact ih _ fun x hx => hn x (by simp [hx])

theorem foldl_put_get (hs : List (List Nat × List Nat)) (f : List Nat → List Nat) :
    ∀ (m : GoMap (List Nat)) (k : List Nat),
      (hs.foldl (fun acc h => acc.put h.1 (f h.2)) m).get k
        = match hs.reverse.find? fun h => h.1 = k with
          | some h => some (f h.2)
          | none => m.get k := by
  induction hs with
  | nil => intro m k; rfl
  | cons h t ih =>
    intro m k
    rw [List.foldl_cons, ih, List.reverse_cons, List.find?_append]
    cases hfind : List.find? (fun h => decide (h.1 = k)) t.reverse with
    | some x => rfl
    | none =>
      by_cases hk : h.1 = k
      · simp [GoMap.get_put, hk]
      · simp [GoMap.get_put, hk]

theorem foldl_put_nodup (hs : List (List Nat × List Nat)) (f : List Nat → List Nat) :
    ∀ (m : GoMap (List Nat)), (m.map Prod.fst).Nodup →
      ((hs.foldl (fun acc h => acc.put h.1 (f h.2)) m).map Prod.fst).Nodup := by
  induction hs with
  | nil => intro m h; exact h
  | cons h t ih =>
    intro m hm
    rw [List.foldl_cons]
    exact ih _ (GoMap.nodup_put m _ _ hm)

theorem foldl_put_keys (hs : List (List Nat × List Nat)) (f : List Nat → List Nat) :
    ∀ (m : GoMap (List Nat)) (k : List Nat),
      k ∈ (hs.foldl (fun acc h => acc.put h.1 (f h.2)) m).map Prod.fst
        ↔ k ∈ m.map Prod.fst ∨ k ∈ hs.map Prod.fst := by
  induction hs with
  | nil => intro m k; simp
  | cons h t ih =>
    intro m k
    rw [List.foldl_cons, ih, GoMap.keys_put]
    split
    · rename_i hmem
      simp only [List.map_cons, List.mem_cons]
      constructor
      · rintro (h1 | h1)
        · exact Or.inl h1
        · exact Or.inr (Or.inr h1)
      · rintro (h1 | h1 | h1)
        · exact Or.inl h1
        · exact Or.inl (h1 ▸ hmem)
        · exact Or.inr h1
    · simp only [List.mem_append, List.mem_singleton, List.map_cons, List.mem_cons]
      tauto

theorem trimPrefix_append (pre s : List Nat) : trimPrefix (pre ++ s) pre = s := by
  have : pre.isPrefixOf (pre ++ s) = true := by
    rw [List.isPrefixOf_iff_prefix]
    exact List.prefix_append pre s
  simp [trimPrefix, this]

/-- What `readRequest` does on a request line of three parts followed by
header lines, an empty line and a body, before the header lines are read. -/
theorem readRequest_lines (method second version body l : List Nat) (ls : List (List Nat))
    (hmethod : 32 ∉ method ∧ 13 ∉ method) (hsecond : 32 ∉ second ∧ 13 ∉ second)
    (hversion : 13 ∉ version) (hlines : ∀ x ∈ l :: ls, 13 ∉ x ∧ x ≠ []) :
    readRequest ((method ++ 32 :: (second ++ 32 :: version))
        ++ (crlfBlocks (l :: ls) ++ ([13, 10, 13, 10] ++ body)))
      = (headersLoop (l :: ls) []).bind fun headers =>
          .ret { method := method
                 request := some { path := trimPrefix second (bytesOf "/"), params := [] }
                 headers := headers
                 body := body } := by
  have hL : 13 ∉ method ++ 32 :: (second ++ 32 :: version) := by
    simp [hmethod.2, hsecond.2, hversion]
  generalize hLdef : method ++ 32 :: (second ++ 32 :: version) = L at hL ⊢
  have hparts : stringsSplit 32 L = method :: second :: stringsSplit 32 version := by
    rw [← hLdef, stringsSplit_append_sep 32 method _ hmethod.1,
      stringsSplit_append_sep 32 second _ hsecond.1]
  generalize hRdef : crlfBlocks (l :: ls) ++ ([13, 10, 13, 10] ++ body) = R
  have hR : R = 13 :: 10 :: ((l ++ crlfBlocks ls) ++ ([13, 10, 13, 10] ++ body)) := by
    rw [← hRdef, crlfBlocks_cons]
    rfl
  have hidx1 : stringsIndex (L ++ R) (bytesOf "\r\n") = (L.length : Int) := by
    have := firstOccurrence_at 13 [10] L ((l ++ crlfBlocks ls) ++ ([13, 10, 13, 10] ++ body)) hL
    rw [hR]
    show stringsIndex _ [13, 10] = _
    simp only [stringsIndex]
    simp only [List.cons_append, List.nil_append] at this ⊢
    rw [this]
  have hsub1 : substr (L ++ R) 0 (L.length : Int) = .ret L := by
    rw [substr_take _ _ (by simp), List.take_left]
  have hsub2 : substr (L ++ R) (L.length : Int) ((L ++ R).length : Int) = .ret R := by
    rw [substr_drop _ _ (by simp), List.drop_left]
  have hidx2 : stringsIndex R (bytesOf "\r\n\r\n") = ((crlfBlocks (l :: ls)).length : Int) := by
    rw [← hRdef]
    show stringsIndex _ [13, 10, 13, 10] = _
    simp only [stringsIndex, firstOccurrence_crlfBlocks (l :: ls) body hlines]
  have hsub3 : substr R 0 ((crlfBlocks (l :: ls)).length : Int) = .ret (crlfBlocks (l :: ls)) := by
    rw [← hRdef, substr_take _ _ (by simp), List.take_left]
  have hsub4 : substr R (((crlfBlocks (l :: ls)).length : Int) + 4) (R.length : Int)
      = .ret body := by
    have := substr_drop R ((crlfBlocks (l :: ls)).length + 4)
      (by rw [← hRdef]; simp)
    rw [← hRdef] at this ⊢
    rw [List.drop_append] at this
    simpa using this
  have htrim : trimPrefix (crlfBlocks (l :: ls)) (bytesOf "\r\n") = l ++ crlfBlocks ls := by
    rw [crlfBlocks_cons]
    exact trimPrefix_append [13, 10] _
  have hsplit : stringsSplitSep (l ++ crlfBlocks ls) (bytesOf "\r\n") = l :: ls := by
    show splitLoop [13, 10] _ _ = _
    exact splitLoop_crlfBlocks ls _ l (hlines l (by simp)).1
      (fun r hr => (hlines r (by simp [hr])).1) (by simp)
  unfold readRequest
  simp only [hidx1, hsub1, Go.bind_ret, hparts, List.getElem?_cons_zero, List.getElem?_cons_succ,
    hsub2, hidx2, hsub3, htrim, hsplit, hsub4]

/-! ## Trimming white space -/

/-- What `stripPrefixes` returns, given enough fuel: the input without a
leading run of the encodings, and no encoding is a prefix of what is left. -/
theorem stripPrefixes_spec (encs : List (List Nat)) (hencs : ∀ e ∈ encs, e ≠ []) :
    ∀ (fuel : Nat) (s : List Nat), s.length ≤ fuel →
      ∃ parts : List (List Nat), (∀ p ∈ parts, p ∈ encs)
        ∧ s = parts.flatten ++ stripPrefixes encs fuel s
        ∧ ∀ e ∈ encs, ¬ e <+: stripPrefixes encs fuel s := by
  intro fuel
  induction fuel with
  | zero =>
    intro s hs
    have hnil : s = [] := List.length_eq_zero.mp (Nat.le_zero.mp hs)
    subst hnil
    refine ⟨[], by simp, by simp [stripPrefixes], ?_⟩
    intro e he hpre
    simp only [stripPrefixes] at hpre
    exact hencs e he (List.prefix_nil.mp hpre)
  | succ fuel ih =>
    intro s hs
    cases hfind : encs.find? (fun e => e.isPrefixOf s) with
    | none =>
      have hres : stripPrefixes encs (fuel + 1) s = s := by
        simp only [stripPrefixes, hfind]
      rw [hres]
      refine ⟨[], by simp, by simp, ?_⟩
      intro e he hpre
      have := List.find?_eq_none.mp hfind e he
      rw [List.isPrefixOf_iff_prefix] at this
      exact this hpre
    | some e =>
      have hres : stripPrefixes encs (fuel + 1) s = stripPrefixes encs fuel (s.drop e.length) := by
        simp only [stripPrefixes, hfind]
      have hmem : e ∈ encs := List.mem_of_find?_eq_some hfind
      have hpre : e <+: s := by
        have := List.find?_some hfind
        rwa [List.isPrefixOf_iff_prefix] at this
      have hse : s = e ++ s.drop e.length := by
        obtain ⟨t, rfl⟩ := hpre
        simp
      have hepos : 1 ≤ e.length := by
        cases e with
        | nil => exact absurd rfl (hencs _ hmem)
        | cons _ _ => simp
      obtain ⟨parts, hparts, hs2, hno⟩ := ih (s.drop e.length) (by
        rw [List.length_drop]
        omega)
      rw [hres]
      refine ⟨e :: parts, ?_, ?_, hno⟩
      · intro p hp
        rcases List.mem_cons.mp hp with h | h
        · exact h ▸ hmem
        · exact hparts p h
      · rw [List.flatten_cons, List.append_assoc, ← hs2]
        exact hse

theorem spaceEncodings_ne_nil : ∀ e ∈ spaceEncodings, e ≠ [] := by
  decide

theorem spaceEncodings_reverse_ne_nil : ∀ e ∈ spaceEncodings.map List.reverse, e ≠ [] := by
  decide

/-- The encodings `trimSpace` removes are those of the white-space code points. -/
theorem spaceEncodings_eq : spaceEncodings = whiteSpaceRunes.map utf8Encode := by
  decide

theorem spaceOnly_iff (s : List Nat) :
    SpaceOnly s
      ↔ ∃ parts : List (List Nat), (∀ p ∈ parts, p ∈ spaceEncodings) ∧ s = parts.flatten := by
  constructor
  · rintro ⟨runes, hr, rfl⟩
    refine ⟨runes.map utf8Encode, ?_, rfl⟩
    intro p hp
    obtain ⟨c, hc, rfl⟩ := List.mem_map.mp hp
    rw [spaceEncodings_eq]
    exact List.mem_map.mpr ⟨c, hr c hc, rfl⟩
  · rintro ⟨parts, hp, rfl⟩
    induction parts with
    | nil => exact ⟨[], by simp, rfl⟩
    | cons p ps ih =>
      obtain ⟨runes, hr, hflat⟩ := ih (fun q hq => hp q (by simp [hq]))
      have hpm := hp p (by simp)
      rw [spaceEncodings_eq] at hpm
      obtain ⟨c, hc, rfl⟩ := List.mem_map.mp hpm
      refine ⟨c :: runes, ?_, ?_⟩
      · intro x hx
        rcases List.mem_cons.mp hx with h | h
        · exact h ▸ hc
        · exact hr x h
      · simp [hflat]

theorem forall_spaceEncodings (P : List Nat → Prop) :
    (∀ c ∈ whiteSpaceRunes, P (utf8Encode c)) ↔ ∀ e ∈ spaceEncodings, P e := by
  rw [spaceEncodings_eq]
  constructor
  · intro h e he
    obtain ⟨c, hc, rfl⟩ := List.mem_map.mp he
    exact h c hc
  · intro h c hc
    exact h _ (List.mem_map.mpr ⟨c, hc, rfl⟩)

theorem trimmedOf_iff (s t : List Nat) :
    TrimmedOf s t
      ↔ (∃ pre suf,
            (∃ parts : List (List Nat), (∀ p ∈ parts, p ∈ spaceEncodings) ∧ pre = parts.flatten)
            ∧ (∃ parts : List (List Nat), (∀ p ∈ parts, p ∈ spaceEncodings)
                ∧ suf = parts.flatten)
            ∧ s = pre ++ t ++ suf)
          ∧ (∀ e ∈ spaceEncodings, ¬ e <+: t) ∧ (∀ e ∈ spaceEncodings, ¬ e <:+ t) := by
  simp only [TrimmedOf, spaceOnly_iff, forall_spaceEncodings (fun e => ¬ e <+: t),
    forall_spaceEncodings (fun e => ¬ e <:+ t)]

/-- Go `strings.TrimSpace` returns its argument with the surrounding white
space trimmed. -/
theorem trimSpace_spec (s : List Nat) : TrimmedOf s (trimSpace s) := by
  rw [trimmedOf_iff]
  obtain ⟨P, hP, hs1, hno1⟩ :=
    stripPrefixes_spec spaceEncodings spaceEncodings_ne_nil s.length s (Nat.le_refl _)
  generalize ht1 : stripPrefixes spaceEncodings s.length s = t1 at hs1 hno1
  obtain ⟨Q, hQ, hs2, hno2⟩ :=
    stripPrefixes_spec (spaceEncodings.map List.reverse) spaceEncodings_reverse_ne_nil
      t1.reverse.length t1.reverse (Nat.le_refl _)
  have hts : trimSpace s
      = (stripPrefixes (spaceEncodings.map List.reverse) t1.reverse.length t1.reverse).reverse := by
    simp only [trimSpace, ht1, List.length_reverse]
  generalize hr : stripPrefixes (spaceEncodings.map List.reverse) t1.reverse.length t1.reverse
    = r at hs2 hno2 hts
  rw [hts]
  have ht1r : t1 = r.reverse ++ (Q.reverse.map List.reverse).flatten := by
    have := congrArg List.reverse hs2
    rw [List.reverse_reverse, List.reverse_append, List.reverse_flatten] at this
    rw [this, List.map_reverse]
  refine ⟨⟨P.flatten, (Q.reverse.map List.reverse).flatten, ⟨P, hP, rfl⟩, ⟨_, ?_, rfl⟩, ?_⟩,
    ?_, ?_⟩
  · intro p hp
    obtain ⟨q, hq, rfl⟩ := List.mem_map.mp hp
    have hq2 := hQ q (List.mem_reverse.mp hq)
    obtain ⟨e, he, rfl⟩ := List.mem_map.mp hq2
    rw [List.reverse_reverse]
    exact he
  · rw [List.append_assoc, ← ht1r]
    exact hs1
  · intro e he hpre
    apply hno1 e he
    rw [ht1r]
    exact hpre.trans (List.prefix_append _ _)
  · intro e he hsuf
    apply hno2 e.reverse (List.mem_map.mpr ⟨e, he, rfl⟩)
    have := List.reverse_prefix.mpr hsuf
    rwa [List.reverse_reverse] at this

theorem spaceEncodings_prefix_free :
    ∀ e ∈ spaceEncodings, ∀ p ∈ spaceEncodings, e <+: p → e = p := by
  decide

theorem spaceEncodings_reverse_prefix_free :
    ∀ e ∈ spaceEncodings.map List.reverse, ∀ p ∈ spaceEncodings.map List.reverse,
      e <+: p → e = p := by
  decide

/-- No byte after the first of an encoding is the first byte of an encoding. -/
theorem spaceEncodings_inner_bytes :
    ∀ e ∈ spaceEncodings, ∀ p ∈ spaceEncodings, ∀ k < e.length, 1 ≤ k → e[k]? ≠ p[0]? := by
  decide

/-- With a prefix-free set of encodings, `stripPrefixes` removes a leading run
of encodings entirely when no encoding is a prefix of what follows it. -/
theorem stripPrefixes_flatten (encs : List (List Nat)) (hencs : ∀ e ∈ encs, e ≠ [])
    (hfree : ∀ e ∈ encs, ∀ p ∈ encs, e <+: p → e = p) (r : List Nat)
    (hr : ∀ e ∈ encs, ¬ e <+: r) :
    ∀ (parts : List (List Nat)) (fuel : Nat), (∀ p ∈ parts, p ∈ encs) →
      (parts.flatten ++ r).length ≤ fuel →
      stripPrefixes encs fuel (parts.flatten ++ r) = r := by
  intro parts
  induction parts with
  | nil =>
    intro fuel _ _
    simp only [List.flatten_nil, List.nil_append]
    cases fuel with
    | zero => rfl
    | succ f =>
      have hnone : encs.find? (fun e => e.isPrefixOf r) = none := by
        rw [List.find?_eq_none]
        intro e he
        rw [List.isPrefixOf_iff_prefix]
        exact hr e he
      simp only [stripPrefixes, hnone]
  | cons e ps ih =>
    intro fuel hparts hfuel
    have he : e ∈ encs := hparts e (by simp)
    have hepos : 1 ≤ e.length := by
      cases e with
      | nil => exact absurd rfl (hencs _ he)
      | cons _ _ => simp
    have hs : (e :: ps).flatten ++ r = e ++ (ps.flatten ++ r) := by simp
    rw [hs] at hfuel ⊢
    cases fuel with
    | zero =>
      rw [List.length_append] at hfuel
      omega
    | succ f =>
      have hpe : e <+: e ++ (ps.flatten ++ r) := List.prefix_append _ _
      cases hfind : encs.find? (fun x => x.isPrefixOf (e ++ (ps.flatten ++ r))) with
      | none =>
        have := List.find?_eq_none.mp hfind e he
        rw [List.isPrefixOf_iff_prefix] at this
        exact absurd hpe this
      | some x =>
        have hx : x ∈ encs := List.mem_of_find?_eq_some hfind
        have hpx : x <+: e ++ (ps.flatten ++ r) := by
          have := List.find?_some hfind
          rwa [List.isPrefixOf_iff_prefix] at this
        have hxe : x = e := by
          rcases Nat.le_total x.length e.length with hle | hle
          · exact hfree x hx e he (List.prefix_of_prefix_length_le hpx hpe hle)
          · exact (hfree e he x hx (List.prefix_of_prefix_length_le hpe hpx hle)).symm
        subst hxe
        simp only [stripPrefixes, hfind, List.drop_left]
        exact ih f (fun p hp => hparts p (by simp [hp])) (by
          rw [List.length_append] at hfuel
          omega)

/-- A non-empty string that starts with no white-space code point still
starts with none when white space is appended. -/
theorem no_space_prefix_append (t suf : List Nat) (ht : t ≠ [])
    (hno : ∀ e ∈ spaceEncodings, ¬ e <+: t)
    (hsuf : ∃ parts : List (List Nat), (∀ p ∈ parts, p ∈ spaceEncodings) ∧ suf = parts.flatten) :
    ∀ e ∈ spaceEncodings, ¬ e <+: t ++ suf := by
  intro e he hpre
  rcases Nat.le_total e.length t.length with hle | hle
  · exact hno e he (List.prefix_of_prefix_length_le hpre (List.prefix_append _ _) hle)
  · obtain ⟨e2, he2⟩ := List.prefix_of_prefix_length_le (List.prefix_append t suf) hpre hle
    obtain ⟨x, hx⟩ := hpre
    have hsufeq : suf = e2 ++ x := by
      rw [← he2, List.append_assoc] at hx
      exact (List.append_cancel_left hx).symm
    have htpos : 1 ≤ t.length := by
      cases t with
      | nil => exact absurd rfl ht
      | cons _ _ => simp
    have he2ne : e2 ≠ [] := by
      intro h
      rw [h, List.append_nil] at he2
      exact hno e he (he2 ▸ List.prefix_refl _)
    have hk : t.length < e.length := by
      rw [← he2, List.length_append]
      cases e2 with
      | nil => exact absurd rfl he2ne
      | cons _ _ => simp
    obtain ⟨parts, hparts, hflat⟩ := hsuf
    -- the first byte of `suf` is a byte of `e` after its first
    have h1 : suf[0]? = e[t.length]? := by
      rw [hsufeq, ← he2, List.getElem?_append_right (Nat.le_refl _), Nat.sub_self]
      cases e2 with
      | nil => exact absurd rfl he2ne
      | cons _ _ => simp
    -- and it is the first byte of an encoding
    have h2 : ∃ p ∈ spaceEncodings, suf[0]? = p[0]? := by
      have hsufne : suf ≠ [] := by
        rw [hsufeq]
        cases e2 with
        | nil => exact absurd rfl he2ne
        | cons _ _ => simp
      clear h1 hsufeq
      subst hflat
      induction parts with
      | nil => exact absurd rfl hsufne
      | cons p ps _ =>
        have hp : p ∈ spaceEncodings := hparts p (by simp)
        refine ⟨p, hp, ?_⟩
        cases p with
        | nil => exact absurd rfl (spaceEncodings_ne_nil _ hp)
        | cons _ _ => simp
    obtain ⟨p, hp, h3⟩ := h2
    exact spaceEncodings_inner_bytes e he p hp t.length hk htpos (h1.symm.trans h3)

/-- The trimmed string is unique: `TrimmedOf s` holds of `trimSpace s` only. -/
theorem TrimmedOf.eq_trimSpace {s t : List Nat} (h : TrimmedOf s t) : t = trimSpace s := by
  rw [trimmedOf_iff] at h
  obtain ⟨⟨pre, suf, ⟨P, hP, rfl⟩, ⟨S, hS, hsuf⟩, hs⟩, hnopre, hnosuf⟩ := h
  have hrev : ∀ e ∈ spaceEncodings.map List.reverse, ¬ e <+: t.reverse := by
    intro e he hpre
    obtain ⟨x, hx, rfl⟩ := List.mem_map.mp he
    exact hnosuf x hx (List.reverse_prefix.mp hpre)
  have hSrev : ∀ p ∈ S.reverse.map List.reverse, p ∈ spaceEncodings.map List.reverse := by
    intro p hp
    obtain ⟨q, hq, rfl⟩ := List.mem_map.mp hp
    exact List.mem_map.mpr ⟨q, hS q (List.mem_reverse.mp hq), rfl⟩
  have hsufrev : suf.reverse = (S.reverse.map List.reverse).flatten := by
    rw [hsuf, List.reverse_flatten, List.map_reverse]
  by_cases ht : t = []
  · subst ht
    have hall : s = (P ++ S).flatten ++ [] := by
      rw [hs, hsuf]
      simp
    have h1 : stripPrefixes spaceEncodings s.length s = [] := by
      have := stripPrefixes_flatten spaceEncodings spaceEncodings_ne_nil
        spaceEncodings_prefix_free [] (fun e he hpre =>
          spaceEncodings_ne_nil e he (List.prefix_nil.mp hpre)) (P ++ S) s.length
        (by
          intro p hp
          rcases List.mem_append.mp hp with h | h
          · exact hP p h
          · exact hS p h) (by rw [← hall])
      rw [← hall] at this
      exact this
    simp [trimSpace, h1, stripPrefixes]
  · have h1 : stripPrefixes spaceEncodings s.length s = t ++ suf := by
      have := stripPrefixes_flatten spaceEncodings spaceEncodings_ne_nil
        spaceEncodings_prefix_free (t ++ suf)
        (no_space_prefix_append t suf ht hnopre ⟨S, hS, hsuf⟩) P s.length hP
        (by rw [hs, List.append_assoc])
      rw [hs, List.append_assoc]
      rw [hs, List.append_assoc] at this
      exact this
    have h2 : stripPrefixes (spaceEncodings.map List.reverse) (t ++ suf).length
        (t ++ suf).reverse = t.reverse := by
      have := stripPrefixes_flatten (spaceEncodings.map List.reverse)
        spaceEncodings_reverse_ne_nil spaceEncodings_reverse_prefix_free t.reverse hrev
        (S.reverse.map List.reverse) (t ++ suf).length hSrev
        (by rw [← hsufrev, ← List.reverse_append, List.length_reverse])
      rw [← hsufrev, ← List.reverse_append] at this
      exact this
    simp only [trimSpace, h1, h2, List.reverse_reverse]

/-- What `readRequest` returns on a well-formed request text, with the header
values written as results of `trimSpace`. -/
theorem readRequest_returns (method path version body : List Nat)
    (headers : List (List Nat × List Nat))
    (hmethod : 32 ∉ method ∧ 13 ∉ method) (hpath : 32 ∉ path ∧ 13 ∉ path)
    (hversion : 13 ∉ version) (hne : headers ≠ [])
    (hnames : ∀ h ∈ headers, 58 ∉ h.1 ∧ 13 ∉ h.1) (hvalues : ∀ h ∈ headers, 13 ∉ h.2) :
    ∃ r, readRequest (requestText method path version headers body) = .ret r
      ∧ r.method = method
      ∧ r.request = some { path := path, params := [] }
      ∧ (r.headers.map Prod.fst).Nodup
      ∧ (∀ k, k ∈ r.headers.map Prod.fst ↔ k ∈ headers.map Prod.fst)
      ∧ (∀ k, r.headers.get k
          = (headers.reverse.find? fun h => h.1 = k).map fun h => trimSpace h.2)
      ∧ r.body = body := by
  have htext : requestText method path version headers body
      = (method ++ 32 :: ((47 :: path) ++ 32 :: version))
        ++ (crlfBlocks (headers.map fun h => h.1 ++ ([58, 32] ++ h.2))
          ++ ([13, 10, 13, 10] ++ body)) := by
    have h1 := crlfBlocks_headerLines (headers.map fun h => h.1 ++ ([58, 32] ++ h.2))
      ([13, 10] ++ body)
    have h2 : (headers.map headerLine)
        = List.map (fun l => l ++ [13, 10]) (headers.map fun h => h.1 ++ ([58, 32] ++ h.2)) := by
      rw [List.map_map]
      apply List.map_congr_left
      intro h _
      show h.1 ++ [58, 32] ++ h.2 ++ [13, 10] = _
      simp
    show method ++ [32, 47] ++ path ++ [32] ++ version ++ [13, 10]
      ++ (headers.map headerLine).flatten ++ [13, 10] ++ body = _
    rw [h2]
    simp only [List.append_assoc, List.cons_append, List.nil_append] at h1 ⊢
    rw [h1]
  obtain ⟨h0, t, rfl⟩ := List.exists_cons_of_ne_nil hne
  have hlines : ∀ x ∈ (h0 :: t).map (fun h => h.1 ++ ([58, 32] ++ h.2)), 13 ∉ x ∧ x ≠ [] := by
    intro x hx
    obtain ⟨h, hh, rfl⟩ := List.mem_map.mp hx
    refine ⟨?_, by simp⟩
    simp [(hnames h hh).2, hvalues h hh]
  have hloop := headersLoop_lines (h0 :: t) [] fun h hh => (hnames h hh).1
  rw [htext]
  rw [List.map_cons] at hlines hloop ⊢
  rw [readRequest_lines method (47 :: path) version body _ _ hmethod
    (by simp [hpath.1, hpath.2]) hversion hlines, hloop, Go.bind_ret]
  refine ⟨_, rfl, rfl, ?_, ?_, ?_, ?_, rfl⟩
  · exact congrArg (fun p => some (reqPath.mk p [])) (trimPrefix_append [47] path)
  · exact foldl_put_nodup (h0 :: t) trimSpace [] (by simp)
  · intro k
    rw [foldl_put_keys]
    simp
  · intro k
    rw [foldl_put_get]
    cases List.find? (fun h => decide (h.1 = k)) (h0 :: t).reverse <;> rfl

/-- C18: for a request text made of a request line `<method> /<path> <version>`
ended by CRLF (method and path without space or carriage return, version
without carriage return), one or more header lines `<name>: <value>` each
ended by CRLF (names without colon or carriage return, values without carriage
return), an empty line and a body, `readRequest` returns, with the method, the
path without its leading `/` and empty `params`, a header map with one entry
per distinct name and none for another name, in which each name has the value
of its last line with the surrounding white space trimmed (the one string `v`
with `TrimmedOf value v`), and the body after the empty line. -/
theorem readRequest_well_formed (method path version body : List Nat)
    (headers : List (List Nat × List Nat))
    (hmethod : 32 ∉ method ∧ 13 ∉ method) (hpath : 32 ∉ path ∧ 13 ∉ path)
    (hversion : 13 ∉ version) (hne : headers ≠ [])
    (hnames : ∀ h ∈ headers, 58 ∉ h.1 ∧ 13 ∉ h.1) (hvalues : ∀ h ∈ headers, 13 ∉ h.2) :
    ∃ r, readRequest (requestText method path version headers body) = .ret r
      ∧ r.method = method
      ∧ r.request = some { path := path, params := [] }
      ∧ (r.headers.map Prod.fst).Nodup
      ∧ (∀ k, k ∈ r.headers.map Prod.fst ↔ k ∈ headers.map Prod.fst)
      ∧ (∀ k, k ∉ headers.map Prod.fst → r.headers.get k = none)
      ∧ (∀ k h, headers.reverse.find? (fun x => x.1 = k) = some h →
          ∃ v, r.headers.get k = some v ∧ TrimmedOf h.2 v ∧ ∀ w, TrimmedOf h.2 w → w = v)
      ∧ r.body = body := by
  obtain ⟨r, hr, hm, hp, hnd, hkeys, hget, hb⟩ :=
    readRequest_returns method path version body headers hmethod hpath hversion hne hnames
      hvalues
  refine ⟨r, hr, hm, hp, hnd, hkeys, ?_, ?_, hb⟩
  · intro k hk
    rw [hget]
    have hnone : List.find? (fun h => decide (h.1 = k)) headers.reverse = none := by
      rw [List.find?_eq_none]
      intro x hx hxk
      exact hk (List.mem_map.mpr ⟨x, List.mem_reverse.mp hx, by simpa using hxk⟩)
    rw [hnone]
    rfl
  · intro k h hfind
    refine ⟨trimSpace h.2, ?_, trimSpace_spec h.2, fun w hw => hw.eq_trimSpace⟩
    rw [hget, hfind]
    rfl

/-- A request whose header values are surrounded by white space and whose
second `Host` line replaces the first one, and the request with a body of
`TestReadRequest`. -/
theorem readRequest_well_formed_witness :
    requestText (bytesOf "GET") (bytesOf "echo/abc") (bytesOf "HTTP/1.1") paddedHeaders []
        = bytesOf
          "GET /echo/abc HTTP/1.1\r\nHost:  localhost:4221  \r\nUser-Agent: \tfoobar/1.2.3 \r\nHost: example.org\r\n\r\n"
      ∧ readRequest
          (requestText (bytesOf "GET") (bytesOf "echo/abc") (bytesOf "HTTP/1.1") paddedHeaders [])
        = .ret { method := bytesOf "GET"
                 request := some { path := bytesOf "echo/abc", params := [] }
                 headers := [(bytesOf "Host", bytesOf "example.org"),
                             (bytesOf "User-Agent", bytesOf "foobar/1.2.3")]
                 body := [] }
      ∧ readRequest (bytesOf
          "POST /user-agent HTTP/1.1\r\nHost: localhost:4221\r\nUser-Agent: foobar/1.2.3\r\nAccept: */*\r\n\r\n12345")
        = .ret { method := [80, 79, 83, 84]
                 request := some { path := bytesOf "user-agent", params := [] }
                 headers := [(bytesOf "Host", bytesOf "localhost:4221"),
                             (bytesOf "User-Agent",
                               [102, 111, 111, 98, 97, 114, 47, 49, 46, 50, 46, 51]),
                             (bytesOf "Accept", bytesOf "*/*")]
                 body := [49, 50, 51, 52, 53] }
      ∧ ∃ r, readRequest
            (requestText (bytesOf "GET") (bytesOf "echo/abc") (bytesOf "HTTP/1.1")
              paddedHeaders []) = .ret r
        ∧ r.method = bytesOf "GET"
        ∧ r.request = some { path := bytesOf "echo/abc", params := [] }
        ∧ (r.headers.map Prod.fst).Nodup
        ∧ (∀ k, k ∈ r.headers.map Prod.fst ↔ k ∈ paddedHeaders.map Prod.fst)
        ∧ (∀ k, k ∉ paddedHeaders.map Prod.fst → r.headers.get k = none)
        ∧ (∀ k h, paddedHeaders.reverse.find? (fun x => x.1 = k) = some h →
            ∃ v, r.headers.get k = some v ∧ TrimmedOf h.2 v ∧ ∀ w, TrimmedOf h.2 w → w = v)
        ∧ r.body = [] :=
  ⟨by decide, by decide, by decide,
    readRequest_well_formed (bytesOf "GET") (bytesOf "echo/abc") (bytesOf "HTTP/1.1") []
      paddedHeaders (by decide) (by decide) (by decide) (by decide) (by decide) (by decide)⟩

end HttpServer
